import Mathlib

/-!
ZXing `BitMatrix`: a shallow embedding and its verified properties.

The packed-bit raster of `core/src/BitMatrix.h` / `BitMatrix.cpp` is embedded as pure
functions over an explicit state.

* C++ `int` values are mathematical integers (`Int`). Signed overflow is undefined behaviour
  in C++: the two sums of `setRegion` are checked for it (`fitsInt`) and an overflow is
  reported as `Err.undefinedBehaviour`; the index arithmetic of the raster is exact, and a
  theorem that ranges over arbitrary coordinates carries the hypothesis that this arithmetic
  is representable.
* `uint32_t` storage words are natural numbers below `2 ^ 32`; operations that can leave that
  range are reduced modulo `2 ^ 32`.
* `std::vector<uint32_t>` is a `List Nat`.
* A mutating member function returns an `Outcome`: the exception it threw (if any) together
  with the state of the object afterwards.  Unchecked accesses outside the vector and division
  by zero, which are undefined behaviour in C++, are reported as `Err.undefinedBehaviour`.
-/

namespace ZXing

/-! ## Definitions -/

/-- Failure kinds: `std::out_of_range`, `std::invalid_argument`, undefined behaviour
(an unchecked access outside a vector, a shift by an amount outside `0 .. 31`, a division by
zero, a signed overflow), and exhaustion of the iteration bound that the model gives to a
`while` loop. -/
inductive Err where
  | outOfRange
  | invalidArgument
  | undefinedBehaviour
  | outOfFuel
  deriving DecidableEq, Repr

deriving instance DecidableEq for Except

/-- Result of a mutating member function: the exception thrown, if any, and the object state
after the call. -/
structure Outcome (σ : Type) where
  err : Option Err
  state : σ
  deriving DecidableEq, Repr

/-- The class `BitMatrix`: `_width`, `_height`, `_rowSize`, `_bits`. -/
structure BitMatrix where
  width : Int
  height : Int
  rowSize : Int
  bits : List Nat
  deriving DecidableEq, Repr

/-- Modelled from the spec: the class `BitArray` (declared in `BitArray.h`, which is not among
the sources): "a row-shaped bit sequence, same packing convention as a raster row", with its
length in bits `_size` and its packed words `_bits`. -/
structure BitArray where
  size : Int
  bits : List Nat
  deriving DecidableEq, Repr

/-- Checked element access `v.at(i)`: the `int` index is converted to `size_t`, so a negative
index is out of range like one that is too large. -/
def vecAt (v : List Nat) (i : Int) : Except Err Nat :=
  if 0 ≤ i ∧ i < v.length then .ok (v.getD i.toNat 0) else .error .outOfRange

/-- Unchecked element read `v[i]`. -/
def rawAt (v : List Nat) (i : Int) : Except Err Nat :=
  if 0 ≤ i ∧ i < v.length then .ok (v.getD i.toNat 0) else .error .undefinedBehaviour

/-- Unchecked element update `v[i] = f(v[i])`. -/
def rawModify (v : List Nat) (i : Int) (f : Nat → Nat) : Except Err (List Nat) :=
  if 0 ≤ i ∧ i < v.length then .ok (v.set i.toNat (f (v.getD i.toNat 0)))
  else .error .undefinedBehaviour

/-- The loop `for (int i = lo; i < hi; i++) body`, threading a state and stopping at the first
failure. -/
def forLoop {σ : Type} (lo hi : Int) (body : σ → Int → Except Err σ) (s : σ) : Except Err σ :=
  (List.range (hi - lo).toNat).foldlM (fun (s : σ) (k : Nat) => body s (lo + (k : Int))) s

/-- Storage-word index of a coordinate: `y * _rowSize + (x / 32)`, with C++ division truncating
toward zero. -/
def BitMatrix.wordIndex (m : BitMatrix) (x y : Int) : Int :=
  y * m.rowSize + x.tdiv 32

/-- Bit position of a column inside its word: `x & 0x1f`. -/
def bitIndex (x : Int) : Nat :=
  (Int.land x 31).toNat

/-- Constructor `BitMatrix(int width, int height)`. -/
def BitMatrix.new (width height : Int) : BitMatrix :=
  { width := width
    height := height
    rowSize := (width + 31).tdiv 32
    bits := List.replicate (((width + 31).tdiv 32) * height).toNat 0 }

/-- Modelled from the spec: constructor `BitArray(int size)` of the absent `BitArray.h`, an
all-zero line of `size` bits packed like a raster row. -/
def BitArray.new (size : Int) : BitArray :=
  { size := size
    bits := List.replicate ((size + 31).tdiv 32).toNat 0 }

/-- Modelled from the spec: `BitArray::get(i)` of the absent `BitArray.h`, bit `i` of the line
under the raster's packing convention (word `i / 32`, bit `i mod 32`, checked access). -/
def BitArray.get (a : BitArray) (i : Int) : Except Err Bool :=
  match vecAt a.bits (i.tdiv 32) with
  | .error e => .error e
  | .ok w => .ok (((w >>> bitIndex i) &&& 1) != 0)

/-- `BitMatrix::get`. -/
def BitMatrix.get (m : BitMatrix) (x y : Int) : Except Err Bool :=
  match vecAt m.bits (m.wordIndex x y) with
  | .error e => .error e
  | .ok w => .ok (((w >>> bitIndex x) &&& 1) != 0)

/-- `BitMatrix::set`: `_bits.at(i) |= 1 << (x & 0x1f)`. -/
def BitMatrix.set (m : BitMatrix) (x y : Int) : Outcome BitMatrix :=
  match vecAt m.bits (m.wordIndex x y) with
  | .error e => ⟨some e, m⟩
  | .ok w => ⟨none, { m with bits := m.bits.set (m.wordIndex x y).toNat (w ||| (1 <<< bitIndex x)) }⟩

/-- `BitMatrix::unset`: `_bits.at(i) &= ~(1 << (x & 0x1f))`. -/
def BitMatrix.unset (m : BitMatrix) (x y : Int) : Outcome BitMatrix :=
  match vecAt m.bits (m.wordIndex x y) with
  | .error e => ⟨some e, m⟩
  | .ok w =>
    ⟨none, { m with bits := m.bits.set (m.wordIndex x y).toNat (w &&& (4294967295 - (1 <<< bitIndex x))) }⟩

/-- `BitMatrix::flip`: `_bits.at(i) ^= 1 << (x & 0x1f)`. -/
def BitMatrix.flip (m : BitMatrix) (x y : Int) : Outcome BitMatrix :=
  match vecAt m.bits (m.wordIndex x y) with
  | .error e => ⟨some e, m⟩
  | .ok w => ⟨none, { m with bits := m.bits.set (m.wordIndex x y).toNat (w ^^^ (1 <<< bitIndex x)) }⟩

/-- `BitMatrix::flipAll`: every storage word is complemented. -/
def BitMatrix.flipAll (m : BitMatrix) : BitMatrix :=
  { m with bits := m.bits.map (fun i => 4294967295 - i) }

/-- The value is representable in the 32-bit `int` of the source. -/
def fitsInt (v : Int) : Prop :=
  -2147483648 ≤ v ∧ v ≤ 2147483647

instance (v : Int) : Decidable (fitsInt v) := by
  unfold fitsInt
  infer_instance

/-- `BitMatrix::setRegion`. The sums `left + width` and `top + height` are additions of
`int` values: a sum that is not representable is a signed overflow, which is undefined
behaviour, and the guard that follows is then not reached with the mathematical sum. -/
def BitMatrix.setRegion (m : BitMatrix) (left top width height : Int) : Outcome BitMatrix :=
  if top < 0 ∨ left < 0 then ⟨some .invalidArgument, m⟩
  else if height < 1 ∨ width < 1 then ⟨some .invalidArgument, m⟩
  else if ¬ fitsInt (left + width) ∨ ¬ fitsInt (top + height) then ⟨some .undefinedBehaviour, m⟩
  else
    let right := left + width
    let bottom := top + height
    if bottom > m.height ∨ right > m.width then ⟨some .invalidArgument, m⟩
    else
      match forLoop top bottom (fun bits y =>
              let offset := y * m.rowSize
              forLoop left right (fun bits x =>
                rawModify bits (offset + x.tdiv 32) (fun w => w ||| (1 <<< bitIndex x))) bits)
            m.bits with
      | .error e => ⟨some e, m⟩
      | .ok bits => ⟨none, { m with bits := bits }⟩

/-- `std::copy_n(src.begin() + start, n, dst.begin() + dest)` on vectors; reading or writing
outside either vector is undefined behaviour. -/
def copyWords (src : List Nat) (start n : Int) (dst : List Nat) (dest : Int) :
    Except Err (List Nat) :=
  if n ≤ 0 then .ok dst
  else if 0 ≤ start ∧ start + n ≤ src.length ∧ 0 ≤ dest ∧ dest + n ≤ dst.length then
    .ok (dst.take dest.toNat ++ (src.drop start.toNat).take n.toNat ++ dst.drop (dest + n).toNat)
  else .error .undefinedBehaviour

/-- `BitMatrix::getRow`; the raster is `const`, the outcome carries the scratch line. -/
def BitMatrix.getRow (m : BitMatrix) (y : Int) (row : BitArray) : Outcome BitArray :=
  if y < 0 ∨ y ≥ m.height then ⟨some .outOfRange, row⟩
  else
    let row := if row.size ≠ m.width then BitArray.new m.width else row
    match copyWords m.bits (y * m.rowSize) m.rowSize row.bits 0 with
    | .error e => ⟨some e, row⟩
    | .ok bits => ⟨none, { row with bits := bits }⟩

/-- `BitMatrix::setRow`. -/
def BitMatrix.setRow (m : BitMatrix) (y : Int) (row : BitArray) : Outcome BitMatrix :=
  if (row.bits.length : Int) ≠ m.rowSize then ⟨some .invalidArgument, m⟩
  else
    match copyWords row.bits 0 row.bits.length m.bits (y * m.rowSize) with
    | .error e => ⟨some e, m⟩
    | .ok bits => ⟨none, { m with bits := bits }⟩

/-- Bit `k` of the packed bit stream of a word vector: word `k / 32`, bit `k mod 32`. -/
def streamBit (bits : List Nat) (k : Nat) : Bool :=
  (bits.getD (k / 32) 0).testBit (k % 32)

/-- The number whose bits `0 .. n-1` are `f 0 .. f (n-1)`. -/
def packBits (f : Nat → Bool) : Nat → Nat
  | 0 => 0
  | n + 1 => packBits f n ||| (if f n then 2 ^ n else 0)

/-- The vector of `n` words whose packed bit stream is `f`. -/
def ofStream (n : Nat) (f : Nat → Bool) : List Nat :=
  (List.range n).map (fun i => packBits (fun j => f (32 * i + j)) 32)

/-- Modelled from the spec: `BitHacks::Reverse(bits, padding)` of the absent `BitHacks.h`,
"a full-buffer bit-reversal with a compensating shift for the padding": the whole bit stream
is reversed, which brings the `padding` unused bits of the last row to the front, and is then
shifted down by `padding` positions, zeros entering at the far end. -/
def Reverse (bits : List Nat) (padding : Nat) : List Nat :=
  let n := 32 * bits.length
  let reversed := ofStream bits.length (fun k => streamBit bits (n - 1 - k))
  ofStream bits.length (fun k => decide (k + padding < n) && streamBit reversed (k + padding))

/-- `BitMatrix::rotate180`: `BitHacks::Reverse(_bits, _rowSize * 32 - _width)`. -/
def BitMatrix.rotate180 (m : BitMatrix) : BitMatrix :=
  { m with bits := Reverse m.bits (m.rowSize * 32 - m.width).toNat }

/-- The loop `while ((theBits << (31 - bit)) == 0) bit++` on a `uint32_t`, with an iteration
bound. -/
def lowBitLoop (theBits : Nat) : Nat → Int → Except Err Int
  | 0, _ => .error .outOfFuel
  | fuel + 1, bit =>
    if 31 - bit < 0 ∨ 31 < 31 - bit then .error .undefinedBehaviour
    else if (theBits <<< (31 - bit).toNat) % 4294967296 = 0 then lowBitLoop theBits fuel (bit + 1)
    else .ok bit

/-- The loop `while ((theBits >> bit) == 0) bit--` on a `uint32_t`, with an iteration bound. -/
def highBitLoop (theBits : Nat) : Nat → Int → Except Err Int
  | 0, _ => .error .outOfFuel
  | fuel + 1, bit =>
    if bit < 0 ∨ 31 < bit then .error .undefinedBehaviour
    else if theBits >>> bit.toNat = 0 then highBitLoop theBits fuel (bit - 1)
    else .ok bit

/-- The running `left`, `top`, `right`, `bottom` of `getEnclosingRectangle`. -/
structure RectScan where
  left : Int
  top : Int
  right : Int
  bottom : Int
  deriving DecidableEq, Repr

/-- Body of the inner loop of `getEnclosingRectangle` for the word `theBits` at row `y`,
word column `x32`. -/
def scanWord (theBits : Nat) (y x32 : Int) (s : RectScan) : Except Err RectScan :=
  if theBits ≠ 0 then
    let top := if y < s.top then y else s.top
    let bottom := if y > s.bottom then y else s.bottom
    let newLeft : Except Err Int :=
      if x32 * 32 < s.left then
        match lowBitLoop theBits 32 0 with
        | .error e => .error e
        | .ok bit => .ok (if x32 * 32 + bit < s.left then x32 * 32 + bit else s.left)
      else .ok s.left
    let newRight : Except Err Int :=
      if x32 * 32 + 31 > s.right then
        match highBitLoop theBits 32 31 with
        | .error e => .error e
        | .ok bit => .ok (if x32 * 32 + bit > s.right then x32 * 32 + bit else s.right)
      else .ok s.right
    match newLeft, newRight with
    | .ok left, .ok right => .ok ⟨left, top, right, bottom⟩
    | .error e, _ => .error e
    | _, .error e => .error e
  else .ok s

/-- `BitMatrix::getEnclosingRectangle`: `none` when it returns false, otherwise
`(left, top, width, height)`. -/
def BitMatrix.getEnclosingRectangle (m : BitMatrix) : Except Err (Option (Int × Int × Int × Int)) :=
  match forLoop 0 m.height (fun s y =>
          forLoop 0 m.rowSize (fun s x32 =>
            match rawAt m.bits (y * m.rowSize + x32) with
            | .error e => .error e
            | .ok theBits => scanWord theBits y x32 s) s)
        (⟨m.width, m.height, -1, -1⟩ : RectScan) with
  | .error e => .error e
  | .ok s =>
    if s.right < s.left ∨ s.bottom < s.top then .ok none
    else .ok (some (s.left, s.top, s.right - s.left + 1, s.bottom - s.top + 1))

/-- The loop `while (bitsOffset < (int)_bits.size() && _bits[bitsOffset] == 0) bitsOffset++`,
with an iteration bound. -/
def scanUp (bits : List Nat) : Nat → Int → Except Err Int
  | 0, _ => .error .outOfFuel
  | fuel + 1, bitsOffset =>
    if bitsOffset < bits.length then
      match rawAt bits bitsOffset with
      | .error e => .error e
      | .ok w => if w = 0 then scanUp bits fuel (bitsOffset + 1) else .ok bitsOffset
    else .ok bitsOffset

/-- The loop `while (bitsOffset >= 0 && _bits[bitsOffset] == 0) bitsOffset--`, with an
iteration bound. -/
def scanDown (bits : List Nat) : Nat → Int → Except Err Int
  | 0, _ => .error .outOfFuel
  | fuel + 1, bitsOffset =>
    if bitsOffset ≥ 0 then
      match rawAt bits bitsOffset with
      | .error e => .error e
      | .ok w => if w = 0 then scanDown bits fuel (bitsOffset - 1) else .ok bitsOffset
    else .ok bitsOffset

/-- `BitMatrix::getTopLeftOnBit`: `none` when it returns false, otherwise `(left, top)`. -/
def BitMatrix.getTopLeftOnBit (m : BitMatrix) : Except Err (Option (Int × Int)) :=
  match scanUp m.bits (m.bits.length + 1) 0 with
  | .error e => .error e
  | .ok bitsOffset =>
    if bitsOffset = m.bits.length then .ok none
    else if m.rowSize = 0 then .error .undefinedBehaviour
    else
      match rawAt m.bits bitsOffset with
      | .error e => .error e
      | .ok theBits =>
        match lowBitLoop theBits 32 0 with
        | .error e => .error e
        | .ok bit => .ok (some ((bitsOffset.tmod m.rowSize) * 32 + bit, bitsOffset.tdiv m.rowSize))

/-- `BitMatrix::getBottomRightOnBit`: `none` when it returns false, otherwise
`(right, bottom)`. -/
def BitMatrix.getBottomRightOnBit (m : BitMatrix) : Except Err (Option (Int × Int)) :=
  match scanDown m.bits (m.bits.length + 1) ((m.bits.length : Int) - 1) with
  | .error e => .error e
  | .ok bitsOffset =>
    if bitsOffset < 0 then .ok none
    else if m.rowSize = 0 then .error .undefinedBehaviour
    else
      match rawAt m.bits bitsOffset with
      | .error e => .error e
      | .ok theBits =>
        match highBitLoop theBits 32 31 with
        | .error e => .error e
        | .ok bit => .ok (some ((bitsOffset.tmod m.rowSize) * 32 + bit, bitsOffset.tdiv m.rowSize))

/-- Class invariant of `BitMatrix`, established by the constructors and kept by every member
function: non-negative dimensions, `_rowSize = (_width + 31) / 32`, `_rowSize * _height`
storage words, each a 32-bit value. -/
def BitMatrix.WF (m : BitMatrix) : Prop :=
  0 ≤ m.width ∧ 0 ≤ m.height ∧ m.rowSize = (m.width + 31) / 32 ∧
    (m.bits.length : Int) = m.rowSize * m.height ∧ ∀ w ∈ m.bits, w < 4294967296

instance (m : BitMatrix) : Decidable m.WF := by
  unfold BitMatrix.WF
  infer_instance

/-- Class invariant of `BitArray`: a non-negative length in bits, packed into
`(_size + 31) / 32` words. -/
def BitArray.WF (a : BitArray) : Prop :=
  0 ≤ a.size ∧ (a.bits.length : Int) = (a.size + 31) / 32

instance (a : BitArray) : Decidable a.WF := by
  unfold BitArray.WF
  infer_instance

/-- Every storage word of the raster is zero. -/
def BitMatrix.allZero (m : BitMatrix) : Prop :=
  ∀ w ∈ m.bits, w = 0

instance (m : BitMatrix) : Decidable m.allZero := by
  unfold BitMatrix.allZero
  infer_instance

/-- The unused bits of the last row (stream positions `32 * size - padding` and above) are
all zero. -/
def BitMatrix.lastPaddingZero (m : BitMatrix) : Prop :=
  ∀ k : Nat, 32 * m.bits.length - (m.rowSize * 32 - m.width).toNat ≤ k → k < 32 * m.bits.length →
    streamBit m.bits k = false

instance (m : BitMatrix) : Decidable m.lastPaddingZero := by
  unfold BitMatrix.lastPaddingZero
  infer_instance

/-- The bit of the word vector `bits` (rows of `rs` words) that holds column `x` of row `y`,
for non-negative coordinates. -/
def bitAt (bits : List Nat) (rs x y : Int) : Bool :=
  (bits.getD (y * rs + x / 32).toNat 0).testBit (x % 32).toNat

/-- Storage position `(x, y)` (column `x` possibly inside the row padding) holds a set bit. -/
def BitMatrix.onBit (m : BitMatrix) (x y : Int) : Prop :=
  0 ≤ x ∧ x < m.rowSize * 32 ∧ 0 ≤ y ∧ y < m.height ∧ bitAt m.bits m.rowSize x y = true

/-- The running rectangle contains `(x, y)`. -/
def RectScan.covers (s : RectScan) (x y : Int) : Prop :=
  s.left ≤ x ∧ x ≤ s.right ∧ s.top ≤ y ∧ y ≤ s.bottom

/-- Each bound of the running rectangle is its initial value or is attained by a set bit. -/
def RectScan.tight (s : RectScan) (m : BitMatrix) : Prop :=
  (s.left = m.width ∨ ∃ x y, m.onBit x y ∧ s.left = x) ∧
  (s.top = m.height ∨ ∃ x y, m.onBit x y ∧ s.top = y) ∧
  (s.right = -1 ∨ ∃ x y, m.onBit x y ∧ s.right = x) ∧
  (s.bottom = -1 ∨ ∃ x y, m.onBit x y ∧ s.bottom = y)

/-- `enum class DecodeStatus` of `DecodeStatus.h`. -/
inductive DecodeStatus where
  | NoError
  | ReaderError
  | NotFound
  | FormatError
  | ChecksumError
  | ReedSolomonError
  | ReedSolomonAlgoFailed
  | ReedSolomonBadLocation
  | ReedSolomonDegreeMismatch
  | ReedSolomonSigmaTildeZero
  deriving DecidableEq, Repr

/-- The numeric value of each enumerator: `NoError = 0`, `ReaderError = 0x10` and the three
that follow it, `ReedSolomonError = 0x20` and the four that follow it. -/
def DecodeStatus.value : DecodeStatus → Int
  | .NoError => 0
  | .ReaderError => 0x10
  | .NotFound => 0x11
  | .FormatError => 0x12
  | .ChecksumError => 0x13
  | .ReedSolomonError => 0x20
  | .ReedSolomonAlgoFailed => 0x21
  | .ReedSolomonBadLocation => 0x22
  | .ReedSolomonDegreeMismatch => 0x23
  | .ReedSolomonSigmaTildeZero => 0x24

/-- `StatusIsOK`: `status == DecodeStatus::NoError`, a comparison of enumerator values. -/
def StatusIsOK (status : DecodeStatus) : Bool :=
  status.value == DecodeStatus.NoError.value

/-- `StatusIsError`: `status != DecodeStatus::NoError`. -/
def StatusIsError (status : DecodeStatus) : Bool :=
  status.value != DecodeStatus.NoError.value

/-- No storage bit at a column `width <= x < rowSize * 32` (the row padding) is set. -/
def BitMatrix.paddingClear (m : BitMatrix) : Prop :=
  ∀ y : Nat, y < m.height.toNat → ∀ x : Nat, x < (m.rowSize * 32).toNat → m.width ≤ x →
    bitAt m.bits m.rowSize x y = false

instance (m : BitMatrix) : Decidable m.paddingClear := by
  unfold BitMatrix.paddingClear
  infer_instance

/-- Body of the inner loop of `BitMatrix::mirror`:
`if (get(x, y) != get(y, x)) { flip(y, x); flip(x, y); }`. -/
def mirrorStep (s : BitMatrix) (x y : Int) : Except Err BitMatrix :=
  match s.get x y with
  | .error e => .error e
  | .ok a =>
    match s.get y x with
    | .error e => .error e
    | .ok b =>
      if a != b then
        match (s.flip y x).err with
        | some e => .error e
        | none =>
          match ((s.flip y x).state.flip x y).err with
          | some e => .error e
          | none => .ok ((s.flip y x).state.flip x y).state
      else .ok s

/-- `BitMatrix::mirror`; the result is the raster after the call, or the exception that a
`get` or `flip` threw (the partially mirrored raster at that point is not modelled). -/
def BitMatrix.mirror (m : BitMatrix) : Except Err BitMatrix :=
  forLoop 0 m.width (fun (s : BitMatrix) x =>
    forLoop (x + 1) m.height (fun (s : BitMatrix) y => mirrorStep s x y) s) m

/-- The pair of positions `(a, b)`, `(b, a)` has been exchanged by `mirror` when its outer
loop is at column `i` and its inner loop at row `j`: the smaller coordinate is a column
already handled, the larger one a row below `height`. -/
def mirrorDone (height i j a b : Int) : Prop :=
  (a < b ∧ b < height ∧ (a < i ∨ (a = i ∧ b < j))) ∨
  (b < a ∧ a < height ∧ (b < i ∨ (b = i ∧ a < j)))

/-- Text written by `out << n` for an `int` on a stream in its default state: the decimal
representation. -/
def decimal (n : Int) : List Char :=
  (toString n).toList

/-- State of the `while (i < _width)` loop of `writePBM`: the bit mask, the word pointer `p`
(as an index into `_bits`) and the text written so far. -/
structure PBMCursor where
  mask : Nat
  p : Int
  out : List Char

/-- Body of the `while (i < _width)` loop of `writePBM` for the value `i` at its start: the
token of bit `i`, the separator chosen with the incremented `i`, then the mask shift. -/
def pbmStep (m : BitMatrix) (s : PBMCursor) (i : Int) : Except Err PBMCursor :=
  match rawAt m.bits s.p with
  | .error e => .error e
  | .ok w =>
    let out1 := s.out ++ [if w &&& s.mask ≠ 0 then '1' else '0']
    let out2 := out1 ++ [if i + 1 < m.width then ' ' else '\n']
    let mask := (s.mask <<< 1) % 4294967296
    if mask = 0 then .ok ⟨1, s.p + 1, out2⟩ else .ok ⟨mask, s.p, out2⟩

/-- `BitMatrix::writePBM`: the text appended to the stream content `out`. -/
def BitMatrix.writePBM (m : BitMatrix) (out : List Char) : Except Err (List Char) :=
  forLoop 0 m.height (fun (out : List Char) y =>
      match forLoop 0 m.width (pbmStep m) ⟨1, y * m.rowSize, out⟩ with
      | .error e => .error e
      | .ok s => .ok s.out)
    (out ++ "P1\n".toList ++ decimal m.width ++ [' '] ++ decimal m.height ++ ['\n'])

/-- The token of the spec's dump format for `(x, y)`: "1" if `get(x, y)` is true, else "0". -/
def specToken (m : BitMatrix) (x y : Int) : Char :=
  if m.get x y = .ok true then '1' else '0'

/-- Line `y` of the spec's dump format: `width` tokens separated by single spaces and
terminated by a newline. -/
def specPBMLine (m : BitMatrix) (y : Int) : List Char :=
  List.intersperse ' ' ((List.range m.width.toNat).map (fun (x : Nat) => specToken m (x : Int) y)) ++ ['\n']

/-- The spec's dump format: "P1", newline, decimal width, space, decimal height, newline,
then the `height` lines. -/
def specPBM (m : BitMatrix) : List Char :=
  "P1\n".toList ++ decimal m.width ++ [' '] ++ decimal m.height ++ ['\n'] ++
    ((List.range m.height.toNat).map (fun (y : Nat) => specPBMLine m (y : Int))).flatten

/-- What the inner loop of `writePBM` has written for row `y` after `n` iterations. -/
def pbmRowPrefix (m : BitMatrix) (y : Int) : Nat → List Char
  | 0 => []
  | n + 1 => pbmRowPrefix m y n ++
      [specToken m n y, if ((n : Int) + 1 < m.width) then ' ' else '\n']

/-- Modelled from the spec: `Accumulate(container, init)` of the absent
`ZXContainerAlgorithms.h`, the running total `init` advanced by "the sum of that digit's run
lengths (accumulate-and-advance)". -/
def Accumulate (container : List Int) (init : Int) : Int :=
  container.foldl (fun acc v => acc + v) init

/-- What a call of `DecodeDigit` (absent `ODUPCEANCommon.h`) hands back: its status and the
contents it leaves in the reference arguments `counters` and `bestMatch`. -/
structure DigitOutcome where
  status : DecodeStatus
  counters : List Int
  bestMatch : Int
  deriving DecidableEq, Repr

/-- What a call of `FindGuardPattern` (absent) hands back: its status and the contents it
leaves in `middleRangeBegin` and `middleRangeEnd`. -/
structure GuardOutcome where
  status : DecodeStatus
  rangeBegin : Int
  rangeEnd : Int
  deriving DecidableEq, Repr

/-- A helper call made by `decodeMiddle`, as the helper itself records it: the cursor (and,
for a digit decode, the counters) it was given and what it returned. -/
inductive HelperCall where
  | digit (rowOffset : Int) (counters : List Int) (result : DigitOutcome)
  | guard (rowOffset : Int) (result : GuardOutcome)
  deriving DecidableEq, Repr

/-- The status a recorded helper call returned. -/
def HelperCall.status : HelperCall → DecodeStatus
  | .digit _ _ r => r.status
  | .guard _ g => g.status

/-- The cursor a recorded helper call was given. -/
def HelperCall.rowOffset : HelperCall → Int
  | .digit off _ _ => off
  | .guard off _ => off

/-- The counters a recorded digit decode was given. -/
def HelperCall.counters : HelperCall → List Int
  | .digit _ cs _ => cs
  | .guard _ _ => []

/-- The digit value a recorded digit decode reported in `bestMatch`. -/
def HelperCall.bestMatch : HelperCall → Int
  | .digit _ _ r => r.bestMatch
  | .guard _ _ => 0

/-- The variables of `decodeMiddle`: the cursor `rowOffset`, the output `resultString` (as
byte values) and the `counters` array. -/
structure MiddleState where
  rowOffset : Int
  resultString : List Int
  counters : List Int
  deriving DecidableEq, Repr

/-- The byte appended for a digit: `(char)('0' + bestMatch)`. -/
def digitChar (bestMatch : Int) : Int :=
  (48 + bestMatch) % 256

/-- One of the two loops `for (int x = 0; x < 4 && rowOffset < end; x++)` of `decodeMiddle`,
with `n` iterations of `x` left. The result is `some status` when the loop left the function
through `return status`. The digit decoder `DecodeDigit(row, rowOffset, L_PATTERNS, counters,
bestMatch)` is absent from the sources and is a parameter; it runs in a state `σ` of its own,
which the loop only hands from one call to the next. -/
def digitLoop {σ : Type} (decodeDigit : BitArray → Int → List Int → σ → DigitOutcome × σ)
    (row : BitArray) (rowEnd : Int) :
    Nat → MiddleState → σ → Option DecodeStatus × MiddleState × σ
  | 0, s, w => (none, s, w)
  | n + 1, s, w =>
    if s.rowOffset < rowEnd then
      let r := decodeDigit row s.rowOffset s.counters w
      let s1 : MiddleState := { s with counters := r.1.counters }
      if StatusIsError r.1.status then (some r.1.status, s1, r.2)
      else
        digitLoop decodeDigit row rowEnd n
          { s1 with resultString := s1.resultString ++ [digitChar r.1.bestMatch]
                    rowOffset := Accumulate r.1.counters s1.rowOffset } r.2
    else (none, s, w)

/-- `EAN8Reader::decodeMiddle`: the returned status, the final variables and the final state
of the helpers. The two absent helpers, the digit decoder and the search for the middle guard
(`FindGuardPattern(row, rowOffset, true, MIDDLE_PATTERN, ...)`), are parameters that run in a
state `σ` of their own. -/
def decodeMiddle {σ : Type} (decodeDigit : BitArray → Int → List Int → σ → DigitOutcome × σ)
    (findGuardPattern : BitArray → Int → σ → GuardOutcome × σ) (row : BitArray)
    (rowOffset : Int) (resultString : List Int) (w : σ) : DecodeStatus × MiddleState × σ :=
  match digitLoop decodeDigit row row.size 4 ⟨rowOffset, resultString, [0, 0, 0, 0]⟩ w with
  | (some status, s1, w1) => (status, s1, w1)
  | (none, s1, w1) =>
    let g := findGuardPattern row s1.rowOffset w1
    if StatusIsError g.1.status then (g.1.status, s1, g.2)
    else
      match digitLoop decodeDigit row row.size 4 { s1 with rowOffset := g.1.rangeEnd } g.2 with
      | (some status, s3, w3) => (status, s3, w3)
      | (none, s3, w3) => (DecodeStatus.NoError, s3, w3)

/-- The digit decoder `dd` as a helper that keeps a record of the calls made to it: each call
appends its arguments and its result to the record. -/
def recordDigit (dd : BitArray → Int → List Int → DigitOutcome) (row : BitArray)
    (rowOffset : Int) (counters : List Int) (log : List HelperCall) :
    DigitOutcome × List HelperCall :=
  (dd row rowOffset counters,
    log ++ [HelperCall.digit rowOffset counters (dd row rowOffset counters)])

/-- The guard search `fg` as a helper that keeps a record of the calls made to it. -/
def recordGuard (fg : BitArray → Int → GuardOutcome) (row : BitArray) (rowOffset : Int)
    (log : List HelperCall) : GuardOutcome × List HelperCall :=
  (fg row rowOffset, log ++ [HelperCall.guard rowOffset (fg row rowOffset)])

/-- `decodeMiddle` run with recording helpers, from an empty record: the returned status, the
final variables, and the record of the helper calls that were made, in order. -/
def decodeMiddleRecorded (dd : BitArray → Int → List Int → DigitOutcome)
    (fg : BitArray → Int → GuardOutcome) (row : BitArray) (rowOffset : Int)
    (resultString : List Int) : DecodeStatus × MiddleState × List HelperCall :=
  decodeMiddle (recordDigit dd) (recordGuard fg) row rowOffset resultString []

/-- The record `c` is what the helper really returns for the arguments recorded in it. -/
def HelperCall.genuine (dd : BitArray → Int → List Int → DigitOutcome)
    (fg : BitArray → Int → GuardOutcome) (row : BitArray) : HelperCall → Prop
  | .digit off cs r => r = dd row off cs
  | .guard off g => g = fg row off

/-- The records `calls` are successive digit decodes starting with cursor `off` and counters
`cs`: each call is given the current cursor and counters and is recorded with what the digit
decoder returns for them, and the next one starts at the cursor advanced by the sum of the
returned counters, with the returned counters; `off'` and `cs'` are the cursor and counters
after the last of them. -/
def digitChain (dd : BitArray → Int → List Int → DigitOutcome) (row : BitArray) :
    Int → List Int → List HelperCall → Int → List Int → Prop
  | off, cs, [], off', cs' => off' = off ∧ cs' = cs
  | off, cs, c :: rest, off', cs' =>
    c = HelperCall.digit off cs (dd row off cs) ∧
      digitChain dd row (Accumulate (dd row off cs).counters off) (dd row off cs).counters rest
        off' cs'

/-- A digit decoder that, wherever at least 7 modules of the row remain, reports the last
decimal digit of the cursor with run lengths 3, 2, 1, 1, and `NotFound` otherwise. -/
def sampleDecodeDigit (row : BitArray) (rowOffset : Int) (counters : List Int) : DigitOutcome :=
  if rowOffset + 7 ≤ row.size then ⟨.NoError, [3, 2, 1, 1], rowOffset % 10⟩
  else ⟨.NotFound, counters, 0⟩

/-- A guard search that reports a 5-module guard at the cursor when it ends before the end of
the row, and `NotFound` otherwise. -/
def sampleFindGuardPattern (row : BitArray) (rowOffset : Int) : GuardOutcome :=
  if rowOffset + 5 < row.size then ⟨.NoError, rowOffset, rowOffset + 5⟩ else ⟨.NotFound, 0, 0⟩

/-- `ALPHABET_STRING`, as the character codes of its 44 characters (the array of the source
ends with a NUL terminator in addition). -/
def ALPHABET_STRING : List Nat :=
  "0123456789ABCDEFGHIJKLMNOPQRSTUVWXYZ-. *$/+%".toList.map Char.toNat

/-- `CHARACTER_ENCODINGS`: 44 entries. -/
def CHARACTER_ENCODINGS : List Nat :=
  [0x034, 0x121, 0x061, 0x160, 0x031, 0x130, 0x070, 0x025, 0x124, 0x064,
   0x109, 0x049, 0x148, 0x019, 0x118, 0x058, 0x00D, 0x10C, 0x04C, 0x01C,
   0x103, 0x043, 0x142, 0x013, 0x112, 0x052, 0x007, 0x106, 0x046, 0x016,
   0x181, 0x0C1, 0x1C0, 0x091, 0x190, 0x0D0, 0x085, 0x184, 0x0C4, 0x094,
   0x0A8, 0x0A2, 0x08A, 0x02A]

/-- `ASTERISK_ENCODING = CHARACTER_ENCODINGS[39]`. -/
def ASTERISK_ENCODING : Nat :=
  CHARACTER_ENCODINGS.getD 39 0

/-- `IndexOf(str, c)`: `strchr(str, c)` converts `c` to `char` (its low 8 bits) and searches
the string, its terminating NUL included; the result is the offset of the first match, or
`-1` when there is none. -/
def IndexOf (str : List Nat) (c : Int) : Int :=
  let s := (str ++ [0]).findIdx (fun b => b == (c % 256).toNat)
  if s < (str ++ [0]).length then (s : Int) else -1

/-- `ToIntArray(a, toReturn)`: entry `i` is `(a & (1 << (8 - i))) == 0 ? 1 : 2`, for
`i = 0 .. 8`. -/
def ToIntArray (a : Nat) : List Int :=
  (List.range 9).map (fun (i : Nat) => if a &&& (1 <<< (8 - i)) = 0 then (1 : Int) else 2)

/-- The vector `result` of `Code39Writer::encode` with, as a ghost variable, the positions
written so far, in the order of the writes. -/
structure ModuleBuffer where
  cells : List Bool
  written : List Nat
  deriving DecidableEq, Repr

/-- Modelled from the spec: the inner loop of `WriterHelper::AppendPattern`, `n` unchecked
writes `target[pos++] = color`. -/
def writeRun (target : ModuleBuffer) (pos : Int) (color : Bool) : Nat → Except Err ModuleBuffer
  | 0 => .ok target
  | n + 1 =>
    if 0 ≤ pos ∧ pos < target.cells.length then
      writeRun ⟨target.cells.set pos.toNat color, target.written ++ [pos.toNat]⟩ (pos + 1) color n
    else .error .undefinedBehaviour

/-- Modelled from the spec: `WriterHelper::AppendPattern(target, pos, pattern, startColor)`
of the absent `ODWriterHelper.h`, the "pattern-append routine" through which "bars and spaces
alternate": for each width of the pattern it writes that many modules of the current colour
from `pos` on, then switches colour; it returns the number of modules added. -/
def AppendPattern (target : ModuleBuffer) (pos : Int) :
    List Int → Bool → Except Err (ModuleBuffer × Int)
  | [], _ => .ok (target, 0)
  | w :: rest, color =>
    match writeRun target pos color w.toNat with
    | .error e => .error e
    | .ok t =>
      match AppendPattern t (pos + w) rest (!color) with
      | .error e => .error e
      | .ok (t', numAdded) => .ok (t', w + numAdded)

/-- Body of the first loop of `Code39Writer::encode`, which checks a character and adds the
width of its pattern to `codeWidth`. -/
def widthStep (codeWidth : Int) (c : Nat) : Except Err Int :=
  if IndexOf ALPHABET_STRING c < 0 then .error .invalidArgument
  else
    match rawAt CHARACTER_ENCODINGS (IndexOf ALPHABET_STRING c) with
    | .error e => .error e
    | .ok enc => .ok (Accumulate (ToIntArray enc) codeWidth)

/-- Body of the second loop of `Code39Writer::encode`, which appends the pattern of a
character and a narrow white gap; the state is `result` and `pos`. -/
def renderStep (st : ModuleBuffer × Int) (c : Nat) : Except Err (ModuleBuffer × Int) :=
  match rawAt CHARACTER_ENCODINGS (IndexOf ALPHABET_STRING c) with
  | .error e => .error e
  | .ok enc =>
    match AppendPattern st.1 st.2 (ToIntArray enc) true with
    | .error e => .error e
    | .ok (t1, n1) =>
      match AppendPattern t1 (st.2 + n1) [1] false with
      | .error e => .error e
      | .ok (t2, n2) => .ok (t2, st.2 + n1 + n2)

/-- `Code39Writer::encode` for the wide-character string `contents` (character codes), up to
its last statement, the call of `WriterHelper::RenderResult` (absent from the sources): the
value is the module vector `result` that is handed to the renderer. -/
def Code39Writer.encode (contents : List Nat) : Except Err ModuleBuffer :=
  if contents.length = 0 then .error .invalidArgument
  else if contents.length > 80 then .error .invalidArgument
  else
    match contents.foldlM widthStep (24 + 1 + (contents.length : Int)) with
    | .error e => .error e
    | .ok codeWidth =>
      match AppendPattern ⟨List.replicate codeWidth.toNat false, []⟩ 0
          (ToIntArray ASTERISK_ENCODING) true with
      | .error e => .error e
      | .ok (t0, pos0) =>
        match AppendPattern t0 pos0 [1] false with
        | .error e => .error e
        | .ok (t1, n1) =>
          match contents.foldlM renderStep (t1, pos0 + n1) with
          | .error e => .error e
          | .ok (t2, pos) =>
            match AppendPattern t2 pos (ToIntArray ASTERISK_ENCODING) true with
            | .error e => .error e
            | .ok (t3, _) => .ok t3

/-- The text is one that `Code39Writer::encode` processes without a failure: between 1 and 80
characters, each with an `IndexOf` inside the encoding table. -/
def Code39Writer.accepts (contents : List Nat) : Prop :=
  1 ≤ contents.length ∧ contents.length ≤ 80 ∧
    ∀ c ∈ contents, 0 ≤ IndexOf ALPHABET_STRING c ∧ IndexOf ALPHABET_STRING c < 44

instance (contents : List Nat) : Decidable (Code39Writer.accepts contents) := by
  unfold Code39Writer.accepts
  infer_instance

/-- The 9-bit pattern that the encoding table assigns to the alphabet character `c`. -/
def tableEntry (c : Nat) : Nat :=
  CHARACTER_ENCODINGS.getD (ALPHABET_STRING.findIdx (fun b => b == c)) 0

/-- The spec's expansion `P` of a 9-bit entry, most-significant bit first, into 9 alternating
runs starting with a bar (true): a set bit gives a run of 2 modules, a clear bit a run
of 1. -/
def specPattern (entry : Nat) : List Bool :=
  ((List.range 9).map (fun (i : Nat) =>
    List.replicate (if entry.testBit (8 - i) then 2 else 1) (i % 2 == 0))).flatten

/-- The spec's module sequence for a text: `P('*')`, a space, then for each character its
pattern and a space, then `P('*')`. -/
def specModules (contents : List Nat) : List Bool :=
  specPattern (tableEntry (Char.toNat '*')) ++ [false] ++
    (contents.map (fun c => specPattern (tableEntry c) ++ [false])).flatten ++
    specPattern (tableEntry (Char.toNat '*'))

/-- The modules that a pattern of run widths stands for, starting with colour `color`. -/
def expandRuns : List Int → Bool → List Bool
  | [], _ => []
  | w :: rest, color => List.replicate w.toNat color ++ expandRuns rest (!color)

/-- The entry of the encoding table that `encode` uses for the character code `c`. -/
def codeEntry (c : Nat) : Nat :=
  CHARACTER_ENCODINGS.getD (IndexOf ALPHABET_STRING c).toNat 0

/-- The module sequence that `encode` writes, in terms of the entries it looks up. -/
def renderedModules (contents : List Nat) : List Bool :=
  expandRuns (ToIntArray ASTERISK_ENCODING) true ++ [false] ++
    (contents.map (fun c => expandRuns (ToIntArray (codeEntry c)) true ++ [false])).flatten ++
    expandRuns (ToIntArray ASTERISK_ENCODING) true

/-- `BitMatrix::clear`: `std::fill(_bits.begin(), _bits.end(), 0)`. -/
def BitMatrix.clear (m : BitMatrix) : BitMatrix :=
  { m with bits := m.bits.map (fun _ => 0) }

/-- A call of one of the mutating member functions of `BitMatrix`, with its arguments. -/
inductive Mutator where
  | set (x y : Int)
  | unset (x y : Int)
  | flip (x y : Int)
  | flipAll
  | clear
  | setRegion (left top width height : Int)
  | setRow (y : Int) (row : BitArray)
  | rotate180
  | mirror
  deriving DecidableEq, Repr

/-- The object after a call that completed, or the failure with which the call ended. -/
def Outcome.result {σ : Type} (o : Outcome σ) : Except Err σ :=
  match o.err with
  | none => .ok o.state
  | some e => .error e

/-- The raster after the call `op` on the raster `m`, when the call completes. -/
def Mutator.run (op : Mutator) (m : BitMatrix) : Except Err BitMatrix :=
  match op with
  | .set x y => (m.set x y).result
  | .unset x y => (m.unset x y).result
  | .flip x y => (m.flip x y).result
  | .flipAll => .ok m.flipAll
  | .clear => .ok m.clear
  | .setRegion left top width height => (m.setRegion left top width height).result
  | .setRow y row => (m.setRow y row).result
  | .rotate180 => .ok m.rotate180
  | .mirror => m.mirror

/-- Two rasters have the same storage shape: width, height, row stride and number of storage
words. -/
def BitMatrix.sameShape (a b : BitMatrix) : Prop :=
  a.width = b.width ∧ a.height = b.height ∧ a.rowSize = b.rowSize ∧
    a.bits.length = b.bits.length

instance (a b : BitMatrix) : Decidable (a.sameShape b) := by
  unfold BitMatrix.sameShape
  infer_instance

/-- The arguments of a call are in range for the raster `m`: a coordinate of the raster for
`set`, `unset` and `flip`; a row of the raster and a line satisfying its class invariant,
with 32-bit words, for `setRow`. (`setRegion` checks its arguments itself.) -/
def Mutator.inRange (op : Mutator) (m : BitMatrix) : Prop :=
  match op with
  | .set x y => 0 ≤ x ∧ x < m.width ∧ 0 ≤ y ∧ y < m.height
  | .unset x y => 0 ≤ x ∧ x < m.width ∧ 0 ≤ y ∧ y < m.height
  | .flip x y => 0 ≤ x ∧ x < m.width ∧ 0 ≤ y ∧ y < m.height
  | .setRow y row => 0 ≤ y ∧ y < m.height ∧ row.WF ∧ ∀ w ∈ row.bits, w < 4294967296
  | _ => True

instance (op : Mutator) (m : BitMatrix) : Decidable (op.inRange m) := by
  cases op <;> unfold Mutator.inRange <;> infer_instance

/-- The call has in-range arguments and cannot set a bit of the row padding: `flipAll` is
made on a raster without padding (width a multiple of 32), the line given to `setRow` has no
set bit at a position at or beyond the width of the raster, and `mirror` is made on a raster
that is not higher than wide. -/
def Mutator.keepsPadding (op : Mutator) (m : BitMatrix) : Prop :=
  op.inRange m ∧
    match op with
    | .flipAll => m.width = m.rowSize * 32
    | .setRow _ row =>
      ∀ k : Nat, k < 32 * row.bits.length → m.width ≤ (k : Int) → streamBit row.bits k = false
    | .mirror => m.height ≤ m.width
    | _ => True

instance (op : Mutator) (m : BitMatrix) : Decidable (op.keepsPadding m) := by
  cases op <;> unfold Mutator.keepsPadding <;> infer_instance

/-- The raster `m'` is reached from `m` by the sequence of calls `ops`: every call completes
and is `allowed` on the raster on which it is made. -/
def Mutator.reaches (allowed : Mutator → BitMatrix → Prop) :
    List Mutator → BitMatrix → BitMatrix → Prop
  | [], m, m' => m' = m
  | op :: ops, m, m' =>
    allowed op m ∧
      match op.run m with
      | .ok s => Mutator.reaches allowed ops s m'
      | .error _ => False

/-! ## Basic facts on words, indices and bits -/

theorem getD_set_eq (l : List Nat) (i j : Nat) (a : Nat) :
    (l.set i a).getD j 0 = if i = j ∧ i < l.length then a else l.getD j 0 := by
  simp only [List.getD_eq_getElem?_getD, List.getElem?_set]
  by_cases h : i = j
  · subst h
    by_cases h2 : i < l.length
    · simp [h2]
    · have h3 : l[i]? = none := List.getElem?_eq_none (by omega)
      simp [h2, h3]
  · simp [h]

theorem length_set_eq (l : List Nat) (i : Nat) (a : Nat) : (l.set i a).length = l.length := by
  simp

theorem bitIndex_of_nonneg (x : Int) (hx : 0 ≤ x) : bitIndex x = (x % 32).toNat := by
  obtain ⟨n, rfl⟩ := Int.eq_ofNat_of_zero_le hx
  have h1 : Int.land (n : Int) 31 = ((n &&& 31 : Nat) : Int) := rfl
  have h2 : n &&& 31 = n % 32 := Nat.and_pow_two_sub_one_eq_mod n 5
  unfold bitIndex
  rw [h1, h2]
  omega

theorem tdiv32_of_nonneg (x : Int) (hx : 0 ≤ x) : x.tdiv 32 = x / 32 :=
  Int.tdiv_eq_ediv hx (by decide)

theorem shift_and_one (w k : Nat) : (((w >>> k) &&& 1) != 0) = w.testBit k := by
  rw [Nat.land_comm]; rfl

theorem index_inj (rs y a y' a' : Int) (h0 : 0 ≤ a) (h1 : a < rs) (h0' : 0 ≤ a') (h1' : a' < rs)
    (h : y * rs + a = y' * rs + a') : y = y' ∧ a = a' := by
  have hy : y = y' := by
    rcases lt_trichotomy y y' with h2 | h2 | h2
    · nlinarith
    · exact h2
    · nlinarith
  subst hy
  exact ⟨rfl, by linarith⟩

theorem index_bounds (rs h x y : Int) (hx0 : 0 ≤ x) (hx1 : x < rs * 32) (hy0 : 0 ≤ y)
    (hy1 : y < h) : 0 ≤ y * rs + x / 32 ∧ y * rs + x / 32 < rs * h := by
  have h1 : 0 ≤ x / 32 := by omega
  have h2 : x / 32 < rs := by omega
  have h3 : 0 ≤ y * rs := mul_nonneg hy0 (by omega)
  have h4 : (y + 1) * rs ≤ h * rs := mul_le_mul_of_nonneg_right (by omega) (by omega)
  constructor
  · omega
  · nlinarith

theorem rowSize_covers (m : BitMatrix) (hwf : m.WF) (x : Int) (hx : x < m.width) :
    x < m.rowSize * 32 := by
  obtain ⟨_, _, hrs, _, _⟩ := hwf
  omega

theorem wordIndex_bounds (m : BitMatrix) (hwf : m.WF) (x y : Int) (hx0 : 0 ≤ x)
    (hx1 : x < m.rowSize * 32) (hy0 : 0 ≤ y) (hy1 : y < m.height) :
    0 ≤ m.wordIndex x y ∧ m.wordIndex x y < m.bits.length := by
  have hb := index_bounds m.rowSize m.height x y hx0 hx1 hy0 hy1
  unfold BitMatrix.wordIndex
  rw [tdiv32_of_nonneg x hx0, hwf.2.2.2.1]
  exact hb

/-- Bit `x', y'` after the word holding `x, y` has been replaced by `v`. -/
theorem bitAt_set (bits : List Nat) (rs h x y x' y' : Int) (v : Nat)
    (hlen : (bits.length : Int) = rs * h)
    (hx0 : 0 ≤ x) (hx1 : x < rs * 32) (hy0 : 0 ≤ y) (hy1 : y < h)
    (hx0' : 0 ≤ x') (hx1' : x' < rs * 32) (hy0' : 0 ≤ y') (_hy1' : y' < h) :
    bitAt (bits.set (y * rs + x / 32).toNat v) rs x' y' =
      if y' = y ∧ x' / 32 = x / 32 then v.testBit (x' % 32).toNat else bitAt bits rs x' y' := by
  have hb := index_bounds rs h x y hx0 hx1 hy0 hy1
  unfold bitAt
  rw [getD_set_eq]
  by_cases hc : y' = y ∧ x' / 32 = x / 32
  · have h1 : (y * rs + x / 32).toNat = (y' * rs + x' / 32).toNat ∧
        (y * rs + x / 32).toNat < bits.length := by
      rw [hc.1, hc.2]; constructor
      · rfl
      · omega
    rw [if_pos h1, if_pos hc]
  · have h1 : ¬ ((y * rs + x / 32).toNat = (y' * rs + x' / 32).toNat ∧
        (y * rs + x / 32).toNat < bits.length) := by
      intro hcon
      apply hc
      have h3 : 0 ≤ y' * rs := mul_nonneg hy0' (by omega)
      have h4 : y * rs + x / 32 = y' * rs + x' / 32 := by omega
      have := index_inj rs y (x / 32) y' (x' / 32) (by omega) (by omega) (by omega) (by omega) h4
      exact ⟨this.1.symm, this.2.symm⟩
    rw [if_neg h1, if_neg hc]

theorem get_eq_bitAt (m : BitMatrix) (x y : Int) (hx : 0 ≤ x)
    (hi : 0 ≤ m.wordIndex x y ∧ m.wordIndex x y < m.bits.length) :
    m.get x y = .ok (bitAt m.bits m.rowSize x y) := by
  unfold BitMatrix.get vecAt
  rw [if_pos hi]
  simp only [shift_and_one, bitIndex_of_nonneg x hx]
  unfold bitAt BitMatrix.wordIndex
  rw [tdiv32_of_nonneg x hx]

theorem testBit_or_bit (w k j : Nat) :
    (w ||| (1 <<< k)).testBit j = (w.testBit j || decide (k = j)) := by
  rw [Nat.testBit_or, Nat.one_shiftLeft, Nat.testBit_two_pow]

theorem testBit_xor_bit (w k j : Nat) :
    (w ^^^ (1 <<< k)).testBit j = (w.testBit j ^^ decide (k = j)) := by
  rw [Nat.testBit_xor, Nat.one_shiftLeft, Nat.testBit_two_pow]

theorem testBit_clear_bit (w k j : Nat) (hk : k < 32) :
    (w &&& (4294967295 - (1 <<< k))).testBit j =
      (w.testBit j && decide (j < 32) && !decide (k = j)) := by
  have h1 : (4294967295 : Nat) - (1 <<< k) = 2 ^ 32 - (2 ^ k + 1) := by
    rw [Nat.one_shiftLeft]; omega
  have h2 : 2 ^ k < 2 ^ 32 := Nat.pow_lt_pow_right (by decide) hk
  rw [Nat.testBit_and, h1, Nat.testBit_two_pow_sub_succ h2, Nat.testBit_two_pow, Bool.and_assoc]

/-! ## Single-bit access: `get`, `set`, `unset`, `flip` -/

theorem bitAt_same_word (bits : List Nat) (rs x y x' y' : Int) (h : y' = y ∧ x' / 32 = x / 32) :
    bitAt bits rs x' y' = (bits.getD (y * rs + x / 32).toNat 0).testBit (x' % 32).toNat := by
  unfold bitAt
  rw [h.1, h.2]

theorem decide_same_bit (x y x' y' : Int) (hc : y' = y ∧ x' / 32 = x / 32) :
    decide ((x % 32).toNat = (x' % 32).toNat) = decide (x' = x ∧ y' = y) := by
  apply decide_eq_decide.mpr
  constructor
  · intro h; exact ⟨by omega, hc.1⟩
  · intro h; rw [h.1]

theorem decide_other_word (x y x' y' : Int) (hc : ¬ (y' = y ∧ x' / 32 = x / 32)) :
    decide (x' = x ∧ y' = y) = false := by
  apply decide_eq_false
  intro h
  apply hc
  exact ⟨h.2, by rw [h.1]⟩

/-- Every bit of the storage after `word |= 1 << (x mod 32)` on the word of `(x, y)`. -/
theorem bitAt_set_or (bits : List Nat) (rs h x y x' y' : Int)
    (hlen : (bits.length : Int) = rs * h)
    (hx0 : 0 ≤ x) (hx1 : x < rs * 32) (hy0 : 0 ≤ y) (hy1 : y < h)
    (hx0' : 0 ≤ x') (hx1' : x' < rs * 32) (hy0' : 0 ≤ y') (hy1' : y' < h) :
    bitAt (bits.set (y * rs + x / 32).toNat
        (bits.getD (y * rs + x / 32).toNat 0 ||| (1 <<< (x % 32).toNat))) rs x' y' =
      (bitAt bits rs x' y' || decide (x' = x ∧ y' = y)) := by
  rw [bitAt_set bits rs h x y x' y' _ hlen hx0 hx1 hy0 hy1 hx0' hx1' hy0' hy1']
  by_cases hc : y' = y ∧ x' / 32 = x / 32
  · rw [if_pos hc, testBit_or_bit, ← bitAt_same_word bits rs x y x' y' hc,
      decide_same_bit x y x' y' hc]
  · rw [if_neg hc, decide_other_word x y x' y' hc, Bool.or_false]

/-- Every bit of the storage after `word &= ~(1 << (x mod 32))` on the word of `(x, y)`. -/
theorem bitAt_set_clear (bits : List Nat) (rs h x y x' y' : Int)
    (hlen : (bits.length : Int) = rs * h)
    (hx0 : 0 ≤ x) (hx1 : x < rs * 32) (hy0 : 0 ≤ y) (hy1 : y < h)
    (hx0' : 0 ≤ x') (hx1' : x' < rs * 32) (hy0' : 0 ≤ y') (hy1' : y' < h) :
    bitAt (bits.set (y * rs + x / 32).toNat
        (bits.getD (y * rs + x / 32).toNat 0 &&& (4294967295 - (1 <<< (x % 32).toNat)))) rs x' y' =
      (bitAt bits rs x' y' && !decide (x' = x ∧ y' = y)) := by
  rw [bitAt_set bits rs h x y x' y' _ hlen hx0 hx1 hy0 hy1 hx0' hx1' hy0' hy1']
  by_cases hc : y' = y ∧ x' / 32 = x / 32
  · have h32 : decide ((x' % 32).toNat < 32) = true := decide_eq_true (by omega)
    rw [if_pos hc, testBit_clear_bit _ _ _ (by omega), ← bitAt_same_word bits rs x y x' y' hc,
      decide_same_bit x y x' y' hc, h32, Bool.and_true]
  · rw [if_neg hc, decide_other_word x y x' y' hc, Bool.not_false, Bool.and_true]

/-- Every bit of the storage after `word ^= 1 << (x mod 32)` on the word of `(x, y)`. -/
theorem bitAt_set_xor (bits : List Nat) (rs h x y x' y' : Int)
    (hlen : (bits.length : Int) = rs * h)
    (hx0 : 0 ≤ x) (hx1 : x < rs * 32) (hy0 : 0 ≤ y) (hy1 : y < h)
    (hx0' : 0 ≤ x') (hx1' : x' < rs * 32) (hy0' : 0 ≤ y') (hy1' : y' < h) :
    bitAt (bits.set (y * rs + x / 32).toNat
        (bits.getD (y * rs + x / 32).toNat 0 ^^^ (1 <<< (x % 32).toNat))) rs x' y' =
      (bitAt bits rs x' y' ^^ decide (x' = x ∧ y' = y)) := by
  rw [bitAt_set bits rs h x y x' y' _ hlen hx0 hx1 hy0 hy1 hx0' hx1' hy0' hy1']
  by_cases hc : y' = y ∧ x' / 32 = x / 32
  · rw [if_pos hc, testBit_xor_bit, ← bitAt_same_word bits rs x y x' y' hc,
      decide_same_bit x y x' y' hc]
  · rw [if_neg hc, decide_other_word x y x' y' hc, Bool.xor_false]

theorem wordIndex_of_nonneg (m : BitMatrix) (x y : Int) (hx : 0 ≤ x) :
    m.wordIndex x y = y * m.rowSize + x / 32 := by
  unfold BitMatrix.wordIndex
  rw [tdiv32_of_nonneg x hx]

theorem set_eq (m : BitMatrix) (x y : Int) (hx : 0 ≤ x)
    (hi : 0 ≤ m.wordIndex x y ∧ m.wordIndex x y < m.bits.length) :
    m.set x y = ⟨none, { m with bits := (m.bits.set (y * m.rowSize + x / 32).toNat
      (m.bits.getD (y * m.rowSize + x / 32).toNat 0 ||| (1 <<< (x % 32).toNat))) }⟩ := by
  unfold BitMatrix.set vecAt
  rw [if_pos hi, bitIndex_of_nonneg x hx, wordIndex_of_nonneg m x y hx]

theorem unset_eq (m : BitMatrix) (x y : Int) (hx : 0 ≤ x)
    (hi : 0 ≤ m.wordIndex x y ∧ m.wordIndex x y < m.bits.length) :
    m.unset x y = ⟨none, { m with bits := (m.bits.set (y * m.rowSize + x / 32).toNat
      (m.bits.getD (y * m.rowSize + x / 32).toNat 0 &&&
        (4294967295 - (1 <<< (x % 32).toNat)))) }⟩ := by
  unfold BitMatrix.unset vecAt
  rw [if_pos hi, bitIndex_of_nonneg x hx, wordIndex_of_nonneg m x y hx]

theorem flip_eq (m : BitMatrix) (x y : Int) (hx : 0 ≤ x)
    (hi : 0 ≤ m.wordIndex x y ∧ m.wordIndex x y < m.bits.length) :
    m.flip x y = ⟨none, { m with bits := (m.bits.set (y * m.rowSize + x / 32).toNat
      (m.bits.getD (y * m.rowSize + x / 32).toNat 0 ^^^ (1 <<< (x % 32).toNat))) }⟩ := by
  unfold BitMatrix.flip vecAt
  rw [if_pos hi, bitIndex_of_nonneg x hx, wordIndex_of_nonneg m x y hx]

/-- Reading a storage bit of a raster whose words were replaced by a vector of the same
length. -/
theorem get_with_bits (m : BitMatrix) (hwf : m.WF) (bits : List Nat)
    (hlen : bits.length = m.bits.length) (x y : Int)
    (hx0 : 0 ≤ x) (hx1 : x < m.rowSize * 32) (hy0 : 0 ≤ y) (hy1 : y < m.height) :
    BitMatrix.get { m with bits := bits } x y = .ok (bitAt bits m.rowSize x y) := by
  have hi := wordIndex_bounds m hwf x y hx0 hx1 hy0 hy1
  apply get_eq_bitAt _ x y hx0
  simp only [BitMatrix.wordIndex] at hi ⊢
  rw [hlen]
  exact hi

/-- Effect of `set` on every bit of the storage, padding included. -/
theorem get_set (m : BitMatrix) (hwf : m.WF) (x y x' y' : Int)
    (hx0 : 0 ≤ x) (hx1 : x < m.rowSize * 32) (hy0 : 0 ≤ y) (hy1 : y < m.height)
    (hx0' : 0 ≤ x') (hx1' : x' < m.rowSize * 32) (hy0' : 0 ≤ y') (hy1' : y' < m.height) :
    (m.set x y).err = none ∧
      (m.set x y).state.get x' y' =
        .ok (bitAt m.bits m.rowSize x' y' || decide (x' = x ∧ y' = y)) := by
  rw [set_eq m x y hx0 (wordIndex_bounds m hwf x y hx0 hx1 hy0 hy1)]
  refine ⟨rfl, ?_⟩
  rw [get_with_bits m hwf _ (length_set_eq _ _ _) x' y' hx0' hx1' hy0' hy1',
    bitAt_set_or m.bits m.rowSize m.height x y x' y' hwf.2.2.2.1 hx0 hx1 hy0 hy1 hx0' hx1' hy0'
      hy1']

/-- Effect of `unset` on every bit of the storage, padding included. -/
theorem get_unset (m : BitMatrix) (hwf : m.WF) (x y x' y' : Int)
    (hx0 : 0 ≤ x) (hx1 : x < m.rowSize * 32) (hy0 : 0 ≤ y) (hy1 : y < m.height)
    (hx0' : 0 ≤ x') (hx1' : x' < m.rowSize * 32) (hy0' : 0 ≤ y') (hy1' : y' < m.height) :
    (m.unset x y).err = none ∧
      (m.unset x y).state.get x' y' =
        .ok (bitAt m.bits m.rowSize x' y' && !decide (x' = x ∧ y' = y)) := by
  rw [unset_eq m x y hx0 (wordIndex_bounds m hwf x y hx0 hx1 hy0 hy1)]
  refine ⟨rfl, ?_⟩
  rw [get_with_bits m hwf _ (length_set_eq _ _ _) x' y' hx0' hx1' hy0' hy1',
    bitAt_set_clear m.bits m.rowSize m.height x y x' y' hwf.2.2.2.1 hx0 hx1 hy0 hy1 hx0' hx1'
      hy0' hy1']

/-- Effect of `flip` on every bit of the storage, padding included. -/
theorem get_flip (m : BitMatrix) (hwf : m.WF) (x y x' y' : Int)
    (hx0 : 0 ≤ x) (hx1 : x < m.rowSize * 32) (hy0 : 0 ≤ y) (hy1 : y < m.height)
    (hx0' : 0 ≤ x') (hx1' : x' < m.rowSize * 32) (hy0' : 0 ≤ y') (hy1' : y' < m.height) :
    (m.flip x y).err = none ∧
      (m.flip x y).state.get x' y' =
        .ok (bitAt m.bits m.rowSize x' y' ^^ decide (x' = x ∧ y' = y)) := by
  rw [flip_eq m x y hx0 (wordIndex_bounds m hwf x y hx0 hx1 hy0 hy1)]
  refine ⟨rfl, ?_⟩
  rw [get_with_bits m hwf _ (length_set_eq _ _ _) x' y' hx0' hx1' hy0' hy1',
    bitAt_set_xor m.bits m.rowSize m.height x y x' y' hwf.2.2.2.1 hx0 hx1 hy0 hy1 hx0' hx1'
      hy0' hy1']

/-- C1. Bit addressing: on a raster satisfying the class invariant and for a valid coordinate
`(x, y)`, `set(x, y)` completes and `get(x, y)` then returns true; `unset(x, y)` completes and
`get(x, y)` then returns false; in both cases `get` at every other valid coordinate returns
what it returned before. -/
theorem C1_set_unset_then_get (m : BitMatrix) (hwf : m.WF) (x y : Int)
    (hx0 : 0 ≤ x) (hx1 : x < m.width) (hy0 : 0 ≤ y) (hy1 : y < m.height) :
    (m.set x y).err = none ∧ (m.set x y).state.get x y = .ok true ∧
    (m.unset x y).err = none ∧ (m.unset x y).state.get x y = .ok false ∧
    ∀ x' y' : Int, 0 ≤ x' → x' < m.width → 0 ≤ y' → y' < m.height → (x', y') ≠ (x, y) →
      (m.set x y).state.get x' y' = m.get x' y' ∧
      (m.unset x y).state.get x' y' = m.get x' y' := by
  have hxr := rowSize_covers m hwf x hx1
  have hs := get_set m hwf x y x y hx0 hxr hy0 hy1 hx0 hxr hy0 hy1
  have hu := get_unset m hwf x y x y hx0 hxr hy0 hy1 hx0 hxr hy0 hy1
  refine ⟨hs.1, ?_, hu.1, ?_, ?_⟩
  · rw [hs.2]; simp
  · rw [hu.2]; simp
  · intro x' y' hx0' hx1' hy0' hy1' hne
    have hxr' := rowSize_covers m hwf x' hx1'
    have hs' := get_set m hwf x y x' y' hx0 hxr hy0 hy1 hx0' hxr' hy0' hy1'
    have hu' := get_unset m hwf x y x' y' hx0 hxr hy0 hy1 hx0' hxr' hy0' hy1'
    have hg := get_eq_bitAt m x' y' hx0' (wordIndex_bounds m hwf x' y' hx0' hxr' hy0' hy1')
    have hd : decide (x' = x ∧ y' = y) = false := by
      apply decide_eq_false
      intro h; apply hne; rw [h.1, h.2]
    rw [hs'.2, hu'.2, hg, hd]
    simp

/-- Witness for C1 on the 40 x 2 raster whose first row has columns 30 .. 34 set. -/
theorem C1_set_unset_then_get_witness :
    (BitMatrix.mk 40 2 2 [3221225472, 7, 0, 0]).WF ∧
    ((BitMatrix.mk 40 2 2 [3221225472, 7, 0, 0]).set 33 1).err = none ∧
    ((BitMatrix.mk 40 2 2 [3221225472, 7, 0, 0]).set 33 1).state.get 33 1 = .ok true ∧
    ((BitMatrix.mk 40 2 2 [3221225472, 7, 0, 0]).unset 33 1).err = none ∧
    ((BitMatrix.mk 40 2 2 [3221225472, 7, 0, 0]).unset 33 1).state.get 33 1 = .ok false ∧
    ∀ x' y' : Int, 0 ≤ x' → x' < (BitMatrix.mk 40 2 2 [3221225472, 7, 0, 0]).width → 0 ≤ y' →
      y' < (BitMatrix.mk 40 2 2 [3221225472, 7, 0, 0]).height → (x', y') ≠ (33, 1) →
      ((BitMatrix.mk 40 2 2 [3221225472, 7, 0, 0]).set 33 1).state.get x' y' =
        (BitMatrix.mk 40 2 2 [3221225472, 7, 0, 0]).get x' y' ∧
      ((BitMatrix.mk 40 2 2 [3221225472, 7, 0, 0]).unset 33 1).state.get x' y' =
        (BitMatrix.mk 40 2 2 [3221225472, 7, 0, 0]).get x' y' :=
  ⟨by decide, C1_set_unset_then_get (BitMatrix.mk 40 2 2 [3221225472, 7, 0, 0]) (by decide) 33 1
    (by decide) (by decide) (by decide) (by decide)⟩

/-- C2 (as stated) fails: on the 1 x 1 raster the column `x = 5` is out of range, yet `get`
returns normally, and `set` and `flip` complete and change a storage bit; `unset` completes
too. -/
theorem C2_counterexample :
    (BitMatrix.new 1 1).width ≤ 5 ∧
    (BitMatrix.new 1 1).get 5 0 = .ok false ∧
    (BitMatrix.new 1 1).set 5 0 = ⟨none, BitMatrix.mk 1 1 1 [32]⟩ ∧
    (BitMatrix.new 1 1).unset 5 0 = ⟨none, BitMatrix.mk 1 1 1 [0]⟩ ∧
    (BitMatrix.new 1 1).flip 5 0 = ⟨none, BitMatrix.mk 1 1 1 [32]⟩ ∧
    (BitMatrix.mk 1 1 1 [32]).get 5 0 = .ok true := by
  decide

/-- C2 (amended). The range check of `get`, `set`, `unset` and `flip` is the one of
`vector::at` on the storage-word index `y * rowSize + x / 32` (division truncating toward
zero). For `int` coordinates for which the product `y * rowSize` and the index are
representable (no signed overflow in the index arithmetic), each of the four fails with a
range error exactly when that index is outside the storage vector, and a call that does not
complete leaves the raster as it was. -/
theorem C2_range_check_on_word_index (m : BitMatrix) (x y : Int)
    (_hx : fitsInt x) (_hy : fitsInt y) (_hp : fitsInt (y * m.rowSize))
    (_hi : fitsInt (m.wordIndex x y)) :
    (m.get x y = .error .outOfRange ↔
      ¬ (0 ≤ m.wordIndex x y ∧ m.wordIndex x y < m.bits.length)) ∧
    ((m.set x y).err = some .outOfRange ↔
      ¬ (0 ≤ m.wordIndex x y ∧ m.wordIndex x y < m.bits.length)) ∧
    ((m.unset x y).err = some .outOfRange ↔
      ¬ (0 ≤ m.wordIndex x y ∧ m.wordIndex x y < m.bits.length)) ∧
    ((m.flip x y).err = some .outOfRange ↔
      ¬ (0 ≤ m.wordIndex x y ∧ m.wordIndex x y < m.bits.length)) ∧
    ((m.set x y).err = none ∨ (m.set x y).state = m) ∧
    ((m.unset x y).err = none ∨ (m.unset x y).state = m) ∧
    ((m.flip x y).err = none ∨ (m.flip x y).state = m) := by
  unfold BitMatrix.get BitMatrix.set BitMatrix.unset BitMatrix.flip vecAt
  by_cases hi : 0 ≤ m.wordIndex x y ∧ m.wordIndex x y < m.bits.length
  · simp only [if_pos hi]
    simp [hi]
  · simp only [if_neg hi]
    simp [hi]

/-- Witness for C2 (amended): on the 40 x 2 raster the coordinate `(70, 1)` has the word
index 4, outside the 4 storage words, and the four operations fail with a range error; the
coordinate `(70, 0)`, as much out of range, has the word index 2 and is not rejected. -/
theorem C2_range_check_on_word_index_witness :
    fitsInt 70 ∧ fitsInt 1 ∧ fitsInt (1 * (BitMatrix.new 40 2).rowSize) ∧
    (BitMatrix.new 40 2).wordIndex 70 1 = 4 ∧ (BitMatrix.new 40 2).bits.length = 4 ∧
    (BitMatrix.new 40 2).get 70 1 = .error .outOfRange ∧
    ((BitMatrix.new 40 2).set 70 1).err = some .outOfRange ∧
    ((BitMatrix.new 40 2).unset 70 1).err = some .outOfRange ∧
    ((BitMatrix.new 40 2).flip 70 1).err = some .outOfRange ∧
    ((BitMatrix.new 40 2).set 70 1).state = BitMatrix.new 40 2 ∧
    (BitMatrix.new 40 2).wordIndex 70 0 = 2 ∧
    (BitMatrix.new 40 2).get 70 0 ≠ .error .outOfRange :=
  have h := C2_range_check_on_word_index (BitMatrix.new 40 2) 70 1 (by decide) (by decide)
    (by decide) (by decide)
  have h0 := C2_range_check_on_word_index (BitMatrix.new 40 2) 70 0 (by decide) (by decide)
    (by decide) (by decide)
  ⟨by decide, by decide, by decide, by decide, by decide, h.1.mpr (by decide),
    h.2.1.mpr (by decide), h.2.2.1.mpr (by decide), h.2.2.2.1.mpr (by decide),
    (h.2.2.2.2.1).resolve_left (by rw [h.2.1.mpr (by decide)]; decide), by decide,
    fun hc => (h0.1.mp hc) (by decide)⟩

/-! ## Loops -/

/-- Invariant rule for `forLoop`: if `P lo` holds initially and every iteration `i` of the
range runs without failure and takes `P i` to `P (i + 1)`, then the loop runs without failure
and ends in a state satisfying `P hi`. -/
theorem forLoop_rule {σ : Type} (lo hi : Int) (body : σ → Int → Except Err σ)
    (P : Int → σ → Prop) (s : σ) (hle : lo ≤ hi) (h0 : P lo s)
    (hstep : ∀ i t, lo ≤ i → i < hi → P i t → ∃ t', body t i = .ok t' ∧ P (i + 1) t') :
    ∃ t, forLoop lo hi body s = .ok t ∧ P hi t := by
  have key : ∀ n : Nat, lo + (n : Int) ≤ hi →
      ∃ t, (List.range n).foldlM (fun (s : σ) (k : Nat) => body s (lo + (k : Int))) s = .ok t ∧
        P (lo + (n : Int)) t := by
    intro n
    induction n with
    | zero =>
      intro _
      exact ⟨s, rfl, by simpa using h0⟩
    | succ n ih =>
      intro hn
      obtain ⟨t, ht, hP⟩ := ih (by omega)
      obtain ⟨t', ht', hP'⟩ := hstep (lo + (n : Int)) t (by omega) (by omega) hP
      refine ⟨t', ?_, ?_⟩
      · rw [List.range_succ, List.foldlM_append, ht]
        simp only [List.foldlM_cons, List.foldlM_nil]
        show (body t (lo + (n : Int)) >>= fun init => pure init) = Except.ok t'
        rw [ht']
        rfl
      · have : lo + ((n + 1 : Nat) : Int) = lo + (n : Int) + 1 := by omega
        rw [this]
        exact hP'
  obtain ⟨t, ht, hP⟩ := key (hi - lo).toNat (by omega)
  refine ⟨t, ht, ?_⟩
  have : lo + ((hi - lo).toNat : Int) = hi := by omega
  rw [this] at hP
  exact hP

/-! ## `setRegion` -/

theorem mem_set_bound (l : List Nat) (i a : Nat) (hl : ∀ w ∈ l, w < 4294967296)
    (ha : a < 4294967296) : ∀ w ∈ l.set i a, w < 4294967296 := by
  intro w hw
  rcases List.mem_or_eq_of_mem_set hw with h | h
  · exact hl w h
  · rw [h]; exact ha

theorem getD_bound (l : List Nat) (i : Nat) (hl : ∀ w ∈ l, w < 4294967296) :
    l.getD i 0 < 4294967296 := by
  rw [List.getD_eq_getElem?_getD]
  by_cases h : i < l.length
  · rw [List.getElem?_eq_getElem h]
    exact hl _ (List.getElem_mem h)
  · rw [List.getElem?_eq_none (by omega)]
    decide

theorem or_bit_bound (w k : Nat) (hw : w < 4294967296) (hk : k < 32) :
    w ||| (1 <<< k) < 4294967296 := by
  have h1 : (1 : Nat) <<< k < 2 ^ 32 := by
    rw [Nat.one_shiftLeft]; exact Nat.pow_lt_pow_right (by decide) hk
  exact Nat.or_lt_two_pow (n := 32) hw h1

/-- One execution of `_bits[offset + x / 32] |= 1 << (x & 0x1f)` inside the storage. -/
theorem rawModify_or (bits : List Nat) (rs h x y : Int)
    (hlen : (bits.length : Int) = rs * h) (hw : ∀ w ∈ bits, w < 4294967296)
    (hx0 : 0 ≤ x) (hx1 : x < rs * 32) (hy0 : 0 ≤ y) (hy1 : y < h) :
    ∃ bits', rawModify bits (y * rs + x.tdiv 32) (fun w => w ||| (1 <<< bitIndex x)) = .ok bits' ∧
      bits'.length = bits.length ∧ (∀ w ∈ bits', w < 4294967296) ∧
      ∀ x' y' : Int, 0 ≤ x' → x' < rs * 32 → 0 ≤ y' → y' < h →
        bitAt bits' rs x' y' = (bitAt bits rs x' y' || decide (x' = x ∧ y' = y)) := by
  have hb := index_bounds rs h x y hx0 hx1 hy0 hy1
  refine ⟨bits.set (y * rs + x / 32).toNat
    (bits.getD (y * rs + x / 32).toNat 0 ||| (1 <<< (x % 32).toNat)), ?_, ?_, ?_, ?_⟩
  · unfold rawModify
    rw [tdiv32_of_nonneg x hx0, bitIndex_of_nonneg x hx0, if_pos (by omega)]
  · simp
  · exact mem_set_bound _ _ _ hw (or_bit_bound _ _ (getD_bound _ _ hw) (by omega))
  · intro x' y' hx0' hx1' hy0' hy1'
    exact bitAt_set_or bits rs h x y x' y' hlen hx0 hx1 hy0 hy1 hx0' hx1' hy0' hy1'

/-- The inner loop of `setRegion` on row `y`: columns `left .. right - 1` are switched on. -/
theorem setRegion_row (bits : List Nat) (rs h left right y : Int)
    (hlen : (bits.length : Int) = rs * h) (hw : ∀ w ∈ bits, w < 4294967296)
    (hl0 : 0 ≤ left) (hlr : left ≤ right) (hr : right ≤ rs * 32) (hy0 : 0 ≤ y) (hy1 : y < h) :
    ∃ bits', forLoop left right (fun bits x =>
        rawModify bits (y * rs + x.tdiv 32) (fun w => w ||| (1 <<< bitIndex x))) bits = .ok bits' ∧
      bits'.length = bits.length ∧ (∀ w ∈ bits', w < 4294967296) ∧
      ∀ x' y' : Int, 0 ≤ x' → x' < rs * 32 → 0 ≤ y' → y' < h →
        bitAt bits' rs x' y' =
          (bitAt bits rs x' y' || decide (y' = y ∧ left ≤ x' ∧ x' < right)) := by
  apply forLoop_rule left right _ (fun i b =>
      b.length = bits.length ∧ (∀ w ∈ b, w < 4294967296) ∧
      ∀ x' y' : Int, 0 ≤ x' → x' < rs * 32 → 0 ≤ y' → y' < h →
        bitAt b rs x' y' = (bitAt bits rs x' y' || decide (y' = y ∧ left ≤ x' ∧ x' < i)))
    bits hlr
  · refine ⟨rfl, hw, ?_⟩
    intro x' y' _ _ _ _
    have : decide (y' = y ∧ left ≤ x' ∧ x' < left) = false := decide_eq_false (by omega)
    rw [this, Bool.or_false]
  · intro i b hi0 hi1 ⟨hbl, hbw, hbb⟩
    obtain ⟨b', hb', hl', hw', hbit'⟩ :=
      rawModify_or b rs h i y (by rw [hbl]; exact hlen) hbw (by omega) (by omega) hy0 hy1
    refine ⟨b', hb', by rw [hl', hbl], hw', ?_⟩
    intro x' y' hx0' hx1' hy0' hy1'
    rw [hbit' x' y' hx0' hx1' hy0' hy1', hbb x' y' hx0' hx1' hy0' hy1', Bool.or_assoc]
    congr 1
    rw [← Bool.decide_or]
    apply decide_eq_decide.mpr
    constructor
    · rintro (h1 | h1)
      · exact ⟨h1.1, h1.2.1, by omega⟩
      · exact ⟨h1.2, by omega, by omega⟩
    · intro h1
      by_cases h2 : x' = i
      · right; exact ⟨h2, h1.1⟩
      · left; exact ⟨h1.1, h1.2.1, by omega⟩

/-- The two nested loops of `setRegion`: the rectangle is switched on, nothing else changes. -/
theorem setRegion_rows (bits : List Nat) (rs h left right top bottom : Int)
    (hlen : (bits.length : Int) = rs * h) (hw : ∀ w ∈ bits, w < 4294967296)
    (hl0 : 0 ≤ left) (hlr : left ≤ right) (hr : right ≤ rs * 32)
    (ht0 : 0 ≤ top) (htb : top ≤ bottom) (hb : bottom ≤ h) :
    ∃ bits', forLoop top bottom (fun bits y =>
        let offset := y * rs
        forLoop left right (fun bits x =>
          rawModify bits (offset + x.tdiv 32) (fun w => w ||| (1 <<< bitIndex x))) bits)
        bits = .ok bits' ∧
      bits'.length = bits.length ∧ (∀ w ∈ bits', w < 4294967296) ∧
      ∀ x' y' : Int, 0 ≤ x' → x' < rs * 32 → 0 ≤ y' → y' < h →
        bitAt bits' rs x' y' =
          (bitAt bits rs x' y' ||
            decide (left ≤ x' ∧ x' < right ∧ top ≤ y' ∧ y' < bottom)) := by
  apply forLoop_rule top bottom _ (fun i b =>
      b.length = bits.length ∧ (∀ w ∈ b, w < 4294967296) ∧
      ∀ x' y' : Int, 0 ≤ x' → x' < rs * 32 → 0 ≤ y' → y' < h →
        bitAt b rs x' y' =
          (bitAt bits rs x' y' || decide (left ≤ x' ∧ x' < right ∧ top ≤ y' ∧ y' < i)))
    bits htb
  · refine ⟨rfl, hw, ?_⟩
    intro x' y' _ _ _ _
    have : decide (left ≤ x' ∧ x' < right ∧ top ≤ y' ∧ y' < top) = false :=
      decide_eq_false (by omega)
    rw [this, Bool.or_false]
  · intro i b hi0 hi1 ⟨hbl, hbw, hbb⟩
    obtain ⟨b', hb', hl', hw', hbit'⟩ :=
      setRegion_row b rs h left right i (by rw [hbl]; exact hlen) hbw hl0 hlr hr (by omega)
        (by omega)
    refine ⟨b', hb', by rw [hl', hbl], hw', ?_⟩
    intro x' y' hx0' hx1' hy0' hy1'
    rw [hbit' x' y' hx0' hx1' hy0' hy1', hbb x' y' hx0' hx1' hy0' hy1', Bool.or_assoc]
    congr 1
    rw [← Bool.decide_or]
    apply decide_eq_decide.mpr
    constructor
    · rintro (h1 | h1)
      · exact ⟨h1.1, h1.2.1, h1.2.2.1, by omega⟩
      · exact ⟨h1.2.1, h1.2.2, by omega, by omega⟩
    · intro h1
      by_cases h2 : y' = i
      · right; exact ⟨h2, h1.1, h1.2.1⟩
      · left; exact ⟨h1.1, h1.2.1, h1.2.2.1, by omega⟩

/-- A region that violates one of the three checks does not complete and leaves the raster
as it was: the call is rejected with InvalidArgument wherever the guard is reached, that is
when a coordinate is negative, a size is below 1, or both sums are representable. -/
theorem setRegion_rejected (m : BitMatrix) (left top width height : Int)
    (h : left < 0 ∨ top < 0 ∨ width < 1 ∨ height < 1 ∨ left + width > m.width ∨
      top + height > m.height) :
    (m.setRegion left top width height).err ≠ none ∧
    (m.setRegion left top width height).state = m ∧
    ((left < 0 ∨ top < 0 ∨ width < 1 ∨ height < 1 ∨
        (fitsInt (left + width) ∧ fitsInt (top + height))) →
      m.setRegion left top width height = ⟨some .invalidArgument, m⟩) := by
  unfold BitMatrix.setRegion
  by_cases h1 : top < 0 ∨ left < 0
  · rw [if_pos h1]
    exact ⟨by simp, rfl, fun _ => rfl⟩
  · rw [if_neg h1]
    by_cases h2 : height < 1 ∨ width < 1
    · rw [if_pos h2]
      exact ⟨by simp, rfl, fun _ => rfl⟩
    · rw [if_neg h2]
      by_cases h4 : ¬ fitsInt (left + width) ∨ ¬ fitsInt (top + height)
      · rw [if_pos h4]
        refine ⟨by simp, rfl, fun hc => ?_⟩
        exfalso
        rcases hc with hc | hc | hc | hc | hc
        · exact h1 (Or.inr hc)
        · exact h1 (Or.inl hc)
        · exact h2 (Or.inr hc)
        · exact h2 (Or.inl hc)
        · rcases h4 with h4 | h4
          · exact h4 hc.1
          · exact h4 hc.2
      · rw [if_neg h4]
        have h3 : top + height > m.height ∨ left + width > m.width := by omega
        simp only [if_pos h3]
        simp

/-- A call of `setRegion` that completes passed the three checks with representable sums. -/
theorem setRegion_of_ok (m : BitMatrix) (left top width height : Int)
    (hok : (m.setRegion left top width height).err = none) :
    ¬ (left < 0 ∨ top < 0 ∨ width < 1 ∨ height < 1 ∨ left + width > m.width ∨
      top + height > m.height) ∧ fitsInt (left + width) ∧ fitsInt (top + height) := by
  refine ⟨fun hc => (setRegion_rejected m left top width height hc).1 hok, ?_⟩
  unfold BitMatrix.setRegion at hok
  by_cases h1 : top < 0 ∨ left < 0
  · rw [if_pos h1] at hok
    simp at hok
  · rw [if_neg h1] at hok
    by_cases h2 : height < 1 ∨ width < 1
    · rw [if_pos h2] at hok
      simp at hok
    · rw [if_neg h2] at hok
      by_cases h4 : ¬ fitsInt (left + width) ∨ ¬ fitsInt (top + height)
      · rw [if_pos h4] at hok
        simp at hok
      · constructor
        · by_contra hc
          exact h4 (Or.inl hc)
        · by_contra hc
          exact h4 (Or.inr hc)

/-- A region that passes the checks is filled: the call completes, only the storage words
change, and every storage bit is the old one or-ed with membership in the rectangle. -/
theorem setRegion_accepted (m : BitMatrix) (hwf : m.WF) (left top width height : Int)
    (h : ¬ (left < 0 ∨ top < 0 ∨ width < 1 ∨ height < 1 ∨ left + width > m.width ∨
      top + height > m.height))
    (hfit : fitsInt (left + width) ∧ fitsInt (top + height)) :
    ∃ bits', m.setRegion left top width height = ⟨none, { m with bits := bits' }⟩ ∧
      bits'.length = m.bits.length ∧ (∀ w ∈ bits', w < 4294967296) ∧
      ∀ x' y' : Int, 0 ≤ x' → x' < m.rowSize * 32 → 0 ≤ y' → y' < m.height →
        bitAt bits' m.rowSize x' y' =
          (bitAt m.bits m.rowSize x' y' ||
            decide (left ≤ x' ∧ x' < left + width ∧ top ≤ y' ∧ y' < top + height)) := by
  have hr : left + width ≤ m.rowSize * 32 := by
    have := hwf.2.2.1
    omega
  obtain ⟨bits', hrun, hl, hw, hbit⟩ :=
    setRegion_rows m.bits m.rowSize m.height left (left + width) top (top + height)
      hwf.2.2.2.1 hwf.2.2.2.2 (by omega) (by omega) hr (by omega) (by omega) (by omega)
  refine ⟨bits', ?_, hl, hw, hbit⟩
  have hov : ¬ (¬ fitsInt (left + width) ∨ ¬ fitsInt (top + height)) := by
    intro hc
    rcases hc with hc | hc
    · exact hc hfit.1
    · exact hc hfit.2
  unfold BitMatrix.setRegion
  rw [if_neg (by omega), if_neg (by omega), if_neg hov]
  simp only []
  rw [if_neg (by omega)]
  simp only [] at hrun
  rw [hrun]

/-- A call of `setRegion` that does not complete leaves the raster as it was. -/
theorem setRegion_unchanged (m : BitMatrix) (left top width height : Int) :
    (m.setRegion left top width height).err = none ∨
      (m.setRegion left top width height).state = m := by
  unfold BitMatrix.setRegion
  simp only []
  split_ifs
  · exact Or.inr rfl
  · exact Or.inr rfl
  · exact Or.inr rfl
  · exact Or.inr rfl
  · split
    · exact Or.inr rfl
    · exact Or.inl rfl

/-- What `setRegion(left, top, w, h)` does on a raster satisfying the class invariant: it
fails with InvalidArgument exactly when `left < 0`, `top < 0`, `w < 1`, `h < 1`, or the sums
`left + w` and `top + h` are representable and one of them exceeds the width or the height;
its behaviour is undefined exactly when the four values pass the first two checks and a sum
overflows; and a call that does not complete leaves the raster unchanged. -/
theorem setRegion_rejects_iff (m : BitMatrix) (hwf : m.WF) (left top w h : Int) :
    ((m.setRegion left top w h).err = some .invalidArgument ↔
      (left < 0 ∨ top < 0 ∨ w < 1 ∨ h < 1 ∨
        (fitsInt (left + w) ∧ fitsInt (top + h) ∧
          (left + w > m.width ∨ top + h > m.height)))) ∧
    ((m.setRegion left top w h).err = some .undefinedBehaviour ↔
      (0 ≤ left ∧ 0 ≤ top ∧ 1 ≤ w ∧ 1 ≤ h ∧
        ¬ (fitsInt (left + w) ∧ fitsInt (top + h)))) ∧
    ((m.setRegion left top w h).err = none ∨ (m.setRegion left top w h).state = m) := by
  refine ⟨?_, ?_, setRegion_unchanged m left top w h⟩
  · by_cases hg : left < 0 ∨ top < 0 ∨ w < 1 ∨ h < 1
    · have hrun := (setRegion_rejected m left top w h (by tauto)).2.2 (by tauto)
      rw [hrun]
      exact ⟨fun _ => by tauto, fun _ => rfl⟩
    · by_cases hfit : fitsInt (left + w) ∧ fitsInt (top + h)
      · by_cases hc : left + w > m.width ∨ top + h > m.height
        · have hrun := (setRegion_rejected m left top w h (by tauto)).2.2 (by tauto)
          rw [hrun]
          exact ⟨fun _ => by tauto, fun _ => rfl⟩
        · obtain ⟨bits', hrun, _⟩ := setRegion_accepted m hwf left top w h (by tauto) hfit
          rw [hrun]
          constructor
          · intro h1
            simp at h1
          · intro h1
            tauto
      · constructor
        · intro h1
          exfalso
          unfold BitMatrix.setRegion at h1
          rw [if_neg (by tauto), if_neg (by tauto), if_pos (by tauto)] at h1
          simp at h1
        · intro h1
          tauto
  · by_cases hg : left < 0 ∨ top < 0 ∨ w < 1 ∨ h < 1
    · have hrun := (setRegion_rejected m left top w h (by tauto)).2.2 (by tauto)
      rw [hrun]
      constructor
      · intro h1
        simp at h1
      · intro h1
        omega
    · by_cases hfit : fitsInt (left + w) ∧ fitsInt (top + h)
      · constructor
        · intro h1
          exfalso
          by_cases hc : left + w > m.width ∨ top + h > m.height
          · rw [(setRegion_rejected m left top w h (by tauto)).2.2 (by tauto)] at h1
            simp at h1
          · obtain ⟨bits', hrun, _⟩ := setRegion_accepted m hwf left top w h (by tauto) hfit
            rw [hrun] at h1
            simp at h1
        · intro h1
          tauto
      · constructor
        · intro _
          exact ⟨by omega, by omega, by omega, by omega, hfit⟩
        · intro _
          unfold BitMatrix.setRegion
          rw [if_neg (by tauto), if_neg (by tauto), if_pos (by tauto)]

/-- C3 (defect of the code). `setRegion` does not reject every region that fails to fit: on
the fresh 40 x 2 raster, `setRegion(INT_MAX, 0, 1, 1)` and `setRegion(0, INT_MAX, 1, 1)` name
regions that end beyond the raster (`left + w > width`, `top + h > height`), yet the `int`
sum overflows before the guard compares it, so the call is not answered with InvalidArgument;
its behaviour is undefined. The same regions with sums that are representable are rejected,
and a region that fits is accepted. -/
theorem C3_setRegion_overflow_not_rejected :
    (BitMatrix.new 40 2).WF ∧
    (2147483647 : Int) + 1 > (BitMatrix.new 40 2).width ∧
    (BitMatrix.new 40 2).setRegion 2147483647 0 1 1 =
      ⟨some .undefinedBehaviour, BitMatrix.new 40 2⟩ ∧
    ((BitMatrix.new 40 2).setRegion 2147483647 0 1 1).err ≠ some .invalidArgument ∧
    (2147483647 : Int) + 1 > (BitMatrix.new 40 2).height ∧
    ((BitMatrix.new 40 2).setRegion 0 2147483647 1 1).err ≠ some .invalidArgument ∧
    (BitMatrix.new 40 2).setRegion 2147483646 0 1 1 =
      ⟨some .invalidArgument, BitMatrix.new 40 2⟩ ∧
    (BitMatrix.new 40 2).setRegion 39 0 2 1 = ⟨some .invalidArgument, BitMatrix.new 40 2⟩ ∧
    ((BitMatrix.new 40 2).setRegion 30 0 5 2).err = none := by
  decide

/-- C4. When `setRegion(left, top, w, h)` completes on a raster satisfying the class
invariant, width, height and row stride are unchanged and, for every valid coordinate
`(x, y)`, `get(x, y)` is true inside the rectangle `left <= x < left + w`,
`top <= y < top + h` and returns what it returned before outside of it. -/
theorem C4_setRegion_effect (m : BitMatrix) (hwf : m.WF) (left top w h : Int)
    (hok : (m.setRegion left top w h).err = none) :
    (m.setRegion left top w h).state.width = m.width ∧
    (m.setRegion left top w h).state.height = m.height ∧
    (m.setRegion left top w h).state.rowSize = m.rowSize ∧
    ∀ x y : Int, 0 ≤ x → x < m.width → 0 ≤ y → y < m.height →
      (m.setRegion left top w h).state.get x y =
        if left ≤ x ∧ x < left + w ∧ top ≤ y ∧ y < top + h then .ok true else m.get x y := by
  obtain ⟨hc, hfit⟩ := setRegion_of_ok m left top w h hok
  obtain ⟨bits', hrun, hl, _, hbit⟩ := setRegion_accepted m hwf left top w h hc hfit
  rw [hrun]
  refine ⟨rfl, rfl, rfl, ?_⟩
  intro x y hx0 hx1 hy0 hy1
  have hxr := rowSize_covers m hwf x hx1
  rw [get_with_bits m hwf bits' hl x y hx0 hxr hy0 hy1, hbit x y hx0 hxr hy0 hy1,
    get_eq_bitAt m x y hx0 (wordIndex_bounds m hwf x y hx0 hxr hy0 hy1)]
  by_cases hin : left ≤ x ∧ x < left + w ∧ top ≤ y ∧ y < top + h
  · rw [if_pos hin, decide_eq_true hin, Bool.or_true]
  · rw [if_neg hin, decide_eq_false hin, Bool.or_false]

/-- Witness for C4: the region `(30, 0, 5, 1)` on a 40 x 2 raster with bit `(0, 1)` set. -/
theorem C4_setRegion_effect_witness :
    (BitMatrix.mk 40 2 2 [0, 0, 1, 0]).WF ∧
    ((BitMatrix.mk 40 2 2 [0, 0, 1, 0]).setRegion 30 0 5 1).err = none ∧
    ((BitMatrix.mk 40 2 2 [0, 0, 1, 0]).setRegion 30 0 5 1).state.width =
      (BitMatrix.mk 40 2 2 [0, 0, 1, 0]).width ∧
    ((BitMatrix.mk 40 2 2 [0, 0, 1, 0]).setRegion 30 0 5 1).state.height =
      (BitMatrix.mk 40 2 2 [0, 0, 1, 0]).height ∧
    ((BitMatrix.mk 40 2 2 [0, 0, 1, 0]).setRegion 30 0 5 1).state.rowSize =
      (BitMatrix.mk 40 2 2 [0, 0, 1, 0]).rowSize ∧
    ∀ x y : Int, 0 ≤ x → x < (BitMatrix.mk 40 2 2 [0, 0, 1, 0]).width → 0 ≤ y →
      y < (BitMatrix.mk 40 2 2 [0, 0, 1, 0]).height →
      ((BitMatrix.mk 40 2 2 [0, 0, 1, 0]).setRegion 30 0 5 1).state.get x y =
        if 30 ≤ x ∧ x < 30 + 5 ∧ 0 ≤ y ∧ y < 0 + 1 then .ok true
        else (BitMatrix.mk 40 2 2 [0, 0, 1, 0]).get x y :=
  ⟨by decide, by decide,
    C4_setRegion_effect (BitMatrix.mk 40 2 2 [0, 0, 1, 0]) (by decide) 30 0 5 1 (by decide)⟩

/-! ## Bit scans inside a word -/

theorem eq_zero_iff_testBit (n : Nat) : n = 0 ↔ ∀ i, n.testBit i = false := by
  constructor
  · intro h i
    rw [h]
    exact Nat.zero_testBit i
  · intro h
    apply Nat.eq_of_testBit_eq
    intro i
    rw [h i, Nat.zero_testBit]

/-- The test `(theBits << (31 - bit)) == 0` on a `uint32_t` holds exactly when bits
`0 .. bit` of `theBits` are all clear. -/
theorem shl_zero_iff (w bit : Nat) (hb : bit ≤ 31) :
    (w <<< (31 - bit)) % 4294967296 = 0 ↔ ∀ j, j ≤ bit → w.testBit j = false := by
  have h32 : (4294967296 : Nat) = 2 ^ 32 := by norm_num
  rw [eq_zero_iff_testBit, h32]
  constructor
  · intro h j hj
    have := h (j + (31 - bit))
    rw [Nat.testBit_mod_two_pow, Nat.testBit_shiftLeft] at this
    have h1 : decide (j + (31 - bit) < 32) = true := decide_eq_true (by omega)
    have h2 : decide (j + (31 - bit) ≥ 31 - bit) = true := decide_eq_true (by omega)
    rw [h1, h2, Nat.add_sub_cancel] at this
    simpa using this
  · intro h i
    rw [Nat.testBit_mod_two_pow, Nat.testBit_shiftLeft]
    by_cases h1 : i < 32
    · by_cases h2 : i ≥ 31 - bit
      · rw [h (i - (31 - bit)) (by omega)]
        simp
      · simp [h2]
    · simp [h1]

/-- The test `(theBits >> bit) == 0` holds exactly when bits `bit` and above are clear. -/
theorem shr_zero_iff (w bit : Nat) :
    w >>> bit = 0 ↔ ∀ j, bit ≤ j → w.testBit j = false := by
  rw [eq_zero_iff_testBit]
  constructor
  · intro h j hj
    have := h (j - bit)
    rw [Nat.testBit_shiftRight] at this
    have h1 : bit + (j - bit) = j := by omega
    rw [h1] at this
    exact this
  · intro h i
    rw [Nat.testBit_shiftRight]
    exact h (bit + i) (by omega)

theorem testBit_high_clear (w j : Nat) (hw : w < 4294967296) (hj : 32 ≤ j) :
    w.testBit j = false := by
  apply Nat.testBit_lt_two_pow
  calc w < 2 ^ 32 := by norm_num; exact hw
    _ ≤ 2 ^ j := Nat.pow_le_pow_right (by decide) hj

theorem exists_bit_of_ne_zero (w : Nat) (hw0 : w ≠ 0) (hw : w < 4294967296) :
    ∃ j, j < 32 ∧ w.testBit j = true := by
  by_contra hcon
  apply hw0
  rw [eq_zero_iff_testBit]
  intro i
  by_cases hi : i < 32
  · by_contra h1
    exact hcon ⟨i, hi, by simpa using h1⟩
  · exact testBit_high_clear w i hw (by omega)

theorem lowBitLoop_aux (w : Nat) (hex : ∃ j, j < 32 ∧ w.testBit j = true) :
    ∀ (fuel bit : Nat), fuel + bit = 32 → (∀ j, j < bit → w.testBit j = false) →
      ∃ r : Nat, lowBitLoop w fuel (bit : Int) = .ok (r : Int) ∧ r < 32 ∧ w.testBit r = true ∧
        ∀ j, j < r → w.testBit j = false := by
  intro fuel
  induction fuel with
  | zero =>
    intro bit hb hlow
    exfalso
    obtain ⟨j, hj, hbit⟩ := hex
    rw [hlow j (by omega)] at hbit
    exact Bool.false_ne_true hbit
  | succ fuel ih =>
    intro bit hb hlow
    unfold lowBitLoop
    rw [if_neg (by omega)]
    have hcast : ((31 : Int) - (bit : Int)).toNat = 31 - bit := by omega
    rw [hcast]
    by_cases hz : (w <<< (31 - bit)) % 4294967296 = 0
    · rw [if_pos hz]
      have hall := (shl_zero_iff w bit (by omega)).mp hz
      have := ih (bit + 1) (by omega) (fun j hj => hall j (by omega))
      simpa using this
    · rw [if_neg hz]
      refine ⟨bit, rfl, by omega, ?_, hlow⟩
      by_contra hb0
      apply hz
      apply (shl_zero_iff w bit (by omega)).mpr
      intro j hj
      by_cases hjb : j = bit
      · rw [hjb]; simpa using hb0
      · exact hlow j (by omega)

/-- The loop `while ((theBits << (31 - bit)) == 0) bit++` started at `bit = 0` on a non-zero
word stops, within the bound, at the lowest set bit. -/
theorem lowBitLoop_spec (w : Nat) (hw0 : w ≠ 0) (hw : w < 4294967296) :
    ∃ r : Nat, lowBitLoop w 32 0 = .ok (r : Int) ∧ r < 32 ∧ w.testBit r = true ∧
      ∀ j, j < r → w.testBit j = false := by
  have := lowBitLoop_aux w (exists_bit_of_ne_zero w hw0 hw) 32 0 rfl (fun j hj => by omega)
  simpa using this

theorem highBitLoop_aux (w : Nat) (hex : ∃ j, j < 32 ∧ w.testBit j = true) :
    ∀ (fuel : Nat), fuel ≤ 32 → (∀ j, fuel ≤ j → w.testBit j = false) →
      ∃ r : Nat, highBitLoop w fuel ((fuel : Int) - 1) = .ok (r : Int) ∧ r < 32 ∧
        w.testBit r = true ∧ ∀ j, r < j → w.testBit j = false := by
  intro fuel
  induction fuel with
  | zero =>
    intro _ hhigh
    exfalso
    obtain ⟨j, _, hbit⟩ := hex
    rw [hhigh j (by omega)] at hbit
    exact Bool.false_ne_true hbit
  | succ fuel ih =>
    intro hb hhigh
    unfold highBitLoop
    have hc1 : (((fuel + 1 : Nat) : Int) - 1) = (fuel : Int) := by omega
    rw [hc1, if_neg (by omega)]
    have hcast : (fuel : Int).toNat = fuel := by omega
    rw [hcast]
    by_cases hz : w >>> fuel = 0
    · rw [if_pos hz]
      have hall := (shr_zero_iff w fuel).mp hz
      exact ih (by omega) hall
    · rw [if_neg hz]
      refine ⟨fuel, rfl, by omega, ?_, fun j hj => hhigh j (by omega)⟩
      by_contra hb0
      apply hz
      apply (shr_zero_iff w fuel).mpr
      intro j hj
      by_cases hjb : j = fuel
      · rw [hjb]; simpa using hb0
      · exact hhigh j (by omega)

/-- The loop `while ((theBits >> bit) == 0) bit--` started at `bit = 31` on a non-zero word
stops, within the bound, at the highest set bit. -/
theorem highBitLoop_spec (w : Nat) (hw0 : w ≠ 0) (hw : w < 4294967296) :
    ∃ r : Nat, highBitLoop w 32 31 = .ok (r : Int) ∧ r < 32 ∧ w.testBit r = true ∧
      ∀ j, r < j → w.testBit j = false := by
  have := highBitLoop_aux w (exists_bit_of_ne_zero w hw0 hw) 32 (le_refl _)
    (fun j hj => testBit_high_clear w j hw hj)
  simpa using this

/-! ## `getEnclosingRectangle` -/

theorem scanWord_zero (y x32 : Int) (s : RectScan) : scanWord 0 y x32 s = .ok s := by
  unfold scanWord
  simp

/-- The state after the loop body of `getEnclosingRectangle` on a non-zero word whose lowest
set bit is `lo` and highest set bit is `hi`. -/
theorem scanWord_eq (w : Nat) (hw0 : w ≠ 0) (y x32 : Int) (s : RectScan) (lo hi : Nat)
    (hlo : lowBitLoop w 32 0 = .ok (lo : Int)) (hhi : highBitLoop w 32 31 = .ok (hi : Int)) :
    scanWord w y x32 s = .ok
      ⟨if x32 * 32 < s.left then (if x32 * 32 + lo < s.left then x32 * 32 + lo else s.left)
        else s.left,
       if y < s.top then y else s.top,
       if x32 * 32 + 31 > s.right then (if x32 * 32 + hi > s.right then x32 * 32 + hi else s.right)
        else s.right,
       if y > s.bottom then y else s.bottom⟩ := by
  unfold scanWord
  rw [if_pos hw0, hlo, hhi]
  by_cases h1 : x32 * 32 < s.left <;> by_cases h2 : x32 * 32 + 31 > s.right <;> simp [h1, h2]

/-- The loop body of `getEnclosingRectangle` on a non-zero word: it completes, the rectangle
only grows, it now contains every set bit of the word, and each bound is the previous one or
the position of a set bit of the word. -/
theorem scanWord_spec (w : Nat) (hw0 : w ≠ 0) (hw : w < 4294967296) (y x32 : Int)
    (s : RectScan) :
    ∃ s', scanWord w y x32 s = .ok s' ∧
      (s'.left ≤ s.left ∧ s'.top ≤ s.top ∧ s.right ≤ s'.right ∧ s.bottom ≤ s'.bottom) ∧
      (∀ j : Nat, j < 32 → w.testBit j = true →
        s'.left ≤ x32 * 32 + j ∧ x32 * 32 + j ≤ s'.right) ∧
      (s'.top ≤ y ∧ y ≤ s'.bottom) ∧
      (s'.left = s.left ∨ ∃ j : Nat, j < 32 ∧ w.testBit j = true ∧ s'.left = x32 * 32 + j) ∧
      (s'.top = s.top ∨ s'.top = y) ∧
      (s'.right = s.right ∨ ∃ j : Nat, j < 32 ∧ w.testBit j = true ∧ s'.right = x32 * 32 + j) ∧
      (s'.bottom = s.bottom ∨ s'.bottom = y) := by
  obtain ⟨lo, hlo, hlo32, hlobit, hlomin⟩ := lowBitLoop_spec w hw0 hw
  obtain ⟨hi, hhi, hhi32, hhibit, hhimax⟩ := highBitLoop_spec w hw0 hw
  refine ⟨_, scanWord_eq w hw0 y x32 s lo hi hlo hhi, ?_, ?_, ?_, ?_, ?_, ?_, ?_⟩
  · refine ⟨?_, ?_, ?_, ?_⟩ <;> dsimp only <;> split_ifs <;> omega
  · intro j hj hbit
    have h1 : lo ≤ j := by
      by_contra hc
      rw [hlomin j (by omega)] at hbit
      exact Bool.false_ne_true hbit
    have h2 : j ≤ hi := by
      by_contra hc
      rw [hhimax j (by omega)] at hbit
      exact Bool.false_ne_true hbit
    constructor <;> dsimp only <;> split_ifs <;> omega
  · constructor <;> dsimp only <;> split_ifs <;> omega
  · dsimp only
    by_cases h1 : x32 * 32 < s.left ∧ x32 * 32 + lo < s.left
    · right
      exact ⟨lo, hlo32, hlobit, by rw [if_pos h1.1, if_pos h1.2]⟩
    · left
      split_ifs <;> first | rfl | omega
  · dsimp only
    split_ifs
    · right; rfl
    · left; rfl
  · dsimp only
    by_cases h1 : x32 * 32 + 31 > s.right ∧ x32 * 32 + hi > s.right
    · right
      exact ⟨hi, hhi32, hhibit, by rw [if_pos h1.1, if_pos h1.2]⟩
    · left
      split_ifs <;> first | rfl | omega
  · dsimp only
    split_ifs
    · right; rfl
    · left; rfl

theorem bitAt_word (bits : List Nat) (rs x32 y : Int) (j : Nat) (hj : j < 32) :
    bitAt bits rs (x32 * 32 + j) y = (bits.getD (y * rs + x32).toNat 0).testBit j := by
  unfold bitAt
  have h1 : (x32 * 32 + (j : Int)) / 32 = x32 := by omega
  have h2 : ((x32 * 32 + (j : Int)) % 32).toNat = j := by omega
  rw [h1, h2]

theorem rawAt_eq (bits : List Nat) (i : Int) (h : 0 ≤ i ∧ i < bits.length) :
    rawAt bits i = .ok (bits.getD i.toNat 0) := by
  unfold rawAt
  rw [if_pos h]

theorem word_bounds (rs h x32 y : Int) (hx0 : 0 ≤ x32) (hx1 : x32 < rs) (hy0 : 0 ≤ y)
    (hy1 : y < h) : 0 ≤ y * rs + x32 ∧ y * rs + x32 < rs * h := by
  have := index_bounds rs h (x32 * 32) y (by omega) (by omega) hy0 hy1
  have h1 : x32 * 32 / 32 = x32 := by omega
  rw [h1] at this
  exact this

/-- One iteration of the inner loop of `getEnclosingRectangle`, at row `y` and word column
`x32`. -/
theorem enclosing_step (m : BitMatrix) (hwf : m.WF) (y x32 : Int) (hy0 : 0 ≤ y)
    (hy1 : y < m.height) (hx0 : 0 ≤ x32) (hx1 : x32 < m.rowSize) (s : RectScan)
    (htight : s.tight m) :
    ∃ s', (match rawAt m.bits (y * m.rowSize + x32) with
        | .error e => Except.error e
        | .ok theBits => scanWord theBits y x32 s) = .ok s' ∧
      s'.tight m ∧ (∀ x' y', s.covers x' y' → s'.covers x' y') ∧
      ∀ x', 0 ≤ x' → x' / 32 = x32 → bitAt m.bits m.rowSize x' y = true → s'.covers x' y := by
  have hb := word_bounds m.rowSize m.height x32 y hx0 hx1 hy0 hy1
  rw [rawAt_eq m.bits _ (by rw [hwf.2.2.2.1]; exact hb)]
  have hwb := getD_bound m.bits (y * m.rowSize + x32).toNat hwf.2.2.2.2
  have hdec : ∀ x' : Int, 0 ≤ x' → x' / 32 = x32 →
      bitAt m.bits m.rowSize x' y =
        (m.bits.getD (y * m.rowSize + x32).toNat 0).testBit (x' % 32).toNat := by
    intro x' _ h2
    unfold bitAt
    rw [h2]
  by_cases hw0 : m.bits.getD (y * m.rowSize + x32).toNat 0 = 0
  · rw [hw0]
    refine ⟨s, scanWord_zero y x32 s, htight, fun _ _ h => h, ?_⟩
    intro x' h1 h2 h3
    rw [hdec x' h1 h2, hw0, Nat.zero_testBit] at h3
    exact absurd h3 Bool.false_ne_true
  · obtain ⟨s', hrun, hmono, hhit, hrow, hl, ht, hr, hbt⟩ :=
      scanWord_spec _ hw0 hwb y x32 s
    have hon : ∀ j : Nat, j < 32 →
        (m.bits.getD (y * m.rowSize + x32).toNat 0).testBit j = true →
        m.onBit (x32 * 32 + j) y := by
      intro j hj hbit
      refine ⟨by omega, by omega, hy0, hy1, ?_⟩
      rw [bitAt_word m.bits m.rowSize x32 y j hj]
      exact hbit
    obtain ⟨j0, hj0, hbit0⟩ := exists_bit_of_ne_zero _ hw0 hwb
    refine ⟨s', hrun, ⟨?_, ?_, ?_, ?_⟩, ?_, ?_⟩
    · rcases hl with h | ⟨j, hj, hbit, h⟩
      · rw [h]; exact htight.1
      · right; exact ⟨_, _, hon j hj hbit, h⟩
    · rcases ht with h | h
      · rw [h]; exact htight.2.1
      · right; exact ⟨_, _, hon j0 hj0 hbit0, h⟩
    · rcases hr with h | ⟨j, hj, hbit, h⟩
      · rw [h]; exact htight.2.2.1
      · right; exact ⟨_, _, hon j hj hbit, h⟩
    · rcases hbt with h | h
      · rw [h]; exact htight.2.2.2
      · right; exact ⟨_, _, hon j0 hj0 hbit0, h⟩
    · intro x' y' hc
      unfold RectScan.covers at hc ⊢
      omega
    · intro x' h1 h2 h3
      rw [hdec x' h1 h2] at h3
      have := hhit (x' % 32).toNat (by omega) h3
      unfold RectScan.covers
      omega

/-- The inner loop of `getEnclosingRectangle` over the words of row `y`. -/
theorem enclosing_row (m : BitMatrix) (hwf : m.WF) (y : Int) (hy0 : 0 ≤ y) (hy1 : y < m.height)
    (s : RectScan) (htight : s.tight m)
    (hcov : ∀ x' y', m.onBit x' y' → y' < y → s.covers x' y') :
    ∃ s', forLoop 0 m.rowSize (fun s x32 =>
        match rawAt m.bits (y * m.rowSize + x32) with
        | .error e => Except.error e
        | .ok theBits => scanWord theBits y x32 s) s = .ok s' ∧
      s'.tight m ∧ ∀ x' y', m.onBit x' y' → y' < y + 1 → s'.covers x' y' := by
  have hrs : 0 ≤ m.rowSize := by
    have := hwf.2.2.1
    have := hwf.1
    omega
  obtain ⟨s', hrun, ht', hc'⟩ := forLoop_rule 0 m.rowSize _ (fun j t =>
      t.tight m ∧ ∀ x' y', m.onBit x' y' → (y' < y ∨ (y' = y ∧ x' / 32 < j)) → t.covers x' y')
    s hrs ⟨htight, fun x' y' hon h => by
      rcases h with h | h
      · exact hcov x' y' hon h
      · have := hon.1
        omega⟩
    (fun j t hj0 hj1 ⟨ht, hc⟩ => by
      obtain ⟨t', hrun, ht', hmono, hnew⟩ := enclosing_step m hwf y j hy0 hy1 hj0 hj1 t ht
      refine ⟨t', hrun, ht', ?_⟩
      intro x' y' hon h
      by_cases hold : y' < y ∨ (y' = y ∧ x' / 32 < j)
      · exact hmono x' y' (hc x' y' hon hold)
      · have hy : y' = y := by omega
        have hx : x' / 32 = j := by omega
        rw [hy]
        apply hnew x' hon.1 hx
        rw [← hy]
        exact hon.2.2.2.2)
  refine ⟨s', hrun, ht', ?_⟩
  intro x' y' hon h
  apply hc' x' y' hon
  by_cases h1 : y' < y
  · left; exact h1
  · right
    have := hon.2.1
    exact ⟨by omega, by omega⟩

/-- The two nested loops of `getEnclosingRectangle` complete without any out-of-range read
and end with a rectangle that contains every set storage bit and whose bounds are initial or
attained by a set bit. -/
theorem enclosing_scan (m : BitMatrix) (hwf : m.WF) :
    ∃ s, forLoop 0 m.height (fun s y =>
        forLoop 0 m.rowSize (fun s x32 =>
          match rawAt m.bits (y * m.rowSize + x32) with
          | .error e => Except.error e
          | .ok theBits => scanWord theBits y x32 s) s)
        (⟨m.width, m.height, -1, -1⟩ : RectScan) = .ok s ∧
      s.tight m ∧ ∀ x' y', m.onBit x' y' → s.covers x' y' := by
  obtain ⟨s, hrun, ht, hc⟩ := forLoop_rule 0 m.height _ (fun i t =>
      t.tight m ∧ ∀ x' y', m.onBit x' y' → y' < i → t.covers x' y')
    (⟨m.width, m.height, -1, -1⟩ : RectScan) hwf.2.1
    ⟨⟨Or.inl rfl, Or.inl rfl, Or.inl rfl, Or.inl rfl⟩, fun x' y' hon h => by
      have := hon.2.2.1
      omega⟩
    (fun i t hi0 hi1 ⟨ht, hc⟩ => enclosing_row m hwf i hi0 hi1 t ht hc)
  exact ⟨s, hrun, ht, fun x' y' hon => hc x' y' hon hon.2.2.2.1⟩

/-- Result of `getEnclosingRectangle` in terms of the final state of its scan. -/
theorem getEnclosingRectangle_spec (m : BitMatrix) (hwf : m.WF) :
    ∃ s : RectScan, s.tight m ∧ (∀ x' y', m.onBit x' y' → s.covers x' y') ∧
      m.getEnclosingRectangle =
        if s.right < s.left ∨ s.bottom < s.top then .ok none
        else .ok (some (s.left, s.top, s.right - s.left + 1, s.bottom - s.top + 1)) := by
  obtain ⟨s, hrun, ht, hc⟩ := enclosing_scan m hwf
  refine ⟨s, ht, hc, ?_⟩
  unfold BitMatrix.getEnclosingRectangle
  rw [hrun]

/-! ## `getTopLeftOnBit` and `getBottomRightOnBit` -/

theorem scanUp_aux (bits : List Nat) :
    ∀ (fuel off : Nat), fuel + off = bits.length + 1 → off ≤ bits.length →
      (∀ i, i < off → bits.getD i 0 = 0) →
      ∃ r : Nat, scanUp bits fuel (off : Int) = .ok (r : Int) ∧ r ≤ bits.length ∧
        (∀ i, i < r → bits.getD i 0 = 0) ∧ (r < bits.length → bits.getD r 0 ≠ 0) := by
  intro fuel
  induction fuel with
  | zero =>
    intro off h1 h2 _
    omega
  | succ fuel ih =>
    intro off h1 h2 hz
    unfold scanUp
    by_cases hlt : (off : Int) < bits.length
    · rw [if_pos hlt, rawAt_eq bits _ ⟨by omega, hlt⟩]
      have hcast : (off : Int).toNat = off := by omega
      simp only [hcast]
      by_cases hw : bits.getD off 0 = 0
      · rw [if_pos hw]
        have := ih (off + 1) (by omega) (by omega) (fun i hi => by
          by_cases h : i = off
          · rw [h]; exact hw
          · exact hz i (by omega))
        simpa using this
      · rw [if_neg hw]
        exact ⟨off, rfl, h2, hz, fun _ => hw⟩
    · rw [if_neg hlt]
      exact ⟨off, rfl, h2, hz, fun h => by omega⟩

/-- The forward scan of `getTopLeftOnBit` stops, within the bound and without reading outside
the vector, at the first non-zero word or at the end of the vector. -/
theorem scanUp_spec (bits : List Nat) :
    ∃ r : Nat, scanUp bits (bits.length + 1) 0 = .ok (r : Int) ∧ r ≤ bits.length ∧
      (∀ i, i < r → bits.getD i 0 = 0) ∧ (r < bits.length → bits.getD r 0 ≠ 0) := by
  have := scanUp_aux bits (bits.length + 1) 0 rfl (by omega) (fun i hi => by omega)
  simpa using this

theorem scanDown_aux (bits : List Nat) :
    ∀ (n : Nat), n ≤ bits.length → (∀ i, n ≤ i → i < bits.length → bits.getD i 0 = 0) →
      ∃ r : Int, scanDown bits (n + 1) ((n : Int) - 1) = .ok r ∧ -1 ≤ r ∧ r < bits.length ∧
        (∀ i : Nat, r < i → i < bits.length → bits.getD i 0 = 0) ∧
        (0 ≤ r → bits.getD r.toNat 0 ≠ 0) := by
  intro n
  induction n with
  | zero =>
    intro _ hz
    unfold scanDown
    rw [if_neg (by omega)]
    exact ⟨-1, by simp, by omega, by omega, fun i _ hi => hz i (by omega) hi, fun h => by omega⟩
  | succ n ih =>
    intro hn hz
    unfold scanDown
    have hc : (((n + 1 : Nat) : Int) - 1) = (n : Int) := by omega
    rw [hc, if_pos (by omega), rawAt_eq bits _ ⟨by omega, by omega⟩]
    have hcast : (n : Int).toNat = n := by omega
    simp only [hcast]
    by_cases hw : bits.getD n 0 = 0
    · rw [if_pos hw]
      exact ih (by omega) (fun i hi hl => by
        by_cases h : i = n
        · rw [h]; exact hw
        · exact hz i (by omega) hl)
    · rw [if_neg hw]
      refine ⟨n, rfl, by omega, by omega, fun i hi hl => hz i (by omega) hl, fun _ => ?_⟩
      rw [hcast]
      exact hw

/-- The backward scan of `getBottomRightOnBit` stops, within the bound and without reading
outside the vector, at the last non-zero word or at `-1`. -/
theorem scanDown_spec (bits : List Nat) :
    ∃ r : Int, scanDown bits (bits.length + 1) ((bits.length : Int) - 1) = .ok r ∧ -1 ≤ r ∧
      r < bits.length ∧ (∀ i : Nat, r < i → i < bits.length → bits.getD i 0 = 0) ∧
      (0 ≤ r → bits.getD r.toNat 0 ≠ 0) :=
  scanDown_aux bits bits.length (le_refl _) (fun i h1 h2 => by omega)

theorem allZero_iff_getD (m : BitMatrix) :
    m.allZero ↔ ∀ i, i < m.bits.length → m.bits.getD i 0 = 0 := by
  unfold BitMatrix.allZero
  constructor
  · intro h i hi
    rw [List.getD_eq_getElem?_getD, List.getElem?_eq_getElem hi]
    exact h _ (List.getElem_mem hi)
  · intro h w hw
    obtain ⟨i, hi, rfl⟩ := List.getElem_of_mem hw
    have := h i hi
    rw [List.getD_eq_getElem?_getD, List.getElem?_eq_getElem hi] at this
    exact this

theorem rowSize_ne_zero (m : BitMatrix) (hwf : m.WF) (h : 0 < m.bits.length) :
    m.rowSize ≠ 0 := by
  intro h0
  have := hwf.2.2.2.1
  rw [h0, zero_mul] at this
  omega

/-- Outcome of `getTopLeftOnBit` on a raster satisfying the class invariant: not found on an
all-zero raster; otherwise the position derived from the first non-zero word `r` and its
lowest set bit `lo`. Neither a division by zero nor an out-of-range read occurs. -/
theorem getTopLeftOnBit_spec (m : BitMatrix) (hwf : m.WF) :
    (m.allZero ∧ m.getTopLeftOnBit = .ok none) ∨
    ∃ r lo : Nat, r < m.bits.length ∧ (∀ i, i < r → m.bits.getD i 0 = 0) ∧
      lo < 32 ∧ (m.bits.getD r 0).testBit lo = true ∧
      (∀ j, j < lo → (m.bits.getD r 0).testBit j = false) ∧
      m.getTopLeftOnBit =
        .ok (some (((r : Int).tmod m.rowSize) * 32 + lo, (r : Int).tdiv m.rowSize)) := by
  obtain ⟨r, hrun, hr, hz, hnz⟩ := scanUp_spec m.bits
  unfold BitMatrix.getTopLeftOnBit
  rw [hrun]
  by_cases hend : r = m.bits.length
  · left
    refine ⟨(allZero_iff_getD m).mpr (fun i hi => hz i (by omega)), ?_⟩
    simp only []
    rw [if_pos (by rw [hend])]
  · right
    have hlt : r < m.bits.length := by omega
    have hw0 := hnz hlt
    have hwb := getD_bound m.bits r hwf.2.2.2.2
    obtain ⟨lo, hlo, hlo32, hbit, hmin⟩ := lowBitLoop_spec _ hw0 hwb
    refine ⟨r, lo, hlt, hz, hlo32, hbit, hmin, ?_⟩
    simp only []
    have hcast : (r : Int).toNat = r := by omega
    rw [if_neg (by omega), if_neg (rowSize_ne_zero m hwf (by omega)),
      rawAt_eq m.bits _ ⟨by omega, by omega⟩]
    simp only [hcast, hlo]

/-- Outcome of `getBottomRightOnBit` on a raster satisfying the class invariant: not found on
an all-zero raster; otherwise the position derived from the last non-zero word `r` and its
highest set bit `hi`. Neither a division by zero nor an out-of-range read occurs. -/
theorem getBottomRightOnBit_spec (m : BitMatrix) (hwf : m.WF) :
    (m.allZero ∧ m.getBottomRightOnBit = .ok none) ∨
    ∃ r hi : Nat, r < m.bits.length ∧ (∀ i, r < i → i < m.bits.length → m.bits.getD i 0 = 0) ∧
      hi < 32 ∧ (m.bits.getD r 0).testBit hi = true ∧
      (∀ j, hi < j → (m.bits.getD r 0).testBit j = false) ∧
      m.getBottomRightOnBit =
        .ok (some (((r : Int).tmod m.rowSize) * 32 + hi, (r : Int).tdiv m.rowSize)) := by
  obtain ⟨r, hrun, hr0, hr1, hz, hnz⟩ := scanDown_spec m.bits
  unfold BitMatrix.getBottomRightOnBit
  rw [hrun]
  by_cases hend : r < 0
  · left
    refine ⟨(allZero_iff_getD m).mpr (fun i hi => hz i (by omega) hi), ?_⟩
    simp only []
    rw [if_pos hend]
  · right
    have hw0 := hnz (by omega)
    have hwb := getD_bound m.bits r.toNat hwf.2.2.2.2
    obtain ⟨hi, hhi, hhi32, hbit, hmax⟩ := highBitLoop_spec _ hw0 hwb
    refine ⟨r.toNat, hi, by omega, fun i h1 h2 => hz i (by omega) h2, hhi32, hbit, hmax, ?_⟩
    simp only []
    have hcast : ((r.toNat : Nat) : Int) = r := by omega
    rw [if_neg hend, if_neg (rowSize_ne_zero m hwf (by omega)),
      rawAt_eq m.bits _ ⟨by omega, by omega⟩]
    simp only [hcast, hhi]

/-! ## Fresh rasters, all-zero rasters and set bits -/

theorem new_WF (W H : Int) (hW : 0 ≤ W) (hH : 0 ≤ H) : (BitMatrix.new W H).WF := by
  unfold BitMatrix.WF BitMatrix.new
  have h1 : (W + 31).tdiv 32 = (W + 31) / 32 := tdiv32_of_nonneg _ (by omega)
  have h2 : 0 ≤ (W + 31) / 32 * H := mul_nonneg (by omega) hH
  refine ⟨hW, hH, h1, ?_, ?_⟩
  · simp only [List.length_replicate, h1]
    omega
  · intro w hw
    rw [List.eq_of_mem_replicate hw]
    decide

theorem new_allZero (W H : Int) : (BitMatrix.new W H).allZero := by
  intro w hw
  exact List.eq_of_mem_replicate hw

theorem getD_of_allZero (bits : List Nat) (h : ∀ w ∈ bits, w = 0) (i : Nat) :
    bits.getD i 0 = 0 := by
  rw [List.getD_eq_getElem?_getD]
  by_cases hi : i < bits.length
  · rw [List.getElem?_eq_getElem hi]
    exact h _ (List.getElem_mem hi)
  · rw [List.getElem?_eq_none (by omega)]
    rfl

theorem bitAt_of_allZero (bits : List Nat) (h : ∀ w ∈ bits, w = 0) (rs x y : Int) :
    bitAt bits rs x y = false := by
  unfold bitAt
  rw [getD_of_allZero bits h, Nat.zero_testBit]

theorem no_onBit_of_allZero (m : BitMatrix) (h : m.allZero) (x y : Int) : ¬ m.onBit x y := by
  intro hon
  have := hon.2.2.2.2
  rw [bitAt_of_allZero m.bits h] at this
  exact Bool.false_ne_true this

/-- A raster with a non-zero storage word has a set bit at some storage position. -/
theorem exists_onBit_of_not_allZero (m : BitMatrix) (hwf : m.WF) (h : ¬ m.allZero) :
    ∃ x y, m.onBit x y := by
  rw [allZero_iff_getD] at h
  push_neg at h
  obtain ⟨i, hi, hw0⟩ := h
  obtain ⟨j, hj, hbit⟩ := exists_bit_of_ne_zero _ hw0 (getD_bound m.bits i hwf.2.2.2.2)
  have hrs0 : m.rowSize ≠ 0 := rowSize_ne_zero m hwf (by omega)
  have hrs1 : 0 ≤ m.rowSize := by
    have := hwf.2.2.1
    have := hwf.1
    omega
  have hrs : 0 < m.rowSize := by omega
  have hlen := hwf.2.2.2.1
  have h1 : 0 ≤ (i : Int) % m.rowSize := Int.emod_nonneg _ hrs0
  have h2 : (i : Int) % m.rowSize < m.rowSize := Int.emod_lt_of_pos _ hrs
  have h3 : 0 ≤ (i : Int) / m.rowSize := Int.ediv_nonneg (by omega) hrs1
  have h4 : (i : Int) / m.rowSize < m.height :=
    Int.ediv_lt_of_lt_mul hrs (by rw [mul_comm, ← hlen]; omega)
  have h5 : (i : Int) / m.rowSize * m.rowSize + (i : Int) % m.rowSize = i := by
    have := Int.ediv_add_emod (i : Int) m.rowSize
    linarith
  refine ⟨(i : Int) % m.rowSize * 32 + j, (i : Int) / m.rowSize, by omega, by omega, h3, h4, ?_⟩
  rw [bitAt_word m.bits m.rowSize _ _ j hj, h5]
  simpa using hbit

/-- On a raster satisfying the class invariant `getEnclosingRectangle` completes, and it
reports "not found" exactly when every storage word is zero. -/
theorem getEnclosingRectangle_none_iff (m : BitMatrix) (hwf : m.WF) :
    (∃ r, m.getEnclosingRectangle = .ok r) ∧
      (m.getEnclosingRectangle = .ok none ↔ m.allZero) := by
  obtain ⟨s, htight, hcov, hres⟩ := getEnclosingRectangle_spec m hwf
  rw [hres]
  constructor
  · split_ifs
    · exact ⟨_, rfl⟩
    · exact ⟨_, rfl⟩
  · constructor
    · intro hnone
      by_contra hnz
      obtain ⟨x, y, hon⟩ := exists_onBit_of_not_allZero m hwf hnz
      have hc := hcov x y hon
      unfold RectScan.covers at hc
      rw [if_neg (by omega)] at hnone
      simp at hnone
    · intro hz
      have hno := no_onBit_of_allZero m hz
      have hl : s.left = m.width := by
        rcases htight.1 with h | ⟨x, y, hon, _⟩
        · exact h
        · exact absurd hon (hno x y)
      have hr : s.right = -1 := by
        rcases htight.2.2.1 with h | ⟨x, y, hon, _⟩
        · exact h
        · exact absurd hon (hno x y)
      have := hwf.1
      rw [if_pos (by omega)]

theorem getTopLeftOnBit_none_iff (m : BitMatrix) (hwf : m.WF) :
    (∃ r, m.getTopLeftOnBit = .ok r) ∧ (m.getTopLeftOnBit = .ok none ↔ m.allZero) := by
  rcases getTopLeftOnBit_spec m hwf with ⟨hz, hres⟩ | ⟨r, lo, hr, _, _, hbit, _, hres⟩
  · rw [hres]
    exact ⟨⟨_, rfl⟩, fun _ => hz, fun _ => rfl⟩
  · rw [hres]
    refine ⟨⟨_, rfl⟩, fun h => by simp at h, fun hz => ?_⟩
    rw [(allZero_iff_getD m).mp hz r hr, Nat.zero_testBit] at hbit
    exact absurd hbit Bool.false_ne_true

theorem getBottomRightOnBit_none_iff (m : BitMatrix) (hwf : m.WF) :
    (∃ r, m.getBottomRightOnBit = .ok r) ∧ (m.getBottomRightOnBit = .ok none ↔ m.allZero) := by
  rcases getBottomRightOnBit_spec m hwf with ⟨hz, hres⟩ | ⟨r, hi, hr, _, _, hbit, _, hres⟩
  · rw [hres]
    exact ⟨⟨_, rfl⟩, fun _ => hz, fun _ => rfl⟩
  · rw [hres]
    refine ⟨⟨_, rfl⟩, fun h => by simp at h, fun hz => ?_⟩
    rw [(allZero_iff_getD m).mp hz r hr, Nat.zero_testBit] at hbit
    exact absurd hbit Bool.false_ne_true

/-- C5. Enclosing rectangle exactness: on a freshly constructed raster of size `W x H`, after
a single `setRegion(left, top, w, h)` that is accepted, `getEnclosingRectangle` completes and
returns found with exactly `(left, top, w, h)`. -/
theorem C5_enclosing_rectangle_of_region (W H left top w h : Int) (hW : 0 ≤ W) (hH : 0 ≤ H)
    (hacc : ((BitMatrix.new W H).setRegion left top w h).err = none) :
    ((BitMatrix.new W H).setRegion left top w h).state.getEnclosingRectangle =
      .ok (some (left, top, w, h)) := by
  have hwf := new_WF W H hW hH
  obtain ⟨hc, hfit⟩ := setRegion_of_ok _ left top w h hacc
  obtain ⟨bits', hrun, hl, hw, hbit⟩ := setRegion_accepted _ hwf left top w h hc hfit
  rw [hrun]
  have hwf' : BitMatrix.WF { BitMatrix.new W H with bits := bits' } :=
    ⟨hwf.1, hwf.2.1, hwf.2.2.1, by rw [hl]; exact hwf.2.2.2.1, hw⟩
  have hcw : left + w ≤ W ∧ top + h ≤ H := by
    have h1 : (BitMatrix.new W H).width = W := rfl
    have h2 : (BitMatrix.new W H).height = H := rfl
    rw [h1, h2] at hc
    omega
  have hrs : W ≤ (BitMatrix.new W H).rowSize * 32 := by
    have := hwf.2.2.1
    have h1 : (BitMatrix.new W H).width = W := rfl
    rw [h1] at this
    omega
  have hon_iff : ∀ x y, BitMatrix.onBit { BitMatrix.new W H with bits := bits' } x y ↔
      (left ≤ x ∧ x < left + w ∧ top ≤ y ∧ y < top + h) := by
    intro x y
    constructor
    · intro hon
      have hb := hbit x y hon.1 hon.2.1 hon.2.2.1 hon.2.2.2.1
      rw [bitAt_of_allZero _ (new_allZero W H), Bool.false_or] at hb
      have := hon.2.2.2.2
      rw [show bitAt bits' (BitMatrix.new W H).rowSize x y = decide _ from hb] at this
      exact of_decide_eq_true this
    · intro hin
      have hx1 : x < (BitMatrix.new W H).rowSize * 32 := by omega
      have hy1 : y < (BitMatrix.new W H).height := by
        have h2 : (BitMatrix.new W H).height = H := rfl
        rw [h2]; omega
      refine ⟨by omega, hx1, by omega, hy1, ?_⟩
      have hb := hbit x y (by omega) hx1 (by omega) hy1
      rw [bitAt_of_allZero _ (new_allZero W H), Bool.false_or] at hb
      rw [show bitAt bits' (BitMatrix.new W H).rowSize x y = decide _ from hb]
      exact decide_eq_true hin
  obtain ⟨s, htight, hcov, hres⟩ := getEnclosingRectangle_spec _ hwf'
  rw [hres]
  have hA := hcov left top ((hon_iff left top).mpr (by omega))
  have hB := hcov (left + w - 1) (top + h - 1) ((hon_iff _ _).mpr (by omega))
  unfold RectScan.covers at hA hB
  have hl' : s.left = left := by
    rcases htight.1 with h1 | ⟨x, y, hon, h1⟩
    · have h2 : s.left = W := h1
      omega
    · have := (hon_iff x y).mp hon
      omega
  have ht' : s.top = top := by
    rcases htight.2.1 with h1 | ⟨x, y, hon, h1⟩
    · have h2 : s.top = H := h1
      omega
    · have := (hon_iff x y).mp hon
      omega
  have hr' : s.right = left + w - 1 := by
    rcases htight.2.2.1 with h1 | ⟨x, y, hon, h1⟩
    · omega
    · have := (hon_iff x y).mp hon
      omega
  have hb' : s.bottom = top + h - 1 := by
    rcases htight.2.2.2 with h1 | ⟨x, y, hon, h1⟩
    · omega
    · have := (hon_iff x y).mp hon
      omega
  have hcond : ¬ (s.right < s.left ∨ s.bottom < s.top) := by omega
  have e1 : left + w - 1 - left + 1 = w := by omega
  have e2 : top + h - 1 - top + 1 = h := by omega
  rw [if_neg hcond, hl', ht', hr', hb', e1, e2]

/-- Witness for C5: the region `(30, 3, 40, 2)`, which spans three 32-bit words of a row, on
the fresh 100 x 7 raster. -/
theorem C5_enclosing_rectangle_of_region_witness :
    ((BitMatrix.new 100 7).setRegion 30 3 40 2).err = none ∧
    ((BitMatrix.new 100 7).setRegion 30 3 40 2).state.getEnclosingRectangle =
      .ok (some (30, 3, 40, 2)) :=
  ⟨by decide,
    C5_enclosing_rectangle_of_region 100 7 30 3 40 2 (by decide) (by decide) (by decide)⟩

/-- C6. On every raster satisfying the class invariant, each of `getEnclosingRectangle`,
`getTopLeftOnBit` and `getBottomRightOnBit` completes (no division by zero, no read outside
the storage) and returns "not found" if and only if every storage word is zero; in particular
all three return "not found" on the fresh raster of any size `W x H`, zero width or height
included. -/
theorem C6_not_found_iff_all_zero (m : BitMatrix) (hwf : m.WF) (W H : Int) (hW : 0 ≤ W)
    (hH : 0 ≤ H) :
    ((∃ r, m.getEnclosingRectangle = .ok r) ∧
      (m.getEnclosingRectangle = .ok none ↔ m.allZero)) ∧
    ((∃ r, m.getTopLeftOnBit = .ok r) ∧ (m.getTopLeftOnBit = .ok none ↔ m.allZero)) ∧
    ((∃ r, m.getBottomRightOnBit = .ok r) ∧
      (m.getBottomRightOnBit = .ok none ↔ m.allZero)) ∧
    (BitMatrix.new W H).getEnclosingRectangle = .ok none ∧
    (BitMatrix.new W H).getTopLeftOnBit = .ok none ∧
    (BitMatrix.new W H).getBottomRightOnBit = .ok none := by
  have hn := new_WF W H hW hH
  have hz := new_allZero W H
  exact ⟨getEnclosingRectangle_none_iff m hwf, getTopLeftOnBit_none_iff m hwf,
    getBottomRightOnBit_none_iff m hwf,
    (getEnclosingRectangle_none_iff _ hn).2.mpr hz,
    (getTopLeftOnBit_none_iff _ hn).2.mpr hz,
    (getBottomRightOnBit_none_iff _ hn).2.mpr hz⟩

/-- Witness for C6: a 40 x 2 raster whose only set bit lies in the row padding (column 40),
and the fresh 0 x 5 raster. -/
theorem C6_not_found_iff_all_zero_witness :
    (BitMatrix.mk 40 2 2 [0, 256, 0, 0]).WF ∧
    (((∃ r, (BitMatrix.mk 40 2 2 [0, 256, 0, 0]).getEnclosingRectangle = .ok r) ∧
      ((BitMatrix.mk 40 2 2 [0, 256, 0, 0]).getEnclosingRectangle = .ok none ↔
        (BitMatrix.mk 40 2 2 [0, 256, 0, 0]).allZero)) ∧
    ((∃ r, (BitMatrix.mk 40 2 2 [0, 256, 0, 0]).getTopLeftOnBit = .ok r) ∧
      ((BitMatrix.mk 40 2 2 [0, 256, 0, 0]).getTopLeftOnBit = .ok none ↔
        (BitMatrix.mk 40 2 2 [0, 256, 0, 0]).allZero)) ∧
    ((∃ r, (BitMatrix.mk 40 2 2 [0, 256, 0, 0]).getBottomRightOnBit = .ok r) ∧
      ((BitMatrix.mk 40 2 2 [0, 256, 0, 0]).getBottomRightOnBit = .ok none ↔
        (BitMatrix.mk 40 2 2 [0, 256, 0, 0]).allZero)) ∧
    (BitMatrix.new 0 5).getEnclosingRectangle = .ok none ∧
    (BitMatrix.new 0 5).getTopLeftOnBit = .ok none ∧
    (BitMatrix.new 0 5).getBottomRightOnBit = .ok none) :=
  ⟨by decide,
    C6_not_found_iff_all_zero (BitMatrix.mk 40 2 2 [0, 256, 0, 0]) (by decide) 0 5 (by decide)
      (by decide)⟩

/-! ## Rows: `getRow` and `setRow` -/

theorem getD_slice (l : List Nat) (k n i : Nat) (hi : i < n) :
    ((l.drop k).take n).getD i 0 = l.getD (k + i) 0 := by
  simp [List.getD_eq_getElem?_getD, List.getElem?_take, hi, List.getElem?_drop]

theorem slice_restore (l : List Nat) (k n : Nat) :
    l.take k ++ (l.drop k).take n ++ l.drop (k + n) = l := by
  have h1 : l.drop (k + n) = (l.drop k).drop n := by
    rw [List.drop_drop, Nat.add_comm]
  rw [h1, List.append_assoc, List.take_append_drop, List.take_append_drop]

theorem rowSize_nonneg (m : BitMatrix) (hwf : m.WF) : 0 ≤ m.rowSize := by
  have := hwf.2.2.1
  have := hwf.1
  omega

theorem row_bounds (m : BitMatrix) (hwf : m.WF) (y : Int) (hy0 : 0 ≤ y) (hy1 : y < m.height) :
    0 ≤ y * m.rowSize ∧ y * m.rowSize + m.rowSize ≤ m.bits.length := by
  have hrs := rowSize_nonneg m hwf
  have h1 : 0 ≤ y * m.rowSize := mul_nonneg hy0 hrs
  have h2 : (y + 1) * m.rowSize ≤ m.height * m.rowSize :=
    mul_le_mul_of_nonneg_right (by omega) hrs
  rw [hwf.2.2.2.1]
  constructor
  · exact h1
  · nlinarith

/-- The line that `getRow` works on after its resize step holds `rowSize` words. -/
theorem scratch_length (m : BitMatrix) (hwf : m.WF) (row : BitArray) (hrow : row.WF) :
    (((if row.size ≠ m.width then BitArray.new m.width else row).bits.length : Nat) : Int) =
      m.rowSize ∧
    (if row.size ≠ m.width then BitArray.new m.width else row).size = m.width := by
  by_cases h : row.size ≠ m.width
  · rw [if_pos h]
    refine ⟨?_, rfl⟩
    unfold BitArray.new
    have h1 : (m.width + 31).tdiv 32 = (m.width + 31) / 32 :=
      tdiv32_of_nonneg _ (by have := hwf.1; omega)
    simp only [List.length_replicate, h1]
    have := hwf.2.2.1
    have := hwf.1
    omega
  · rw [if_neg h]
    have h' : row.size = m.width := by
      by_contra hc
      exact h hc
    refine ⟨?_, h'⟩
    rw [hrow.2, h', hwf.2.2.1]

/-- `getRow` on a valid row: it completes and the line becomes the `rowSize` words of the
row, with length `width`. -/
theorem getRow_eq (m : BitMatrix) (hwf : m.WF) (y : Int) (hy0 : 0 ≤ y) (hy1 : y < m.height)
    (row : BitArray) (hrow : row.WF) :
    m.getRow y row =
      ⟨none, ⟨m.width, (m.bits.drop (y * m.rowSize).toNat).take m.rowSize.toNat⟩⟩ := by
  obtain ⟨hlen, hsize⟩ := scratch_length m hwf row hrow
  have hrs := rowSize_nonneg m hwf
  have hb := row_bounds m hwf y hy0 hy1
  unfold BitMatrix.getRow
  rw [if_neg (by omega)]
  simp only []
  generalize (if row.size ≠ m.width then BitArray.new m.width else row) = r at hlen hsize
  unfold copyWords
  by_cases h0 : m.rowSize ≤ 0
  · have hz : m.rowSize = 0 := by omega
    have hnil : r.bits = [] := List.length_eq_zero.mp (by omega)
    rw [if_pos h0]
    simp only [hz, hsize, hnil]
    simp
  · rw [if_neg h0, if_pos ⟨hb.1, hb.2, le_refl _, by omega⟩]
    have hd : r.bits.drop (0 + m.rowSize).toNat = [] := by
      apply List.drop_eq_nil_of_le
      omega
    simp only [hd, hsize]
    simp

/-- Reading bit `x` of the line produced by `getRow`. -/
theorem get_of_slice (m : BitMatrix) (hwf : m.WF) (x y : Int) (hx0 : 0 ≤ x) (hx1 : x < m.width)
    (hy0 : 0 ≤ y) (hy1 : y < m.height) :
    BitArray.get ⟨m.width, (m.bits.drop (y * m.rowSize).toNat).take m.rowSize.toNat⟩ x =
      m.get x y := by
  have hxr := rowSize_covers m hwf x hx1
  have hb := row_bounds m hwf y hy0 hy1
  have hi := wordIndex_bounds m hwf x y hx0 hxr hy0 hy1
  rw [get_eq_bitAt m x y hx0 hi]
  unfold BitArray.get vecAt bitAt
  rw [tdiv32_of_nonneg x hx0, bitIndex_of_nonneg x hx0]
  have hlen : ((m.bits.drop (y * m.rowSize).toNat).take m.rowSize.toNat).length =
      m.rowSize.toNat := by
    rw [List.length_take, List.length_drop]
    omega
  simp only [hlen]
  rw [if_pos (by omega)]
  simp only [shift_and_one]
  rw [getD_slice _ _ _ _ (by omega)]
  have hidx : (y * m.rowSize).toNat + (x / 32).toNat = (y * m.rowSize + x / 32).toNat := by
    omega
  rw [hidx]

/-- C7. On a raster satisfying the class invariant and for any scratch line satisfying its
class invariant, `getRow(y, line)` fails with a range error if and only if `y < 0` or
`y >= height`, and then leaves the line as it was; otherwise it completes, the length of the
line is the raster width and bit `x` of the line equals `get(x, y)` for every
`0 <= x < width`. The raster is a `const` argument and is not changed. -/
theorem C7_getRow_extracts_row (m : BitMatrix) (hwf : m.WF) (y : Int) (row : BitArray)
    (hrow : row.WF) :
    ((m.getRow y row).err = some .outOfRange ↔ (y < 0 ∨ y ≥ m.height)) ∧
    ((m.getRow y row).err = none ∨ (m.getRow y row).state = row) ∧
    (¬ (y < 0 ∨ y ≥ m.height) →
      (m.getRow y row).err = none ∧ (m.getRow y row).state.size = m.width ∧
      ∀ x : Int, 0 ≤ x → x < m.width → (m.getRow y row).state.get x = m.get x y) := by
  by_cases hy : y < 0 ∨ y ≥ m.height
  · have hrun : m.getRow y row = ⟨some .outOfRange, row⟩ := by
      unfold BitMatrix.getRow
      rw [if_pos hy]
    rw [hrun]
    exact ⟨⟨fun _ => hy, fun _ => rfl⟩, Or.inr rfl, fun h => absurd hy h⟩
  · rw [getRow_eq m hwf y (by omega) (by omega) row hrow]
    refine ⟨⟨fun h => by simp at h, fun h => absurd h hy⟩, Or.inl rfl, fun _ => ⟨rfl, rfl, ?_⟩⟩
    intro x hx0 hx1
    exact get_of_slice m hwf x y hx0 hx1 (by omega) (by omega)

/-- Witness for C7: row 1 of a 40 x 2 raster read into a line of 3 bits. -/
theorem C7_getRow_extracts_row_witness :
    (BitMatrix.mk 40 2 2 [0, 0, 3221225472, 7]).WF ∧ (BitArray.mk 3 [5]).WF ∧
    ¬ ((1 : Int) < 0 ∨ (1 : Int) ≥ (BitMatrix.mk 40 2 2 [0, 0, 3221225472, 7]).height) ∧
    ((BitMatrix.mk 40 2 2 [0, 0, 3221225472, 7]).getRow 1 (BitArray.mk 3 [5])).state =
      BitArray.mk 40 [3221225472, 7] ∧
    ∀ x : Int, 0 ≤ x → x < (BitMatrix.mk 40 2 2 [0, 0, 3221225472, 7]).width →
      ((BitMatrix.mk 40 2 2 [0, 0, 3221225472, 7]).getRow 1 (BitArray.mk 3 [5])).state.get x =
        (BitMatrix.mk 40 2 2 [0, 0, 3221225472, 7]).get x 1 :=
  ⟨by decide, by decide, by decide, by decide,
    ((C7_getRow_extracts_row (BitMatrix.mk 40 2 2 [0, 0, 3221225472, 7]) (by decide) 1
      (BitArray.mk 3 [5]) (by decide)).2.2 (by decide)).2.2⟩

/-- C8 (as stated) fails: a line of 5 bits is written into row 0 of a raster of width 7
without any error, since both pack into one storage word. -/
theorem C8_counterexample :
    (BitArray.mk 5 [31]).WF ∧ (BitArray.mk 5 [31]).size ≠ (BitMatrix.new 7 1).width ∧
    (BitMatrix.new 7 1).setRow 0 (BitArray.mk 5 [31]) = ⟨none, BitMatrix.mk 7 1 1 [31]⟩ := by
  decide

/-- C9. Row round-trip: on a raster satisfying the class invariant, for a valid row `y` and
any scratch line satisfying its class invariant, `getRow(y, line)` completes, and writing the
line back with `setRow(y, line)` completes and leaves the raster equal to what it was, all
storage words included. -/
theorem C9_row_round_trip (m : BitMatrix) (hwf : m.WF) (y : Int) (hy0 : 0 ≤ y)
    (hy1 : y < m.height) (row : BitArray) (hrow : row.WF) :
    (m.getRow y row).err = none ∧ m.setRow y (m.getRow y row).state = ⟨none, m⟩ := by
  have hrs := rowSize_nonneg m hwf
  have hb := row_bounds m hwf y hy0 hy1
  rw [getRow_eq m hwf y hy0 hy1 row hrow]
  refine ⟨rfl, ?_⟩
  have hlen : ((m.bits.drop (y * m.rowSize).toNat).take m.rowSize.toNat).length =
      m.rowSize.toNat := by
    rw [List.length_take, List.length_drop]
    omega
  unfold BitMatrix.setRow copyWords
  simp only [hlen]
  rw [if_neg (by omega)]
  by_cases h0 : ((m.rowSize.toNat : Nat) : Int) ≤ 0
  · rw [if_pos h0]
  · rw [if_neg h0, if_pos ⟨le_refl _, by omega, hb.1, by omega⟩]
    have h1 : (y * m.rowSize + ((m.rowSize.toNat : Nat) : Int)).toNat =
        (y * m.rowSize).toNat + m.rowSize.toNat := by omega
    have h2 : ((m.rowSize.toNat : Nat) : Int).toNat = m.rowSize.toNat := by omega
    have h3 : List.take m.rowSize.toNat
        (List.drop (0 : Int).toNat
          (List.take m.rowSize.toNat (List.drop (y * m.rowSize).toNat m.bits))) =
        List.take m.rowSize.toNat (List.drop (y * m.rowSize).toNat m.bits) := by
      simp
    rw [h1, h2, h3, slice_restore]

/-- Witness for C9: row 1 of a 40 x 2 raster with set padding bits, through a line of 3
bits. -/
theorem C9_row_round_trip_witness :
    (BitMatrix.mk 40 2 2 [1, 4294967295, 3221225472, 4294967047]).WF ∧ (BitArray.mk 3 [5]).WF ∧
    ((BitMatrix.mk 40 2 2 [1, 4294967295, 3221225472, 4294967047]).getRow 1
      (BitArray.mk 3 [5])).err = none ∧
    (BitMatrix.mk 40 2 2 [1, 4294967295, 3221225472, 4294967047]).setRow 1
      ((BitMatrix.mk 40 2 2 [1, 4294967295, 3221225472, 4294967047]).getRow 1
        (BitArray.mk 3 [5])).state =
      ⟨none, BitMatrix.mk 40 2 2 [1, 4294967295, 3221225472, 4294967047]⟩ :=
  ⟨by decide, by decide,
    C9_row_round_trip (BitMatrix.mk 40 2 2 [1, 4294967295, 3221225472, 4294967047]) (by decide) 1
      (by decide) (by decide) (BitArray.mk 3 [5]) (by decide)⟩

/-! ## `rotate180` -/

theorem testBit_packBits (f : Nat → Bool) (n j : Nat) :
    (packBits f n).testBit j = (decide (j < n) && f j) := by
  induction n with
  | zero => simp [packBits]
  | succ n ih =>
    unfold packBits
    rw [Nat.testBit_or, ih]
    by_cases hf : f n = true
    · rw [if_pos hf, Nat.testBit_two_pow]
      by_cases hj : n = j
      · subst hj
        simp [hf]
      · have h1 : decide (n = j) = false := decide_eq_false hj
        rw [h1, Bool.or_false]
        congr 1
        apply decide_eq_decide.mpr
        omega
    · rw [if_neg hf, Nat.zero_testBit, Bool.or_false]
      by_cases hj : n = j
      · subst hj
        simp [hf]
      · congr 1
        apply decide_eq_decide.mpr
        omega

theorem packBits_lt (f : Nat → Bool) (n : Nat) : packBits f n < 2 ^ n := by
  apply Nat.lt_pow_two_of_testBit
  intro i hi
  rw [testBit_packBits]
  have : decide (i < n) = false := decide_eq_false (by omega)
  rw [this, Bool.false_and]

theorem packBits_congr (f g : Nat → Bool) (n : Nat) (h : ∀ j, j < n → f j = g j) :
    packBits f n = packBits g n := by
  apply Nat.eq_of_testBit_eq
  intro i
  rw [testBit_packBits, testBit_packBits]
  by_cases hi : i < n
  · rw [h i hi]
  · have : decide (i < n) = false := decide_eq_false hi
    rw [this, Bool.false_and, Bool.false_and]

theorem length_ofStream (n : Nat) (f : Nat → Bool) : (ofStream n f).length = n := by
  unfold ofStream
  simp

theorem ofStream_bound (n : Nat) (f : Nat → Bool) : ∀ w ∈ ofStream n f, w < 4294967296 := by
  intro w hw
  unfold ofStream at hw
  obtain ⟨i, _, rfl⟩ := List.mem_map.mp hw
  exact packBits_lt _ 32

/-- Bit `k` of the stream of `ofStream n f` is `f k` inside the `32 * n` bits, and clear
beyond. -/
theorem streamBit_ofStream (n : Nat) (f : Nat → Bool) (k : Nat) :
    streamBit (ofStream n f) k = (decide (k < 32 * n) && f k) := by
  unfold streamBit ofStream
  rw [List.getD_eq_getElem?_getD, List.getElem?_map]
  by_cases hk : k / 32 < n
  · rw [List.getElem?_range hk]
    simp only [Option.map_some', Option.getD_some]
    rw [testBit_packBits]
    have h1 : decide (k % 32 < 32) = true := decide_eq_true (by omega)
    have h2 : decide (k < 32 * n) = true := decide_eq_true (by omega)
    have h3 : 32 * (k / 32) + k % 32 = k := by omega
    rw [h1, h2, h3]
  · have h1 : (List.range n)[k / 32]? = none := by
      apply List.getElem?_eq_none
      rw [List.length_range]
      omega
    have h2 : decide (k < 32 * n) = false := decide_eq_false (by omega)
    rw [h1, h2]
    simp

theorem ofStream_congr (n : Nat) (f g : Nat → Bool) (h : ∀ k, k < 32 * n → f k = g k) :
    ofStream n f = ofStream n g := by
  unfold ofStream
  apply List.map_congr_left
  intro i hi
  have hi' : i < n := List.mem_range.mp hi
  apply packBits_congr
  intro j hj
  exact h _ (by omega)

/-- A vector of 32-bit words is rebuilt from its own bit stream. -/
theorem ofStream_streamBit (bits : List Nat) (hw : ∀ w ∈ bits, w < 4294967296) :
    ofStream bits.length (streamBit bits) = bits := by
  apply List.ext_getElem
  · exact length_ofStream _ _
  · intro i h1 h2
    unfold ofStream
    rw [List.getElem_map, List.getElem_range]
    apply Nat.eq_of_testBit_eq
    intro j
    rw [testBit_packBits]
    by_cases hj : j < 32
    · have h3 : decide (j < 32) = true := decide_eq_true hj
      rw [h3, Bool.true_and]
      unfold streamBit
      have h4 : (32 * i + j) / 32 = i := by omega
      have h5 : (32 * i + j) % 32 = j := by omega
      rw [h4, h5, List.getD_eq_getElem?_getD, List.getElem?_eq_getElem h2]
      rfl
    · have h3 : decide (j < 32) = false := decide_eq_false hj
      rw [h3, Bool.false_and]
      exact (testBit_high_clear _ j (hw _ (List.getElem_mem h2)) (by omega)).symm

theorem length_Reverse (bits : List Nat) (p : Nat) : (Reverse bits p).length = bits.length := by
  unfold Reverse
  exact length_ofStream _ _

theorem Reverse_bound (bits : List Nat) (p : Nat) : ∀ w ∈ Reverse bits p, w < 4294967296 := by
  unfold Reverse
  exact ofStream_bound _ _

/-- Bit `k` of the stream after `Reverse`: bit `n - 1 - (k + padding)` of the stream before,
and zero in the last `padding` positions. -/
theorem streamBit_Reverse (bits : List Nat) (p k : Nat) :
    streamBit (Reverse bits p) k =
      (decide (k + p < 32 * bits.length) &&
        streamBit bits (32 * bits.length - 1 - (k + p))) := by
  unfold Reverse
  simp only []
  rw [streamBit_ofStream, streamBit_ofStream]
  by_cases h : k + p < 32 * bits.length
  · have h1 : decide (k + p < 32 * bits.length) = true := decide_eq_true h
    have h2 : decide (k < 32 * bits.length) = true := decide_eq_true (by omega)
    rw [h1, h2]
    simp
  · have h1 : decide (k + p < 32 * bits.length) = false := decide_eq_false h
    rw [h1]
    simp

/-- Applying `Reverse` twice clears the last `padding` bits of the stream and keeps every
other bit. -/
theorem streamBit_Reverse_twice (bits : List Nat) (p k : Nat) :
    streamBit (Reverse (Reverse bits p) p) k =
      (decide (k + p < 32 * bits.length) && streamBit bits k) := by
  rw [streamBit_Reverse, streamBit_Reverse, length_Reverse]
  by_cases h : k + p < 32 * bits.length
  · have h1 : decide (k + p < 32 * bits.length) = true := decide_eq_true h
    have h2 : decide (32 * bits.length - 1 - (k + p) + p < 32 * bits.length) = true :=
      decide_eq_true (by omega)
    have h3 : 32 * bits.length - 1 - (32 * bits.length - 1 - (k + p) + p) = k := by omega
    rw [h1, h2, h3]
    simp
  · have h1 : decide (k + p < 32 * bits.length) = false := decide_eq_false h
    rw [h1]
    simp

theorem eq_of_streamBit_eq (a b : List Nat) (hlen : a.length = b.length)
    (ha : ∀ w ∈ a, w < 4294967296) (hb : ∀ w ∈ b, w < 4294967296)
    (h : ∀ k, k < 32 * b.length → streamBit a k = streamBit b k) : a = b := by
  rw [← ofStream_streamBit a ha, ← ofStream_streamBit b hb, hlen]
  exact ofStream_congr _ _ _ h

/-- With the shift of `Reverse` letting zeros in at the far end, two applications of
`rotate180` restore a raster exactly when the unused bits of its last row are zero. -/
theorem rotate180_twice_iff (m : BitMatrix) (hwf : m.WF) :
    m.rotate180.rotate180 = m ↔ m.lastPaddingZero := by
  have hshape : m.rotate180.rotate180 =
      { m with bits := (Reverse (Reverse m.bits (m.rowSize * 32 - m.width).toNat)
        (m.rowSize * 32 - m.width).toNat) } := rfl
  rw [hshape]
  unfold BitMatrix.lastPaddingZero
  constructor
  · intro heq k hk1 hk2
    have hb : Reverse (Reverse m.bits (m.rowSize * 32 - m.width).toNat)
        (m.rowSize * 32 - m.width).toNat = m.bits := congrArg BitMatrix.bits heq
    have := streamBit_Reverse_twice m.bits (m.rowSize * 32 - m.width).toNat k
    rw [hb] at this
    rw [this]
    have h1 : decide (k + (m.rowSize * 32 - m.width).toNat < 32 * m.bits.length) = false :=
      decide_eq_false (by omega)
    rw [h1, Bool.false_and]
  · intro hz
    have hb : Reverse (Reverse m.bits (m.rowSize * 32 - m.width).toNat)
        (m.rowSize * 32 - m.width).toNat = m.bits := by
      apply eq_of_streamBit_eq _ _ (by rw [length_Reverse, length_Reverse])
        (Reverse_bound _ _) hwf.2.2.2.2
      intro k hk
      rw [streamBit_Reverse_twice]
      by_cases h : k + (m.rowSize * 32 - m.width).toNat < 32 * m.bits.length
      · rw [decide_eq_true h, Bool.true_and]
      · rw [decide_eq_false h, Bool.false_and]
        exact (hz k (by omega) hk).symm
    rw [hb]

/-! ## `DecodeStatus` -/

/-- C17. For every `DecodeStatus` value `s`, `StatusIsOK(s)` holds if and only if `s` is
`NoError`, and `StatusIsError(s)` is the negation of `StatusIsOK(s)`; each of the four
reader-level codes and the five error-correction codes is an error, and `NoError` is the only
value that is not. -/
theorem C17_status_classification (s : DecodeStatus) :
    (StatusIsOK s = true ↔ s = .NoError) ∧
    StatusIsError s = !StatusIsOK s ∧
    (StatusIsError s = false ↔ s = .NoError) ∧
    StatusIsError .ReaderError = true ∧ StatusIsError .NotFound = true ∧
    StatusIsError .FormatError = true ∧ StatusIsError .ChecksumError = true ∧
    StatusIsError .ReedSolomonError = true ∧ StatusIsError .ReedSolomonAlgoFailed = true ∧
    StatusIsError .ReedSolomonBadLocation = true ∧
    StatusIsError .ReedSolomonDegreeMismatch = true ∧
    StatusIsError .ReedSolomonSigmaTildeZero = true ∧
    StatusIsOK .NoError = true ∧ StatusIsError .NoError = false := by
  cases s <;> decide

/-! ## First and last set bit in row-major order -/

/-- Row and word column of the storage word with index `r`. -/
theorem word_coords (m : BitMatrix) (hwf : m.WF) (r : Nat) (hr : r < m.bits.length) :
    0 < m.rowSize ∧ 0 ≤ (r : Int) % m.rowSize ∧ (r : Int) % m.rowSize < m.rowSize ∧
    0 ≤ (r : Int) / m.rowSize ∧ (r : Int) / m.rowSize < m.height ∧
    (r : Int) / m.rowSize * m.rowSize + (r : Int) % m.rowSize = r ∧
    (r : Int).tdiv m.rowSize = (r : Int) / m.rowSize ∧
    (r : Int).tmod m.rowSize = (r : Int) % m.rowSize := by
  have hrs0 : m.rowSize ≠ 0 := rowSize_ne_zero m hwf (by omega)
  have hrs1 := rowSize_nonneg m hwf
  have hrs : 0 < m.rowSize := by omega
  have hlen := hwf.2.2.2.1
  refine ⟨hrs, Int.emod_nonneg _ hrs0, Int.emod_lt_of_pos _ hrs,
    Int.ediv_nonneg (by omega) hrs1,
    Int.ediv_lt_of_lt_mul hrs (by rw [mul_comm, ← hlen]; omega), ?_,
    Int.tdiv_eq_ediv (by omega) hrs1, Int.tmod_eq_emod (by omega) hrs1⟩
  have := Int.ediv_add_emod (r : Int) m.rowSize
  linarith

/-- A set storage bit lies in a non-zero word. -/
theorem word_ne_zero_of_onBit (m : BitMatrix) (x y : Int) (hon : m.onBit x y) :
    m.bits.getD (y * m.rowSize + x / 32).toNat 0 ≠ 0 := by
  intro h0
  have := hon.2.2.2.2
  unfold bitAt at this
  rw [h0, Nat.zero_testBit] at this
  exact Bool.false_ne_true this

theorem onBit_of_get (m : BitMatrix) (hwf : m.WF) (x y : Int) (hx0 : 0 ≤ x) (hx1 : x < m.width)
    (hy0 : 0 ≤ y) (hy1 : y < m.height) (hg : m.get x y = .ok true) : m.onBit x y := by
  have hxr := rowSize_covers m hwf x hx1
  rw [get_eq_bitAt m x y hx0 (wordIndex_bounds m hwf x y hx0 hxr hy0 hy1)] at hg
  exact ⟨hx0, hxr, hy0, hy1, by simpa using hg⟩

theorem get_of_onBit (m : BitMatrix) (hwf : m.WF) (x y : Int) (hon : m.onBit x y) :
    m.get x y = .ok true := by
  rw [get_eq_bitAt m x y hon.1 (wordIndex_bounds m hwf x y hon.1 hon.2.1 hon.2.2.1 hon.2.2.2.1),
    hon.2.2.2.2]

/-- On a raster with a set bit, `getTopLeftOnBit` returns a set storage bit that precedes or
equals every set storage bit in row-major order. -/
theorem getTopLeftOnBit_first (m : BitMatrix) (hwf : m.WF) (hex : ∃ x y, m.onBit x y) :
    ∃ left top, m.getTopLeftOnBit = .ok (some (left, top)) ∧ m.onBit left top ∧
      ∀ x y, m.onBit x y → top < y ∨ (y = top ∧ left ≤ x) := by
  rcases getTopLeftOnBit_spec m hwf with ⟨hz, _⟩ | ⟨r, lo, hr, hzero, hlo, hbit, hmin, hres⟩
  · obtain ⟨x, y, hon⟩ := hex
    exact absurd hon (no_onBit_of_allZero m hz x y)
  · obtain ⟨hrs, hc0, hc1, hr0, hr1, hsum, htd, htm⟩ := word_coords m hwf r hr
    rw [htd, htm] at hres
    have hidx : ((r : Int) / m.rowSize * m.rowSize + (r : Int) % m.rowSize).toNat = r := by
      omega
    refine ⟨_, _, hres, ⟨by omega, by omega, hr0, hr1, ?_⟩, ?_⟩
    · rw [bitAt_word m.bits m.rowSize _ _ lo hlo, hidx]
      exact hbit
    · intro x y hon
      have hw := word_ne_zero_of_onBit m x y hon
      have hx0 := hon.1
      have hx1 := hon.2.1
      have hy0 := hon.2.2.1
      have hge : (r : Int) ≤ y * m.rowSize + x / 32 := by
        by_contra hlt
        have h1 : 0 ≤ y * m.rowSize := mul_nonneg hy0 (by omega)
        apply hw
        have := hzero (y * m.rowSize + x / 32).toNat (by omega)
        exact this
      by_cases hy : (r : Int) / m.rowSize < y
      · left; exact hy
      · right
        have hyle : y ≤ (r : Int) / m.rowSize := by omega
        have hyeq : y = (r : Int) / m.rowSize := by
          by_contra hne
          have h2 : (y + 1) * m.rowSize ≤ (r : Int) / m.rowSize * m.rowSize :=
            mul_le_mul_of_nonneg_right (by omega) (by omega)
          have hq1 : x / 32 < m.rowSize := by omega
          nlinarith
        refine ⟨hyeq, ?_⟩
        rw [hyeq] at hge
        have hcol : (r : Int) % m.rowSize ≤ x / 32 := by omega
        by_cases hsame : x / 32 = (r : Int) % m.rowSize
        · have hb := hon.2.2.2.2
          unfold bitAt at hb
          rw [hyeq, hsame, hidx] at hb
          have hlox : lo ≤ (x % 32).toNat := by
            by_contra hc
            rw [hmin _ (by omega)] at hb
            exact Bool.false_ne_true hb
          omega
        · omega

/-- On a raster with a set bit, `getBottomRightOnBit` returns a set storage bit that follows
or equals every set storage bit in row-major order. -/
theorem getBottomRightOnBit_last (m : BitMatrix) (hwf : m.WF) (hex : ∃ x y, m.onBit x y) :
    ∃ right bottom, m.getBottomRightOnBit = .ok (some (right, bottom)) ∧
      m.onBit right bottom ∧ ∀ x y, m.onBit x y → y < bottom ∨ (y = bottom ∧ x ≤ right) := by
  rcases getBottomRightOnBit_spec m hwf with
    ⟨hz, _⟩ | ⟨r, hi, hr, hzero, hhi, hbit, hmax, hres⟩
  · obtain ⟨x, y, hon⟩ := hex
    exact absurd hon (no_onBit_of_allZero m hz x y)
  · obtain ⟨hrs, hc0, hc1, hr0, hr1, hsum, htd, htm⟩ := word_coords m hwf r hr
    rw [htd, htm] at hres
    have hidx : ((r : Int) / m.rowSize * m.rowSize + (r : Int) % m.rowSize).toNat = r := by
      omega
    refine ⟨_, _, hres, ⟨by omega, by omega, hr0, hr1, ?_⟩, ?_⟩
    · rw [bitAt_word m.bits m.rowSize _ _ hi hhi, hidx]
      exact hbit
    · intro x y hon
      have hw := word_ne_zero_of_onBit m x y hon
      have hx0 := hon.1
      have hx1 := hon.2.1
      have hy0 := hon.2.2.1
      have hy1 := hon.2.2.2.1
      have hb := index_bounds m.rowSize m.height x y hx0 hx1 hy0 hy1
      have hlen := hwf.2.2.2.1
      have hle : y * m.rowSize + x / 32 ≤ (r : Int) := by
        by_contra hlt
        apply hw
        exact hzero (y * m.rowSize + x / 32).toNat (by omega) (by omega)
      by_cases hy : y < (r : Int) / m.rowSize
      · left; exact hy
      · right
        have hyeq : y = (r : Int) / m.rowSize := by
          by_contra hne
          have h2 : ((r : Int) / m.rowSize + 1) * m.rowSize ≤ y * m.rowSize :=
            mul_le_mul_of_nonneg_right (by omega) (by omega)
          have hq0 : 0 ≤ x / 32 := by omega
          nlinarith
        refine ⟨hyeq, ?_⟩
        rw [hyeq] at hle
        have hcol : x / 32 ≤ (r : Int) % m.rowSize := by omega
        by_cases hsame : x / 32 = (r : Int) % m.rowSize
        · have hb := hon.2.2.2.2
          unfold bitAt at hb
          rw [hyeq, hsame, hidx] at hb
          have hlox : (x % 32).toNat ≤ hi := by
            by_contra hc
            rw [hmax _ (by omega)] at hb
            exact Bool.false_ne_true hb
          omega
        · omega

theorem lt_width_of_paddingClear (m : BitMatrix) (hpad : m.paddingClear) (x y : Int)
    (hon : m.onBit x y) : x < m.width := by
  by_contra hge
  obtain ⟨hx0, hx1, hy0, hy1, hb⟩ := hon
  have h := hpad y.toNat (by omega) x.toNat (by omega) (by omega)
  rw [Int.toNat_of_nonneg hx0, Int.toNat_of_nonneg hy0, hb] at h
  exact Bool.noConfusion h

/-- C20. On a raster satisfying the class invariant that has a set bit at a valid coordinate
and no set bit in its row padding, `getTopLeftOnBit` completes and returns the first set bit
in row-major order, `getBottomRightOnBit` completes and returns the last one, and the two
returned coordinates are valid and their bits are set. -/
theorem C20_first_and_last_on_bit (m : BitMatrix) (hwf : m.WF)
    (hex : ∃ x y : Int, 0 ≤ x ∧ x < m.width ∧ 0 ≤ y ∧ y < m.height ∧ m.get x y = .ok true)
    (hpad : m.paddingClear) :
    ∃ left top right bottom : Int,
      m.getTopLeftOnBit = .ok (some (left, top)) ∧
      m.getBottomRightOnBit = .ok (some (right, bottom)) ∧
      (0 ≤ left ∧ left < m.width ∧ 0 ≤ top ∧ top < m.height ∧ m.get left top = .ok true) ∧
      (0 ≤ right ∧ right < m.width ∧ 0 ≤ bottom ∧ bottom < m.height ∧
        m.get right bottom = .ok true) ∧
      ∀ x y : Int, 0 ≤ x → x < m.width → 0 ≤ y → y < m.height → m.get x y = .ok true →
        (top < y ∨ (y = top ∧ left ≤ x)) ∧ (y < bottom ∨ (y = bottom ∧ x ≤ right)) := by
  obtain ⟨x0, y0, h1, h2, h3, h4, h5⟩ := hex
  have hon0 := onBit_of_get m hwf x0 y0 h1 h2 h3 h4 h5
  obtain ⟨left, top, hres1, hon1, hfirst⟩ := getTopLeftOnBit_first m hwf ⟨x0, y0, hon0⟩
  obtain ⟨right, bottom, hres2, hon2, hlast⟩ := getBottomRightOnBit_last m hwf ⟨x0, y0, hon0⟩
  refine ⟨left, top, right, bottom, hres1, hres2,
    ⟨hon1.1, lt_width_of_paddingClear m hpad _ _ hon1, hon1.2.2.1, hon1.2.2.2.1,
      get_of_onBit m hwf _ _ hon1⟩,
    ⟨hon2.1, lt_width_of_paddingClear m hpad _ _ hon2, hon2.2.2.1, hon2.2.2.2.1,
      get_of_onBit m hwf _ _ hon2⟩, ?_⟩
  intro x y hx0 hx1 hy0 hy1 hg
  have hon := onBit_of_get m hwf x y hx0 hx1 hy0 hy1 hg
  exact ⟨hfirst x y hon, hlast x y hon⟩

/-- Witness for C20: a 40 x 3 raster with bits `(33, 0)`, `(2, 1)`, `(35, 1)` and `(1, 2)`
set. -/
theorem C20_first_and_last_on_bit_witness :
    (BitMatrix.mk 40 3 2 [0, 2, 4, 8, 2, 0]).WF ∧
    (BitMatrix.mk 40 3 2 [0, 2, 4, 8, 2, 0]).paddingClear ∧
    (BitMatrix.mk 40 3 2 [0, 2, 4, 8, 2, 0]).get 2 1 = .ok true ∧
    ∃ left top right bottom : Int,
      (BitMatrix.mk 40 3 2 [0, 2, 4, 8, 2, 0]).getTopLeftOnBit = .ok (some (left, top)) ∧
      (BitMatrix.mk 40 3 2 [0, 2, 4, 8, 2, 0]).getBottomRightOnBit =
        .ok (some (right, bottom)) ∧
      (0 ≤ left ∧ left < (BitMatrix.mk 40 3 2 [0, 2, 4, 8, 2, 0]).width ∧ 0 ≤ top ∧
        top < (BitMatrix.mk 40 3 2 [0, 2, 4, 8, 2, 0]).height ∧
        (BitMatrix.mk 40 3 2 [0, 2, 4, 8, 2, 0]).get left top = .ok true) ∧
      (0 ≤ right ∧ right < (BitMatrix.mk 40 3 2 [0, 2, 4, 8, 2, 0]).width ∧ 0 ≤ bottom ∧
        bottom < (BitMatrix.mk 40 3 2 [0, 2, 4, 8, 2, 0]).height ∧
        (BitMatrix.mk 40 3 2 [0, 2, 4, 8, 2, 0]).get right bottom = .ok true) ∧
      ∀ x y : Int, 0 ≤ x → x < (BitMatrix.mk 40 3 2 [0, 2, 4, 8, 2, 0]).width → 0 ≤ y →
        y < (BitMatrix.mk 40 3 2 [0, 2, 4, 8, 2, 0]).height →
        (BitMatrix.mk 40 3 2 [0, 2, 4, 8, 2, 0]).get x y = .ok true →
        (top < y ∨ (y = top ∧ left ≤ x)) ∧ (y < bottom ∨ (y = bottom ∧ x ≤ right)) :=
  ⟨by decide, by decide, by decide,
    C20_first_and_last_on_bit (BitMatrix.mk 40 3 2 [0, 2, 4, 8, 2, 0]) (by decide)
      ⟨2, 1, by decide⟩ (by decide)⟩

/-! ## `mirror` -/

theorem forLoop_empty {σ : Type} (lo hi : Int) (body : σ → Int → Except Err σ) (s : σ)
    (h : hi ≤ lo) : forLoop lo hi body s = .ok s := by
  unfold forLoop
  have h0 : (hi - lo).toNat = 0 := by omega
  rw [h0]
  rfl

theorem xor_bit_bound (w k : Nat) (hw : w < 4294967296) (hk : k < 32) :
    w ^^^ (1 <<< k) < 4294967296 := by
  have h1 : (1 : Nat) <<< k < 2 ^ 32 := by
    rw [Nat.one_shiftLeft]; exact Nat.pow_lt_pow_right (by decide) hk
  exact Nat.xor_lt_two_pow (n := 32) hw h1

/-- A `flip` whose word index is inside the storage completes and keeps the class
invariant and the dimensions. -/
theorem flip_keeps_WF (s : BitMatrix) (hwf : s.WF) (x y : Int) (hx : 0 ≤ x)
    (hi : 0 ≤ s.wordIndex x y ∧ s.wordIndex x y < s.bits.length) :
    (s.flip x y).err = none ∧ (s.flip x y).state.WF ∧
      (s.flip x y).state.width = s.width ∧ (s.flip x y).state.height = s.height := by
  rw [flip_eq s x y hx hi]
  refine ⟨rfl, ⟨hwf.1, hwf.2.1, hwf.2.2.1, ?_, ?_⟩, rfl, rfl⟩
  · simp only [List.length_set]
    exact hwf.2.2.2.1
  · exact mem_set_bound _ _ _ hwf.2.2.2.2
      (xor_bit_bound _ _ (getD_bound _ _ hwf.2.2.2.2) (by omega))

/-- A `flip` at a storage position: every storage bit afterwards. -/
theorem flip_grid (s : BitMatrix) (hwf : s.WF) (x y : Int)
    (hx0 : 0 ≤ x) (hx1 : x < s.rowSize * 32) (hy0 : 0 ≤ y) (hy1 : y < s.height) :
    (s.flip x y).err = none ∧ (s.flip x y).state.WF ∧
      (s.flip x y).state.width = s.width ∧ (s.flip x y).state.height = s.height ∧
      ∀ a b : Int, 0 ≤ a → a < s.rowSize * 32 → 0 ≤ b → b < s.height →
        bitAt (s.flip x y).state.bits s.rowSize a b =
          (bitAt s.bits s.rowSize a b ^^ decide (a = x ∧ b = y)) := by
  have hi := wordIndex_bounds s hwf x y hx0 hx1 hy0 hy1
  obtain ⟨h1, h2, h3, h4⟩ := flip_keeps_WF s hwf x y hx0 hi
  refine ⟨h1, h2, h3, h4, ?_⟩
  intro a b ha0 ha1 hb0 hb1
  rw [flip_eq s x y hx0 hi]
  exact bitAt_set_xor s.bits s.rowSize s.height x y a b hwf.2.2.2.1 hx0 hx1 hy0 hy1 ha0 ha1
    hb0 hb1

theorem rowSize_eq_of_width (s m : BitMatrix) (hs : s.WF) (hm : m.WF) (hw : s.width = m.width) :
    s.rowSize = m.rowSize := by
  rw [hs.2.2.1, hm.2.2.1, hw]

/-- Word index of the access `(y, x)` made by `mirror` for a pair `x < y`: it lies inside
the storage even when the column `y` is beyond the row stride. -/
theorem spill_index_bounds (rs W H x y : Int) (hrs : rs = (W + 31) / 32) (hx0 : 0 ≤ x)
    (hx1 : x < W) (hxy : x < y) (hy1 : y < H) :
    0 ≤ x * rs + y / 32 ∧ x * rs + y / 32 < rs * H := by
  have hrs1 : 1 ≤ rs := by omega
  have hq0 : 0 ≤ y / 32 := by omega
  have h1 : 0 ≤ x * rs := mul_nonneg hx0 (by omega)
  refine ⟨by omega, ?_⟩
  by_cases hq : y / 32 < rs
  · have h2 : (x + 1) * rs ≤ H * rs := mul_le_mul_of_nonneg_right (by omega) (by omega)
    nlinarith
  · have hx2 : x ≤ 32 * rs - 1 := by omega
    have hH : 32 * (y / 32) + 1 ≤ H := by omega
    have h2 : x * rs ≤ (32 * rs - 1) * rs := mul_le_mul_of_nonneg_right hx2 (by omega)
    have h3 : rs * (32 * (y / 32) + 1) ≤ rs * H := mul_le_mul_of_nonneg_left hH (by omega)
    have h4 : 0 ≤ (y / 32 - rs) * (32 * rs - 1) := mul_nonneg (by omega) (by omega)
    nlinarith

/-- The body of the inner loop of `mirror` completes on every raster satisfying the class
invariant and keeps the invariant and the dimensions. -/
theorem mirrorStep_ok (s : BitMatrix) (hwf : s.WF) (x y : Int) (hx0 : 0 ≤ x)
    (hx1 : x < s.width) (hxy : x < y) (hy1 : y < s.height) :
    ∃ s', mirrorStep s x y = .ok s' ∧ s'.WF ∧ s'.width = s.width ∧ s'.height = s.height := by
  have hA := wordIndex_bounds s hwf x y hx0 (rowSize_covers s hwf x hx1) (by omega) hy1
  have hB : 0 ≤ s.wordIndex y x ∧ s.wordIndex y x < s.bits.length := by
    rw [wordIndex_of_nonneg s y x (by omega), hwf.2.2.2.1]
    exact spill_index_bounds s.rowSize s.width s.height x y hwf.2.2.1 hx0 hx1 hxy hy1
  unfold mirrorStep
  rw [get_eq_bitAt s x y hx0 hA, get_eq_bitAt s y x (by omega) hB]
  simp only []
  split_ifs
  · obtain ⟨e1, w1, d1, d2⟩ := flip_keeps_WF s hwf y x (by omega) hB
    have hA' : 0 ≤ (s.flip y x).state.wordIndex x y ∧
        (s.flip y x).state.wordIndex x y < (s.flip y x).state.bits.length := by
      have hr := rowSize_eq_of_width _ _ w1 hwf d1
      have hl : ((s.flip y x).state.bits.length : Int) = s.bits.length := by
        rw [w1.2.2.2.1, hwf.2.2.2.1, hr, d2]
      unfold BitMatrix.wordIndex at hA ⊢
      rw [hr, hl]
      exact hA
    obtain ⟨e2, w2, d3, d4⟩ := flip_keeps_WF _ w1 x y hx0 hA'
    rw [e1]
    simp only []
    rw [e2]
    exact ⟨_, rfl, w2, by rw [d3, d1], by rw [d4, d2]⟩
  · exact ⟨s, rfl, hwf, rfl, rfl⟩

/-- `mirror` completes without error on every raster satisfying the class invariant, square
or not, and keeps the invariant and the dimensions. -/
theorem mirror_ok (m : BitMatrix) (hwf : m.WF) :
    ∃ m', m.mirror = .ok m' ∧ m'.WF ∧ m'.width = m.width ∧ m'.height = m.height := by
  unfold BitMatrix.mirror
  apply forLoop_rule 0 m.width _ (fun _ s => s.WF ∧ s.width = m.width ∧ s.height = m.height)
    m hwf.1 ⟨hwf, rfl, rfl⟩
  intro i s hi0 hi1 ⟨hs, hw, hh⟩
  by_cases hle : i + 1 ≤ m.height
  · apply forLoop_rule (i + 1) m.height _
      (fun _ t => t.WF ∧ t.width = m.width ∧ t.height = m.height) s hle ⟨hs, hw, hh⟩
    intro j t hj0 hj1 ⟨ht, htw, hth⟩
    obtain ⟨t', hrun, ht', htw', hth'⟩ :=
      mirrorStep_ok t ht i j hi0 (by omega) (by omega) (by omega)
    exact ⟨t', hrun, ht', by rw [htw', htw], by rw [hth', hth]⟩
  · exact ⟨s, forLoop_empty _ _ _ _ (by omega), hs, hw, hh⟩

/-- The body of the inner loop of `mirror` when column `y` is a storage column: the bits at
`(x, y)` and `(y, x)` are exchanged and no other storage bit changes. -/
theorem mirrorStep_grid (s : BitMatrix) (hwf : s.WF) (x y : Int) (hx0 : 0 ≤ x)
    (hx1 : x < s.width) (hxy : x < y) (hy1 : y < s.height) (hH : s.height ≤ s.rowSize * 32) :
    ∃ s', mirrorStep s x y = .ok s' ∧ s'.WF ∧ s'.width = s.width ∧ s'.height = s.height ∧
      ∀ a b : Int, 0 ≤ a → a < s.rowSize * 32 → 0 ≤ b → b < s.height →
        bitAt s'.bits s.rowSize a b =
          if a = x ∧ b = y then bitAt s.bits s.rowSize y x
          else if a = y ∧ b = x then bitAt s.bits s.rowSize x y
          else bitAt s.bits s.rowSize a b := by
  have hxr := rowSize_covers s hwf x hx1
  have hA := wordIndex_bounds s hwf x y hx0 hxr (by omega) hy1
  have hB := wordIndex_bounds s hwf y x (by omega) (by omega) hx0 (by omega)
  unfold mirrorStep
  rw [get_eq_bitAt s x y hx0 hA, get_eq_bitAt s y x (by omega) hB]
  simp only []
  by_cases hne : (bitAt s.bits s.rowSize x y != bitAt s.bits s.rowSize y x) = true
  · rw [if_pos hne]
    obtain ⟨e1, w1, d1, d2, b1⟩ := flip_grid s hwf y x (by omega) (by omega) hx0 (by omega)
    have hr := rowSize_eq_of_width _ _ w1 hwf d1
    obtain ⟨e2, w2, d3, d4, b2⟩ :=
      flip_grid _ w1 x y hx0 (by rw [hr]; exact hxr) (by omega) (by rw [d2]; exact hy1)
    rw [e1]
    simp only []
    rw [e2]
    refine ⟨_, rfl, w2, by rw [d3, d1], by rw [d4, d2], ?_⟩
    intro a b ha0 ha1 hb0 hb1
    have h2 := b2 a b ha0 (by rw [hr]; exact ha1) hb0 (by rw [d2]; exact hb1)
    rw [hr] at h2
    rw [h2, b1 a b ha0 ha1 hb0 hb1]
    by_cases c1 : a = x ∧ b = y
    · have c2 : ¬ (a = y ∧ b = x) := by omega
      rw [if_pos c1, decide_eq_true c1, decide_eq_false c2, c1.1, c1.2]
      revert hne
      cases bitAt s.bits s.rowSize x y <;> cases bitAt s.bits s.rowSize y x <;> simp
    · by_cases c2 : a = y ∧ b = x
      · rw [if_neg c1, if_pos c2, decide_eq_true c2, decide_eq_false c1, c2.1, c2.2]
        revert hne
        cases bitAt s.bits s.rowSize x y <;> cases bitAt s.bits s.rowSize y x <;> simp
      · rw [if_neg c1, if_neg c2, decide_eq_false c1, decide_eq_false c2]
        simp
  · rw [if_neg hne]
    refine ⟨s, rfl, hwf, rfl, rfl, ?_⟩
    intro a b _ _ _ _
    have heq : bitAt s.bits s.rowSize x y = bitAt s.bits s.rowSize y x := by
      revert hne
      cases bitAt s.bits s.rowSize x y <;> cases bitAt s.bits s.rowSize y x <;> simp
    by_cases c1 : a = x ∧ b = y
    · rw [if_pos c1, c1.1, c1.2, heq]
    · by_cases c2 : a = y ∧ b = x
      · rw [if_neg c1, if_pos c2, c2.1, c2.2, heq]
      · rw [if_neg c1, if_neg c2]

/-- The inner loop of `mirror` for column `i` on a raster whose height does not exceed the
row stride in bits. -/
theorem mirror_row (m : BitMatrix) (hwf : m.WF) (hH : m.height ≤ m.rowSize * 32) (i : Int)
    (hi0 : 0 ≤ i) (hi1 : i < m.width) (s : BitMatrix) (hs : s.WF) (hw : s.width = m.width)
    (hh : s.height = m.height)
    (hinv : ∀ a b : Int, 0 ≤ a → a < m.rowSize * 32 → 0 ≤ b → b < m.height →
      (mirrorDone m.height i 0 a b → bitAt s.bits m.rowSize a b = bitAt m.bits m.rowSize b a) ∧
      (¬ mirrorDone m.height i 0 a b →
        bitAt s.bits m.rowSize a b = bitAt m.bits m.rowSize a b)) :
    ∃ s', forLoop (i + 1) m.height (fun (t : BitMatrix) y => mirrorStep t i y) s = .ok s' ∧
      s'.WF ∧ s'.width = m.width ∧ s'.height = m.height ∧
      ∀ a b : Int, 0 ≤ a → a < m.rowSize * 32 → 0 ≤ b → b < m.height →
        (mirrorDone m.height (i + 1) 0 a b →
          bitAt s'.bits m.rowSize a b = bitAt m.bits m.rowSize b a) ∧
        (¬ mirrorDone m.height (i + 1) 0 a b →
          bitAt s'.bits m.rowSize a b = bitAt m.bits m.rowSize a b) := by
  by_cases hle : i + 1 ≤ m.height
  · obtain ⟨s', hrun, hs', hw', hh', hb'⟩ := forLoop_rule (i + 1) m.height _
      (fun j t => t.WF ∧ t.width = m.width ∧ t.height = m.height ∧
        ∀ a b : Int, 0 ≤ a → a < m.rowSize * 32 → 0 ≤ b → b < m.height →
          (mirrorDone m.height i j a b →
            bitAt t.bits m.rowSize a b = bitAt m.bits m.rowSize b a) ∧
          (¬ mirrorDone m.height i j a b →
            bitAt t.bits m.rowSize a b = bitAt m.bits m.rowSize a b))
      s hle ⟨hs, hw, hh, fun a b ha0 ha1 hb0 hb1 => by
        have h := hinv a b ha0 ha1 hb0 hb1
        have e : mirrorDone m.height i (i + 1) a b ↔ mirrorDone m.height i 0 a b := by
          unfold mirrorDone
          omega
        rw [e]
        exact h⟩
      (fun j t hj0 hj1 ⟨ht, htw, hth, hb⟩ => by
        have hr := rowSize_eq_of_width _ _ ht hwf htw
        obtain ⟨t', hrun, ht', htw', hth', hb'⟩ := mirrorStep_grid t ht i j hi0
          (by rw [htw]; exact hi1) (by omega) (by rw [hth]; exact hj1)
          (by rw [hth, hr]; exact hH)
        refine ⟨t', hrun, ht', by rw [htw', htw], by rw [hth', hth], ?_⟩
        intro a b ha0 ha1 hb0 hb1
        have hcur := hb' a b ha0 (by rw [hr]; exact ha1) hb0 (by rw [hth]; exact hb1)
        rw [hr] at hcur
        rw [hcur]
        by_cases c1 : a = i ∧ b = j
        · rw [if_pos c1, c1.1, c1.2]
          have hold := (hb j i (by omega) (by omega) hi0 (by omega)).2 (by
            unfold mirrorDone
            omega)
          have hd : mirrorDone m.height i (j + 1) i j := by
            unfold mirrorDone
            omega
          exact ⟨fun _ => hold, fun hn => absurd hd hn⟩
        · by_cases c2 : a = j ∧ b = i
          · rw [if_neg c1, if_pos c2, c2.1, c2.2]
            have hold := (hb i j hi0 (by omega) (by omega) hj1).2 (by
              unfold mirrorDone
              omega)
            have hd : mirrorDone m.height i (j + 1) j i := by
              unfold mirrorDone
              omega
            exact ⟨fun _ => hold, fun hn => absurd hd hn⟩
          · rw [if_neg c1, if_neg c2]
            have e : mirrorDone m.height i (j + 1) a b ↔ mirrorDone m.height i j a b := by
              unfold mirrorDone
              omega
            rw [e]
            exact hb a b ha0 ha1 hb0 hb1)
    refine ⟨s', hrun, hs', hw', hh', ?_⟩
    intro a b ha0 ha1 hb0 hb1
    have e : mirrorDone m.height (i + 1) 0 a b ↔ mirrorDone m.height i m.height a b := by
      unfold mirrorDone
      omega
    rw [e]
    exact hb' a b ha0 ha1 hb0 hb1
  · refine ⟨s, forLoop_empty _ _ _ _ (by omega), hs, hw, hh, ?_⟩
    intro a b ha0 ha1 hb0 hb1
    have e : mirrorDone m.height (i + 1) 0 a b ↔ mirrorDone m.height i 0 a b := by
      unfold mirrorDone
      omega
    rw [e]
    exact hinv a b ha0 ha1 hb0 hb1

/-- Effect of `mirror` on a raster whose height does not exceed the row stride in bits
(every square raster is one): each storage bit `(a, b)` with `a /= b`, smaller coordinate
below `width` and larger coordinate below `height` receives the bit of `(b, a)`; every other
storage bit is unchanged. -/
theorem mirror_grid (m : BitMatrix) (hwf : m.WF) (hH : m.height ≤ m.rowSize * 32) :
    ∃ m', m.mirror = .ok m' ∧ m'.WF ∧ m'.width = m.width ∧ m'.height = m.height ∧
      ∀ a b : Int, 0 ≤ a → a < m.rowSize * 32 → 0 ≤ b → b < m.height →
        (mirrorDone m.height m.width 0 a b →
          bitAt m'.bits m.rowSize a b = bitAt m.bits m.rowSize b a) ∧
        (¬ mirrorDone m.height m.width 0 a b →
          bitAt m'.bits m.rowSize a b = bitAt m.bits m.rowSize a b) := by
  unfold BitMatrix.mirror
  apply forLoop_rule 0 m.width _ (fun i s => s.WF ∧ s.width = m.width ∧ s.height = m.height ∧
      ∀ a b : Int, 0 ≤ a → a < m.rowSize * 32 → 0 ≤ b → b < m.height →
        (mirrorDone m.height i 0 a b →
          bitAt s.bits m.rowSize a b = bitAt m.bits m.rowSize b a) ∧
        (¬ mirrorDone m.height i 0 a b →
          bitAt s.bits m.rowSize a b = bitAt m.bits m.rowSize a b))
    m hwf.1
  · refine ⟨hwf, rfl, rfl, ?_⟩
    intro a b ha0 _ hb0 _
    have hn : ¬ mirrorDone m.height 0 0 a b := by
      unfold mirrorDone
      omega
    exact ⟨fun h => absurd h hn, fun _ => rfl⟩
  · intro i s hi0 hi1 ⟨hs, hw, hh, hinv⟩
    exact mirror_row m hwf hH i hi0 hi1 s hs hw hh hinv

/-- Two rasters satisfying the class invariant with the same dimensions and the same storage
bits are equal. -/
theorem eq_of_bitAt_eq (m1 m2 : BitMatrix) (h1 : m1.WF) (h2 : m2.WF)
    (hw : m1.width = m2.width) (hh : m1.height = m2.height)
    (hb : ∀ a b : Int, 0 ≤ a → a < m2.rowSize * 32 → 0 ≤ b → b < m2.height →
      bitAt m1.bits m2.rowSize a b = bitAt m2.bits m2.rowSize a b) : m1 = m2 := by
  have hr := rowSize_eq_of_width m1 m2 h1 h2 hw
  have hlen : m1.bits.length = m2.bits.length := by
    have e1 := h1.2.2.2.1
    have e2 := h2.2.2.2.1
    rw [hr, hh] at e1
    omega
  have hbits : m1.bits = m2.bits := by
    apply List.ext_getElem hlen
    intro i hi1 hi2
    obtain ⟨hrs, hc0, hc1, hr0, hr1, hsum, _, _⟩ := word_coords m2 h2 i hi2
    have hidx : ((i : Int) / m2.rowSize * m2.rowSize + (i : Int) % m2.rowSize).toNat = i := by
      omega
    apply Nat.eq_of_testBit_eq
    intro j
    by_cases hj : j < 32
    · have := hb ((i : Int) % m2.rowSize * 32 + j) ((i : Int) / m2.rowSize) (by omega)
        (by omega) hr0 hr1
      rw [bitAt_word _ _ _ _ j hj, bitAt_word _ _ _ _ j hj, hidx,
        List.getD_eq_getElem?_getD, List.getD_eq_getElem?_getD,
        List.getElem?_eq_getElem hi1, List.getElem?_eq_getElem hi2] at this
      exact this
    · rw [testBit_high_clear _ j (h1.2.2.2.2 _ (List.getElem_mem hi1)) (by omega),
        testBit_high_clear _ j (h2.2.2.2.2 _ (List.getElem_mem hi2)) (by omega)]
  cases m1
  cases m2
  simp only [BitMatrix.mk.injEq]
  exact ⟨hw, hh, hr, hbits⟩

theorem mirrorDone_symm (H W a b : Int) (h : mirrorDone H W 0 a b) : mirrorDone H W 0 b a := by
  unfold mirrorDone at h ⊢
  omega

set_option maxRecDepth 100000 in
/-- C11 (as stated) fails: on the 1 x 33 raster whose only set bit is `(0, 1)`, `mirror`
completes twice, but the second result has its only set bit at `(0, 32)`. -/
theorem C11_counterexample :
    ((BitMatrix.new 1 33).set 0 1).state = BitMatrix.mk 1 33 1 (0 :: 1 :: List.replicate 31 0) ∧
    (BitMatrix.mk 1 33 1 (0 :: 1 :: List.replicate 31 0)).mirror =
      .ok (BitMatrix.mk 1 33 1 (2 :: List.replicate 32 0)) ∧
    (BitMatrix.mk 1 33 1 (2 :: List.replicate 32 0)).mirror =
      .ok (BitMatrix.mk 1 33 1 (List.replicate 32 0 ++ [1])) ∧
    BitMatrix.mk 1 33 1 (List.replicate 32 0 ++ [1]) ≠
      BitMatrix.mk 1 33 1 (0 :: 1 :: List.replicate 31 0) := by
  decide

/-- C11 (amended). On every raster satisfying the class invariant, square or not, two
applications of `mirror` complete without error and keep width, height, row stride and the
number of storage words; and when the height does not exceed the row stride in bits
(`height <= 32 * rowSize`, which holds for every square raster and every raster at least as
wide as it is high) the result equals the original raster. -/
theorem C11_mirror_twice (m : BitMatrix) (hwf : m.WF) :
    ∃ m1 m2 : BitMatrix, m.mirror = .ok m1 ∧ m1.mirror = .ok m2 ∧
      m2.width = m.width ∧ m2.height = m.height ∧ m2.rowSize = m.rowSize ∧
      m2.bits.length = m.bits.length ∧
      (m.height ≤ m.rowSize * 32 → m2 = m) := by
  obtain ⟨m1, hrun1, hwf1, hw1, hh1⟩ := mirror_ok m hwf
  obtain ⟨m2, hrun2, hwf2, hw2, hh2⟩ := mirror_ok m1 hwf1
  have hr1 := rowSize_eq_of_width m1 m hwf1 hwf hw1
  have hr2 := rowSize_eq_of_width m2 m1 hwf2 hwf1 hw2
  have hlen : m2.bits.length = m.bits.length := by
    have e1 := hwf2.2.2.2.1
    have e2 := hwf.2.2.2.1
    rw [hr2, hr1, hh2, hh1] at e1
    omega
  refine ⟨m1, m2, hrun1, hrun2, by rw [hw2, hw1], by rw [hh2, hh1], by rw [hr2, hr1], hlen, ?_⟩
  intro hH
  obtain ⟨m1', hrun1', _, _, _, hb1⟩ := mirror_grid m hwf hH
  rw [hrun1] at hrun1'
  have e1 : m1 = m1' := by
    injection hrun1'
  subst e1
  obtain ⟨m2', hrun2', _, _, _, hb2⟩ := mirror_grid m1 hwf1 (by rw [hh1, hr1]; exact hH)
  rw [hrun2] at hrun2'
  have e2 : m2 = m2' := by
    injection hrun2'
  subst e2
  rw [hh1, hw1, hr1] at hb2
  apply eq_of_bitAt_eq m2 m hwf2 hwf (by rw [hw2, hw1]) (by rw [hh2, hh1])
  intro a b ha0 ha1 hb0 hb1'
  by_cases hd : mirrorDone m.height m.width 0 a b
  · rw [(hb2 a b ha0 ha1 hb0 hb1').1 hd]
    have hd' := mirrorDone_symm _ _ _ _ hd
    have hgrid : b < m.rowSize * 32 ∧ a < m.height := by
      unfold mirrorDone at hd
      omega
    exact (hb1 b a hb0 hgrid.1 ha0 hgrid.2).1 hd'
  · rw [(hb2 a b ha0 ha1 hb0 hb1').2 hd]
    exact (hb1 a b ha0 ha1 hb0 hb1').2 hd

/-- Witness for C11 (amended): a 40 x 3 raster with set bits inside and outside its top-left
3 x 3 square. -/
theorem C11_mirror_twice_witness :
    (BitMatrix.mk 40 3 2 [6, 1, 4294967292, 0, 1, 128]).WF ∧
    (BitMatrix.mk 40 3 2 [6, 1, 4294967292, 0, 1, 128]).height ≤
      (BitMatrix.mk 40 3 2 [6, 1, 4294967292, 0, 1, 128]).rowSize * 32 ∧
    ∃ m1 : BitMatrix, (BitMatrix.mk 40 3 2 [6, 1, 4294967292, 0, 1, 128]).mirror = .ok m1 ∧
      m1.mirror = .ok (BitMatrix.mk 40 3 2 [6, 1, 4294967292, 0, 1, 128]) :=
  ⟨by decide, by decide, by
    obtain ⟨m1, m2, h1, h2, _, _, _, _, h⟩ :=
      C11_mirror_twice (BitMatrix.mk 40 3 2 [6, 1, 4294967292, 0, 1, 128]) (by decide)
    exact ⟨m1, h1, by rw [h2, h (by decide)]⟩⟩

/-- C19. `mirror` transposes a square raster: on a raster satisfying the class invariant
with `width = height = N`, `mirror` completes, keeps the dimensions, and for all
`0 <= x, y < N` the value of `get(x, y)` afterwards is the value of `get(y, x)` before. -/
theorem C19_mirror_transposes_square (m : BitMatrix) (hwf : m.WF) (N : Int)
    (hw : m.width = N) (hh : m.height = N) :
    ∃ m' : BitMatrix, m.mirror = .ok m' ∧ m'.width = N ∧ m'.height = N ∧
      ∀ x y : Int, 0 ≤ x → x < N → 0 ≤ y → y < N → m'.get x y = m.get y x := by
  have hH : m.height ≤ m.rowSize * 32 := by
    have := hwf.2.2.1
    omega
  obtain ⟨m', hrun, hwf', hw', hh', hb⟩ := mirror_grid m hwf hH
  have hr := rowSize_eq_of_width m' m hwf' hwf hw'
  refine ⟨m', hrun, by rw [hw', hw], by rw [hh', hh], ?_⟩
  intro x y hx0 hx1 hy0 hy1
  have hxr : x < m.rowSize * 32 := rowSize_covers m hwf x (by rw [hw]; exact hx1)
  have hyr : y < m.rowSize * 32 := rowSize_covers m hwf y (by rw [hw]; exact hy1)
  rw [get_eq_bitAt m' x y hx0 (wordIndex_bounds m' hwf' x y hx0 (by rw [hr]; exact hxr) hy0
      (by rw [hh', hh]; exact hy1)),
    get_eq_bitAt m y x hy0 (wordIndex_bounds m hwf y x hy0 hyr hx0 (by rw [hh]; exact hx1)), hr]
  congr 1
  by_cases hxy : x = y
  · subst hxy
    apply (hb x x hx0 hxr hx0 (by rw [hh]; exact hx1)).2
    unfold mirrorDone
    omega
  · apply (hb x y hx0 hxr hy0 (by rw [hh]; exact hy1)).1
    unfold mirrorDone
    omega

/-- Witness for C19: the 3 x 3 raster with rows `110`, `001`, `100`. -/
theorem C19_mirror_transposes_square_witness :
    (BitMatrix.mk 3 3 1 [3, 4, 1]).WF ∧
    ∃ m' : BitMatrix, (BitMatrix.mk 3 3 1 [3, 4, 1]).mirror = .ok m' ∧ m'.width = 3 ∧
      m'.height = 3 ∧
      ∀ x y : Int, 0 ≤ x → x < 3 → 0 ≤ y → y < 3 →
        m'.get x y = (BitMatrix.mk 3 3 1 [3, 4, 1]).get y x :=
  ⟨by decide, C19_mirror_transposes_square (BitMatrix.mk 3 3 1 [3, 4, 1]) (by decide) 3 rfl rfl⟩

/-! ## `writePBM` -/

theorem mask_step (k : Nat) (hk : k < 32) :
    (2 ^ k <<< 1) % 4294967296 = if k = 31 then 0 else 2 ^ (k + 1) := by
  interval_cases k <;> rfl

theorem and_mask_ne_zero (w k : Nat) : (w &&& 2 ^ k ≠ 0) ↔ w.testBit k = true := by
  rw [Nat.and_two_pow]
  cases h : w.testBit k
  · simp
  · simp

/-- The character that `writePBM` writes for bit `i` of row `y` is the spec's token. -/
theorem token_eq (m : BitMatrix) (hwf : m.WF) (i y : Int) (hi0 : 0 ≤ i) (hi1 : i < m.width)
    (hy0 : 0 ≤ y) (hy1 : y < m.height) :
    (if m.bits.getD (y * m.rowSize + i / 32).toNat 0 &&& 2 ^ (i % 32).toNat ≠ 0 then '1'
      else '0') = specToken m i y := by
  have hir := rowSize_covers m hwf i hi1
  unfold specToken
  rw [get_eq_bitAt m i y hi0 (wordIndex_bounds m hwf i y hi0 hir hy0 hy1)]
  unfold bitAt
  by_cases hb : (m.bits.getD (y * m.rowSize + i / 32).toNat 0).testBit (i % 32).toNat = true
  · rw [if_pos ((and_mask_ne_zero _ _).mpr hb), hb, if_pos rfl]
  · rw [if_neg (fun h => hb ((and_mask_ne_zero _ _).mp h))]
    have hf : (m.bits.getD (y * m.rowSize + i / 32).toNat 0).testBit (i % 32).toNat = false := by
      simpa using hb
    rw [hf, if_neg (by simp)]

/-- One iteration of the inner loop of `writePBM`. -/
theorem pbmStep_spec (m : BitMatrix) (hwf : m.WF) (i y : Int) (hi0 : 0 ≤ i)
    (hi1 : i < m.width) (hy0 : 0 ≤ y) (hy1 : y < m.height) (s : PBMCursor)
    (hmask : s.mask = 2 ^ (i % 32).toNat) (hp : s.p = y * m.rowSize + i / 32) :
    ∃ s', pbmStep m s i = .ok s' ∧ s'.mask = 2 ^ ((i + 1) % 32).toNat ∧
      s'.p = y * m.rowSize + (i + 1) / 32 ∧
      s'.out = s.out ++ [specToken m i y, if i + 1 < m.width then ' ' else '\n'] := by
  have hir := rowSize_covers m hwf i hi1
  have hb := index_bounds m.rowSize m.height i y hi0 hir hy0 hy1
  unfold pbmStep
  rw [hp, rawAt_eq m.bits _ (by rw [hwf.2.2.2.1]; exact hb)]
  simp only [hmask]
  rw [token_eq m hwf i y hi0 hi1 hy0 hy1, mask_step _ (by omega)]
  by_cases h31 : (i % 32).toNat = 31
  · rw [if_pos h31]
    simp only [if_true]
    refine ⟨_, rfl, ?_, ?_, by simp⟩
    · have : ((i + 1) % 32).toNat = 0 := by omega
      rw [this]
      rfl
    · show y * m.rowSize + i / 32 + 1 = y * m.rowSize + (i + 1) / 32
      omega
  · rw [if_neg h31]
    have hne : (2 : Nat) ^ ((i % 32).toNat + 1) ≠ 0 := by positivity
    rw [if_neg hne]
    refine ⟨_, rfl, ?_, ?_, by simp⟩
    · have : ((i + 1) % 32).toNat = (i % 32).toNat + 1 := by omega
      rw [this]
    · show y * m.rowSize + i / 32 = y * m.rowSize + (i + 1) / 32
      omega

/-- The inner loop of `writePBM` on row `y`. -/
theorem pbm_row (m : BitMatrix) (hwf : m.WF) (y : Int) (hy0 : 0 ≤ y) (hy1 : y < m.height)
    (out : List Char) :
    ∃ s, forLoop 0 m.width (pbmStep m) ⟨1, y * m.rowSize, out⟩ = .ok s ∧
      s.out = out ++ pbmRowPrefix m y m.width.toNat := by
  obtain ⟨s, hrun, _, _, hout⟩ := forLoop_rule 0 m.width (pbmStep m)
    (fun i s => s.mask = 2 ^ (i % 32).toNat ∧ s.p = y * m.rowSize + i / 32 ∧
      s.out = out ++ pbmRowPrefix m y i.toNat)
    ⟨1, y * m.rowSize, out⟩ hwf.1 ⟨rfl, by simp, by simp [pbmRowPrefix]⟩
    (fun i s hi0 hi1 ⟨hm, hp, ho⟩ => by
      obtain ⟨s', hrun, hm', hp', ho'⟩ := pbmStep_spec m hwf i y hi0 hi1 hy0 hy1 s hm hp
      refine ⟨s', hrun, hm', hp', ?_⟩
      have hn : (i + 1).toNat = i.toNat + 1 := by omega
      have hc : ((i.toNat : Nat) : Int) = i := by omega
      rw [ho', ho, hn]
      simp only [pbmRowPrefix, hc, List.append_assoc])
  exact ⟨s, hrun, hout⟩

theorem intersperse_concat (sep a : Char) (l : List Char) (hl : l ≠ []) :
    List.intersperse sep (l ++ [a]) = List.intersperse sep l ++ [sep, a] := by
  induction l with
  | nil => exact absurd rfl hl
  | cons b t ih =>
    cases t with
    | nil => rfl
    | cons c t' =>
      have h := ih (by simp)
      simp only [List.cons_append, List.intersperse_cons_cons] at h ⊢
      rw [h]

/-- Before the last token, the text written for a row is the tokens so far, each followed by
a space. -/
theorem pbmRowPrefix_tokens (m : BitMatrix) (y : Int) (n : Nat) (hn : (n : Int) + 1 ≤ m.width) :
    pbmRowPrefix m y n ++ [specToken m n y] =
      List.intersperse ' ' ((List.range (n + 1)).map (fun (x : Nat) => specToken m x y)) := by
  induction n with
  | zero => rfl
  | succ n ih =>
    have h1 := ih (by omega)
    have hsep : ((n : Int) + 1 < m.width) := by omega
    rw [List.range_succ, List.map_append, List.map_singleton,
      intersperse_concat _ _ _ (by simp [List.range_succ]), ← h1]
    simp only [pbmRowPrefix, if_pos hsep, List.append_assoc, List.singleton_append,
      List.cons_append, List.nil_append]

/-- For a raster of width at least 1 the text written for a row is the spec's line. -/
theorem pbmRowPrefix_line (m : BitMatrix) (y : Int) (hw : 1 ≤ m.width) :
    pbmRowPrefix m y m.width.toNat = specPBMLine m y := by
  obtain ⟨n, hn⟩ : ∃ n : Nat, m.width.toNat = n + 1 := ⟨m.width.toNat - 1, by omega⟩
  have hlast : ¬ ((n : Int) + 1 < m.width) := by omega
  unfold specPBMLine
  rw [hn, ← pbmRowPrefix_tokens m y n (by omega)]
  simp only [pbmRowPrefix, if_neg hlast, List.append_assoc, List.singleton_append]

/-- C18. `writePBM` on a raster satisfying the class invariant with `width >= 1` completes
and appends to the stream exactly "P1", newline, the decimal width, a space, the decimal
height, a newline, and then `height` lines, line `y` being `width` tokens separated by single
spaces and terminated by a newline, token `x` being "1" if `get(x, y)` is true and "0"
otherwise. The raster is a `const` object of the call. -/
theorem C18_writePBM_format (m : BitMatrix) (hwf : m.WF) (hw : 1 ≤ m.width) (out : List Char) :
    m.writePBM out = .ok (out ++ specPBM m) := by
  unfold BitMatrix.writePBM
  obtain ⟨r, hrun, hr⟩ := forLoop_rule 0 m.height
    (fun (out : List Char) y =>
      match forLoop 0 m.width (pbmStep m) ⟨1, y * m.rowSize, out⟩ with
      | .error e => Except.error e
      | .ok s => Except.ok s.out)
    (fun i (t : List Char) => t = out ++ "P1\n".toList ++ decimal m.width ++ [' '] ++
      decimal m.height ++ ['\n'] ++
      ((List.range i.toNat).map (fun (y : Nat) => specPBMLine m y)).flatten)
    (out ++ "P1\n".toList ++ decimal m.width ++ [' '] ++ decimal m.height ++ ['\n'])
    hwf.2.1 (by simp)
    (fun i t hi0 hi1 ht => by
      dsimp only at ht ⊢
      obtain ⟨s, hrun, hs⟩ := pbm_row m hwf i hi0 hi1 t
      refine ⟨s.out, by rw [hrun], ?_⟩
      have hn : (i + 1).toNat = i.toNat + 1 := by omega
      have hc : ((i.toNat : Nat) : Int) = i := by omega
      rw [hs, ht, hn, List.range_succ, List.map_append, List.flatten_append,
        pbmRowPrefix_line m i hw]
      simp only [List.map_singleton, List.flatten_cons, List.flatten_nil, List.append_nil, hc,
        List.append_assoc])
  rw [hrun, hr]
  unfold specPBM
  simp only [List.append_assoc]

/-- Witness for C18: a 40 x 2 raster, wider than one storage word, with set padding bits. -/
theorem C18_writePBM_format_witness :
    (BitMatrix.mk 40 2 2 [3221225472, 4294967047, 5, 129]).WF ∧
    1 ≤ (BitMatrix.mk 40 2 2 [3221225472, 4294967047, 5, 129]).width ∧
    (BitMatrix.mk 40 2 2 [3221225472, 4294967047, 5, 129]).writePBM [] =
      .ok ([] ++ specPBM (BitMatrix.mk 40 2 2 [3221225472, 4294967047, 5, 129])) :=
  ⟨by decide, by decide,
    C18_writePBM_format (BitMatrix.mk 40 2 2 [3221225472, 4294967047, 5, 129]) (by decide)
      (by decide) []⟩

/-! ## EAN-8 `decodeMiddle` -/

theorem eq_NoError_of_not_error (s : DecodeStatus) (h : StatusIsError s = false) :
    s = .NoError := by
  cases s <;> first | rfl | (exfalso; revert h; decide)

theorem not_error_NoError : StatusIsError DecodeStatus.NoError = false := rfl

/-- One digit loop of `decodeMiddle`, run with the recording digit decoder: the calls it adds
to the record are at most `n` successive digit decodes from the current cursor, each made with
the cursor before the end of the row, the first of them whenever the loop is entered with the
cursor before the end. Either all returned `NoError`, one byte was appended for each, and
the loop stopped early only with the cursor at or beyond the end of the row; or the last one
returned an error status, all before it returned `NoError`, and the loop returned that
status at once. -/
theorem digitLoop_spec (dd : BitArray → Int → List Int → DigitOutcome) (row : BitArray)
    (rowEnd : Int) :
    ∀ (n : Nat) (s : MiddleState) (log : List HelperCall),
      ∃ (calls : List HelperCall) (off' : Int) (cs' : List Int),
        calls.length ≤ n ∧
        (digitLoop (recordDigit dd) row rowEnd n s log).2.2 = log ++ calls ∧
        (∀ c ∈ calls, c.rowOffset < rowEnd) ∧
        (0 < n → s.rowOffset < rowEnd →
          calls.head? = some (.digit s.rowOffset s.counters (dd row s.rowOffset s.counters))) ∧
        (¬ s.rowOffset < rowEnd → calls = []) ∧
        (((digitLoop (recordDigit dd) row rowEnd n s log).1 = none ∧
          digitChain dd row s.rowOffset s.counters calls off' cs' ∧
          (∀ c ∈ calls, c.status = .NoError) ∧
          (digitLoop (recordDigit dd) row rowEnd n s log).2.1 =
            ⟨off', s.resultString ++ calls.map (fun c => digitChar c.bestMatch), cs'⟩ ∧
          (calls.length < n → rowEnd ≤ off')) ∨
         (∃ pre last, calls = pre ++ [last] ∧
          (digitLoop (recordDigit dd) row rowEnd n s log).1 = some last.status ∧
          StatusIsError last.status = true ∧
          digitChain dd row s.rowOffset s.counters pre off' cs' ∧
          last = .digit off' cs' (dd row off' cs') ∧
          (∀ c ∈ pre, c.status = .NoError) ∧
          (digitLoop (recordDigit dd) row rowEnd n s log).2.1.resultString =
            s.resultString ++ pre.map (fun c => digitChar c.bestMatch))) := by
  intro n
  induction n with
  | zero =>
    intro s log
    refine ⟨[], s.rowOffset, s.counters, le_refl _, by simp [digitLoop], by simp,
      fun h => absurd h (by simp), fun _ => rfl, Or.inl ⟨rfl, ⟨rfl, rfl⟩, by simp, ?_,
      fun h => absurd h (by simp)⟩⟩
    simp [digitLoop]
  | succ n ih =>
    intro s log
    unfold digitLoop
    by_cases hlt : s.rowOffset < rowEnd
    · rw [if_pos hlt]
      simp only [recordDigit]
      by_cases herr : StatusIsError (dd row s.rowOffset s.counters).status = true
      · rw [if_pos herr]
        refine ⟨[.digit s.rowOffset s.counters (dd row s.rowOffset s.counters)], s.rowOffset,
          s.counters, by simp, rfl, ?_, fun _ _ => rfl, fun h => absurd hlt h,
          Or.inr ⟨[], _, rfl, rfl, herr, ⟨rfl, rfl⟩, rfl, by simp, by simp⟩⟩
        intro c hc
        rw [List.mem_singleton] at hc
        rw [hc]
        exact hlt
      · rw [if_neg herr]
        have hok : (dd row s.rowOffset s.counters).status = .NoError :=
          eq_NoError_of_not_error _ (by simpa using herr)
        obtain ⟨calls, off', cs', hlen, hlog, hcur, _, _, h⟩ := ih
          { rowOffset := Accumulate (dd row s.rowOffset s.counters).counters s.rowOffset
            resultString := s.resultString ++
              [digitChar (dd row s.rowOffset s.counters).bestMatch]
            counters := (dd row s.rowOffset s.counters).counters }
          (log ++ [.digit s.rowOffset s.counters (dd row s.rowOffset s.counters)])
        refine ⟨.digit s.rowOffset s.counters (dd row s.rowOffset s.counters) :: calls,
          off', cs', by simp; omega, ?_, ?_, fun _ _ => rfl, fun h => absurd hlt h, ?_⟩
        · rw [hlog]
          simp
        · intro c hc
          rcases List.mem_cons.mp hc with hc | hc
          · rw [hc]
            exact hlt
          · exact hcur c hc
        · rcases h with ⟨h1, h2, h3, h4, h5⟩ | ⟨pre, last, h1, h2, h3, h4, h5, h6, h7⟩
          · left
            refine ⟨h1, ⟨rfl, h2⟩, ?_, ?_, ?_⟩
            · intro c hc
              rcases List.mem_cons.mp hc with hc | hc
              · rw [hc]
                exact hok
              · exact h3 c hc
            · rw [h4]
              simp [HelperCall.bestMatch]
            · intro hl
              apply h5
              simp at hl
              omega
          · right
            refine ⟨.digit s.rowOffset s.counters (dd row s.rowOffset s.counters) :: pre, last,
              by rw [h1]; rfl, h2, h3, ⟨rfl, h4⟩, h5, ?_, ?_⟩
            · intro c hc
              rcases List.mem_cons.mp hc with hc | hc
              · rw [hc]
                exact hok
              · exact h6 c hc
            · rw [h7]
              simp [HelperCall.bestMatch]
    · rw [if_neg hlt]
      refine ⟨[], s.rowOffset, s.counters, by simp, by simp, by simp,
        fun _ h => absurd h hlt, fun _ => rfl, Or.inl ⟨rfl, ⟨rfl, rfl⟩, by simp, by simp,
        fun _ => by omega⟩⟩

theorem head_append_of_head (l t : List HelperCall) (c : HelperCall)
    (h : l.head? = some c) : (l ++ t).head? = some c := by
  cases l with
  | nil => simp at h
  | cons a r => simpa using h

/-- The whole of `decodeMiddle`, run with the recording helpers. The record starts with the
digit decodes of the first group, a chain of at most 4 calls from the starting cursor that
all returned `NoError`. Then either (a) one more digit decode returned an error status, which
is returned; or (b) the guard search was called at the cursor after the group and returned an
error status, which is returned; or the guard search returned `NoError` and a second chain
of at most 4 digit decodes from the end of the guard follows, after which either (c) one more
digit decode returned an error status, which is returned, or (d) `NoError` is returned. In
every case the output string is the initial one followed by one byte per digit decode that
returned `NoError`. -/
theorem decodeMiddle_spec (dd : BitArray → Int → List Int → DigitOutcome)
    (fg : BitArray → Int → GuardOutcome) (row : BitArray) (rowOffset : Int)
    (out : List Int) :
    ∃ (d1 : List HelperCall) (off1 : Int) (cs1 : List Int),
      digitChain dd row rowOffset [0, 0, 0, 0] d1 off1 cs1 ∧ d1.length ≤ 4 ∧
      (∀ c ∈ d1, c.status = .NoError ∧ c.rowOffset < row.size) ∧
      (rowOffset < row.size → (decodeMiddleRecorded dd fg row rowOffset out).2.2.head? =
        some (.digit rowOffset [0, 0, 0, 0] (dd row rowOffset [0, 0, 0, 0]))) ∧
      (¬ rowOffset < row.size → (decodeMiddleRecorded dd fg row rowOffset out).2.2.head? =
        some (.guard rowOffset (fg row rowOffset))) ∧
      ((off1 < row.size ∧ StatusIsError (dd row off1 cs1).status = true ∧
        (decodeMiddleRecorded dd fg row rowOffset out).2.2 =
          d1 ++ [.digit off1 cs1 (dd row off1 cs1)] ∧
        (decodeMiddleRecorded dd fg row rowOffset out).1 = (dd row off1 cs1).status ∧
        (decodeMiddleRecorded dd fg row rowOffset out).2.1.resultString =
          out ++ d1.map (fun c => digitChar c.bestMatch)) ∨
       ((d1.length < 4 → row.size ≤ off1) ∧ StatusIsError (fg row off1).status = true ∧
        (decodeMiddleRecorded dd fg row rowOffset out).2.2 =
          d1 ++ [.guard off1 (fg row off1)] ∧
        (decodeMiddleRecorded dd fg row rowOffset out).1 = (fg row off1).status ∧
        (decodeMiddleRecorded dd fg row rowOffset out).2.1.resultString =
          out ++ d1.map (fun c => digitChar c.bestMatch)) ∨
       ((d1.length < 4 → row.size ≤ off1) ∧ (fg row off1).status = .NoError ∧
        ∃ (d2 : List HelperCall) (off2 : Int) (cs2 : List Int),
          digitChain dd row (fg row off1).rangeEnd cs1 d2 off2 cs2 ∧ d2.length ≤ 4 ∧
          (∀ c ∈ d2, c.status = .NoError ∧ c.rowOffset < row.size) ∧
          ((off2 < row.size ∧ StatusIsError (dd row off2 cs2).status = true ∧
            (decodeMiddleRecorded dd fg row rowOffset out).2.2 =
              d1 ++ [.guard off1 (fg row off1)] ++ d2 ++ [.digit off2 cs2 (dd row off2 cs2)] ∧
            (decodeMiddleRecorded dd fg row rowOffset out).1 = (dd row off2 cs2).status ∧
            (decodeMiddleRecorded dd fg row rowOffset out).2.1.resultString =
              out ++ (d1 ++ d2).map (fun c => digitChar c.bestMatch)) ∨
           ((decodeMiddleRecorded dd fg row rowOffset out).1 = .NoError ∧
            (decodeMiddleRecorded dd fg row rowOffset out).2.2 =
              d1 ++ [.guard off1 (fg row off1)] ++ d2 ∧
            (decodeMiddleRecorded dd fg row rowOffset out).2.1 =
              ⟨off2, out ++ (d1 ++ d2).map (fun c => digitChar c.bestMatch), cs2⟩ ∧
            (d2.length < 4 → row.size ≤ off2))))) := by
  unfold decodeMiddleRecorded decodeMiddle
  obtain ⟨calls1, off1, cs1, hlen1, hlog1, hcur1, hhead1, hnil1, h1⟩ :=
    digitLoop_spec dd row row.size 4 ⟨rowOffset, out, [0, 0, 0, 0]⟩ []
  rcases hL1 : digitLoop (recordDigit dd) row row.size 4 ⟨rowOffset, out, [0, 0, 0, 0]⟩ []
    with ⟨r1, s1, w1⟩
  rw [hL1] at h1 hlog1
  simp only [List.nil_append] at hlog1 hhead1 hnil1
  have hw1 := hlog1.symm
  subst hw1
  rcases h1 with ⟨hn, hch, hok1, hst, hend⟩ | ⟨pre, last, hcalls, hn, herr, hch, hlast, hok1, hres⟩
  · -- the first loop ran to its end
    simp only [] at hn hst hend
    subst hn
    subst hst
    simp only [recordGuard]
    have hH1 : ∀ tail : List HelperCall, rowOffset < row.size →
        (calls1 ++ tail).head? =
          some (HelperCall.digit rowOffset [0, 0, 0, 0] (dd row rowOffset [0, 0, 0, 0])) :=
      fun tail hlt => head_append_of_head _ _ _ (hhead1 (by decide) hlt)
    have hH2 : ∀ tail : List HelperCall, ¬ rowOffset < row.size →
        (calls1 ++ [HelperCall.guard off1 (fg row off1)] ++ tail).head? =
          some (HelperCall.guard rowOffset (fg row rowOffset)) := by
      intro tail hge
      have hc := hnil1 hge
      subst hc
      have ho : off1 = rowOffset := hch.1
      subst ho
      rfl
    by_cases hg : StatusIsError (fg row off1).status = true
    · rw [if_pos hg]
      exact ⟨calls1, off1, cs1, hch, hlen1, fun c hc => ⟨hok1 c hc, hcur1 c hc⟩,
        hH1 _, fun hge => by simpa using hH2 [] hge,
        Or.inr (Or.inl ⟨hend, hg, rfl, rfl, rfl⟩)⟩
    · rw [if_neg hg]
      have hgok := eq_NoError_of_not_error _ (by simpa using hg)
      obtain ⟨calls2, off2, cs2, hlen2, hlog2, hcur2, _, _, h2⟩ :=
        digitLoop_spec dd row row.size 4
          ⟨(fg row off1).rangeEnd, out ++ calls1.map (fun c => digitChar c.bestMatch), cs1⟩
          (calls1 ++ [.guard off1 (fg row off1)])
      rcases hL2 : digitLoop (recordDigit dd) row row.size 4
        ⟨(fg row off1).rangeEnd, out ++ calls1.map (fun c => digitChar c.bestMatch), cs1⟩
        (calls1 ++ [.guard off1 (fg row off1)]) with ⟨r2, s3, w3⟩
      rw [hL2] at h2 hlog2 ⊢
      simp only [] at hlog2
      have hw3 := hlog2.symm
      subst hw3
      rcases h2 with ⟨hn2, hch2, hok2, hst2, hend2⟩ |
        ⟨pre2, last2, hcalls2, hn2, herr2, hch2, hlast2, hok2, hres2⟩
      · simp only [] at hn2 hst2
        subst hn2
        subst hst2
        refine ⟨calls1, off1, cs1, hch, hlen1, fun c hc => ⟨hok1 c hc, hcur1 c hc⟩,
          fun hlt => by
            show (_ ++ _ ++ _ : List HelperCall).head? = _
            rw [List.append_assoc]
            exact hH1 _ hlt, hH2 _, Or.inr (Or.inr ⟨hend, hgok, calls2, off2, cs2, hch2, hlen2,
            fun c hc => ⟨hok2 c hc, hcur2 c hc⟩, Or.inr ⟨rfl, rfl, ?_, hend2⟩⟩)⟩
        simp
      · simp only [] at hn2 hres2
        subst hn2
        subst hcalls2
        subst hlast2
        have hl : pre2.length ≤ 4 := by
          simp at hlen2
          omega
        refine ⟨calls1, off1, cs1, hch, hlen1, fun c hc => ⟨hok1 c hc, hcur1 c hc⟩,
          fun hlt => by
            show (_ ++ _ ++ _ : List HelperCall).head? = _
            rw [List.append_assoc]
            exact hH1 _ hlt, hH2 _,
          Or.inr (Or.inr ⟨hend, hgok, pre2, off2, cs2, hch2, hl,
            fun c hc => ⟨hok2 c hc, hcur2 c (List.mem_append_left _ hc)⟩,
            Or.inl ⟨hcur2 (.digit off2 cs2 (dd row off2 cs2)) (by simp), herr2, by simp, rfl,
              ?_⟩⟩)⟩
        rw [hres2]
        simp
  · -- a digit decode of the first loop failed
    simp only [] at hn hres
    subst hn
    subst hcalls
    subst hlast
    have hl : pre.length ≤ 4 := by
      simp at hlen1
      omega
    refine ⟨pre, off1, cs1, hch, hl,
      fun c hc => ⟨hok1 c hc, hcur1 c (List.mem_append_left _ hc)⟩, ?_, ?_,
      Or.inl ⟨hcur1 (.digit off1 cs1 (dd row off1 cs1)) (by simp), herr, rfl, rfl, hres⟩⟩
    · intro hlt
      exact hhead1 (by decide) hlt
    · intro hge
      have := hnil1 hge
      simp at this

theorem digitChain_genuine (dd : BitArray → Int → List Int → DigitOutcome)
    (fg : BitArray → Int → GuardOutcome) (row : BitArray) (calls : List HelperCall) :
    ∀ (off : Int) (cs : List Int) (off' : Int) (cs' : List Int),
      digitChain dd row off cs calls off' cs' → ∀ c ∈ calls, c.genuine dd fg row := by
  induction calls with
  | nil =>
    intro off cs off' cs' _ c hc
    simp at hc
  | cons a rest ih =>
    intro off cs off' cs' h c hc
    obtain ⟨h1, h2⟩ := h
    rcases List.mem_cons.mp hc with hc | hc
    · rw [hc, h1]
      rfl
    · exact ih _ _ _ _ h2 c hc

/-- In a record that ends with `last` after calls that all returned `NoError`, a call that
returned an error status is `last`, and nothing follows it. -/
theorem split_last (good : List HelperCall) (last : HelperCall) :
    ∀ (pre : List HelperCall) (c : HelperCall) (post : List HelperCall),
      good ++ [last] = pre ++ c :: post → (∀ g ∈ good, g.status = .NoError) →
      StatusIsError c.status = true → post = [] ∧ c = last := by
  induction good with
  | nil =>
    intro pre c post h _ _
    cases pre with
    | nil =>
      simp at h
      exact ⟨h.2.symm ▸ rfl, h.1.symm⟩
    | cons a pre' =>
      simp at h
  | cons g good' ih =>
    intro pre c post h hg hc
    cases pre with
    | nil =>
      simp at h
      have := hg g (List.mem_cons_self _ _)
      rw [← h.1, this] at hc
      exact absurd hc (by decide)
    | cons a pre' =>
      simp at h
      exact ih pre' c post h.2 (fun x hx => hg x (List.mem_cons_of_mem _ hx)) hc

/-- The record of `decodeMiddle`: every entry is what the helper really returned for its
arguments; the first call is a digit decode at the starting cursor with zeroed counters when
the cursor is before the end of the row, and the guard search otherwise; and either
`NoError` is returned and every call returned `NoError`, or an error status is returned, it
is the status of the last call, and every call before it returned `NoError`. -/
theorem decodeMiddle_log (dd : BitArray → Int → List Int → DigitOutcome)
    (fg : BitArray → Int → GuardOutcome) (row : BitArray) (rowOffset : Int)
    (out : List Int) :
    (∀ c ∈ (decodeMiddleRecorded dd fg row rowOffset out).2.2, c.genuine dd fg row) ∧
    (rowOffset < row.size → (decodeMiddleRecorded dd fg row rowOffset out).2.2.head? =
      some (.digit rowOffset [0, 0, 0, 0] (dd row rowOffset [0, 0, 0, 0]))) ∧
    (¬ rowOffset < row.size → (decodeMiddleRecorded dd fg row rowOffset out).2.2.head? =
      some (.guard rowOffset (fg row rowOffset))) ∧
    (((decodeMiddleRecorded dd fg row rowOffset out).1 = .NoError ∧
      ∀ c ∈ (decodeMiddleRecorded dd fg row rowOffset out).2.2, c.status = .NoError) ∨
     (StatusIsError (decodeMiddleRecorded dd fg row rowOffset out).1 = true ∧
      ∃ good last, (decodeMiddleRecorded dd fg row rowOffset out).2.2 = good ++ [last] ∧
        last.status = (decodeMiddleRecorded dd fg row rowOffset out).1 ∧
        ∀ c ∈ good, c.status = .NoError)) := by
  obtain ⟨d1, off1, cs1, hch1, _, hok1, hh1, hh2, h⟩ :=
    decodeMiddle_spec dd fg row rowOffset out
  have hg1 := digitChain_genuine dd fg row d1 _ _ _ _ hch1
  refine ⟨?_, hh1, hh2, ?_⟩
  · rcases h with ⟨_, _, hlog, _, _⟩ | ⟨_, _, hlog, _, _⟩ |
      ⟨_, _, d2, off2, cs2, hch2, _, _, ⟨_, _, hlog, _, _⟩ | ⟨_, hlog, _, _⟩⟩
    · rw [hlog]
      intro c hc
      rcases List.mem_append.mp hc with hc | hc
      · exact hg1 c hc
      · rw [List.mem_singleton] at hc
        rw [hc]
        rfl
    · rw [hlog]
      intro c hc
      rcases List.mem_append.mp hc with hc | hc
      · exact hg1 c hc
      · rw [List.mem_singleton] at hc
        rw [hc]
        rfl
    · have hg2 := digitChain_genuine dd fg row d2 _ _ _ _ hch2
      rw [hlog]
      intro c hc
      simp only [List.mem_append, List.mem_singleton] at hc
      rcases hc with ((hc | hc) | hc) | hc
      · exact hg1 c hc
      · rw [hc]
        rfl
      · exact hg2 c hc
      · rw [hc]
        rfl
    · have hg2 := digitChain_genuine dd fg row d2 _ _ _ _ hch2
      rw [hlog]
      intro c hc
      simp only [List.mem_append, List.mem_singleton] at hc
      rcases hc with (hc | hc) | hc
      · exact hg1 c hc
      · rw [hc]
        rfl
      · exact hg2 c hc
  · rcases h with ⟨_, herr, hlog, hst, _⟩ | ⟨_, herr, hlog, hst, _⟩ |
      ⟨_, hgok, d2, off2, cs2, _, _, hok2, ⟨_, herr, hlog, hst, _⟩ | ⟨hst, hlog, _, _⟩⟩
    · right
      rw [hst]
      exact ⟨herr, d1, _, hlog, rfl, fun c hc => (hok1 c hc).1⟩
    · right
      rw [hst]
      exact ⟨herr, d1, _, hlog, rfl, fun c hc => (hok1 c hc).1⟩
    · right
      rw [hst]
      refine ⟨herr, d1 ++ [.guard off1 (fg row off1)] ++ d2,
        .digit off2 cs2 (dd row off2 cs2), hlog, rfl, ?_⟩
      intro c hc
      simp only [List.mem_append, List.mem_singleton] at hc
      rcases hc with (hc | hc) | hc
      · exact (hok1 c hc).1
      · rw [hc]
        exact hgok
      · exact (hok2 c hc).1
    · left
      refine ⟨hst, ?_⟩
      rw [hlog]
      intro c hc
      simp only [List.mem_append, List.mem_singleton] at hc
      rcases hc with (hc | hc) | hc
      · exact (hok1 c hc).1
      · rw [hc]
        exact hgok
      · exact (hok2 c hc).1

/-- C15. `decodeMiddle` fails fast, whatever the digit decoder and the guard search return.
The helper calls are recorded by the helpers themselves, each entry holding the arguments
and what the helper returned for them. The first call is the digit decode at the starting
cursor (or the guard search when the cursor is not before the end of the row). If any call
returned an error status, no further call was made and `decodeMiddle` returned exactly that
status; an error status that `decodeMiddle` returns is the status of the last call made,
every call before it having returned `NoError`; and `decodeMiddle` returns `NoError` if and
only if every call it made returned `NoError`. -/
theorem C15_decodeMiddle_fails_fast (dd : BitArray → Int → List Int → DigitOutcome)
    (fg : BitArray → Int → GuardOutcome) (row : BitArray) (rowOffset : Int)
    (resultString : List Int) :
    (∀ c ∈ (decodeMiddleRecorded dd fg row rowOffset resultString).2.2,
      c.genuine dd fg row) ∧
    (rowOffset < row.size →
      (decodeMiddleRecorded dd fg row rowOffset resultString).2.2.head? =
        some (.digit rowOffset [0, 0, 0, 0] (dd row rowOffset [0, 0, 0, 0]))) ∧
    (¬ rowOffset < row.size →
      (decodeMiddleRecorded dd fg row rowOffset resultString).2.2.head? =
        some (.guard rowOffset (fg row rowOffset))) ∧
    (∀ (pre : List HelperCall) (c : HelperCall) (post : List HelperCall),
      (decodeMiddleRecorded dd fg row rowOffset resultString).2.2 = pre ++ c :: post →
      StatusIsError c.status = true →
      post = [] ∧ (decodeMiddleRecorded dd fg row rowOffset resultString).1 = c.status) ∧
    (StatusIsError (decodeMiddleRecorded dd fg row rowOffset resultString).1 = true →
      ∃ pre last, (decodeMiddleRecorded dd fg row rowOffset resultString).2.2 = pre ++ [last] ∧
        last.status = (decodeMiddleRecorded dd fg row rowOffset resultString).1 ∧
        ∀ c ∈ pre, c.status = .NoError) ∧
    ((decodeMiddleRecorded dd fg row rowOffset resultString).1 = .NoError ↔
      ∀ c ∈ (decodeMiddleRecorded dd fg row rowOffset resultString).2.2,
        c.status = .NoError) ∧
    ((decodeMiddleRecorded dd fg row rowOffset resultString).1 = .NoError ∨
      StatusIsError (decodeMiddleRecorded dd fg row rowOffset resultString).1 = true) := by
  obtain ⟨hgen, hh1, hh2, h⟩ := decodeMiddle_log dd fg row rowOffset resultString
  refine ⟨hgen, hh1, hh2, ?_, ?_, ?_, ?_⟩
  · intro pre c post hsplit hc
    rcases h with ⟨_, hall⟩ | ⟨_, good, last, hlog, hlast, hgood⟩
    · have := hall c (by rw [hsplit]; simp)
      rw [this] at hc
      exact absurd hc (by decide)
    · rw [hlog] at hsplit
      obtain ⟨hp, hcl⟩ := split_last good last pre c post hsplit hgood hc
      exact ⟨hp, by rw [hcl, hlast]⟩
  · intro herr
    rcases h with ⟨hst, _⟩ | ⟨_, good, last, hlog, hlast, hgood⟩
    · rw [hst] at herr
      exact absurd herr (by decide)
    · exact ⟨good, last, hlog, hlast, hgood⟩
  · rcases h with ⟨hst, hall⟩ | ⟨herr, good, last, hlog, hlast, _⟩
    · exact ⟨fun _ => hall, fun _ => hst⟩
    · constructor
      · intro hst
        rw [hst] at herr
        exact absurd herr (by decide)
      · intro hall
        rw [← hlast]
        exact hall last (by rw [hlog]; simp)
  · rcases h with ⟨hst, _⟩ | ⟨herr, _⟩
    · exact Or.inl hst
    · exact Or.inr herr

/-- C16 (as stated) fails: on a row of 47 modules, with a digit decoder that accepts a digit
wherever 7 modules remain and a guard search that finds a 5-module guard, `decodeMiddle`
started at cursor 0 returns `NoError` after 6 digit decodes and 6 appended characters, not 8:
the second loop stops when the cursor reaches the end of the row. -/
theorem C16_counterexample :
    (decodeMiddleRecorded sampleDecodeDigit sampleFindGuardPattern (BitArray.new 47) 0 []).1 =
      .NoError ∧
    (decodeMiddleRecorded sampleDecodeDigit sampleFindGuardPattern (BitArray.new 47) 0
      []).2.1.resultString = [48, 55, 52, 49, 51, 48] ∧
    (decodeMiddleRecorded sampleDecodeDigit sampleFindGuardPattern (BitArray.new 47) 0
      []).2.1.rowOffset = (BitArray.new 47).size ∧
    ((decodeMiddleRecorded sampleDecodeDigit sampleFindGuardPattern (BitArray.new 47) 0
      []).2.2.map HelperCall.rowOffset) = [0, 7, 14, 21, 28, 33, 40] := by
  decide

/-- C16 (amended). Whatever the digit decoder and the guard search return, whenever
`decodeMiddle` returns `NoError` the helper calls that were made are: a chain of at most 4
digit decodes from the starting cursor, the guard search at the cursor after them, and a
chain of at most 4 digit decodes from the end of the guard; every call returned `NoError`
and every digit decode was made with the cursor before the end of the row. The output string
is its initial content followed by one character per digit decode, in call order, each being
`'0'` plus the digit value that the digit decoder reported for that call. A group has fewer
than 4 digits only if the cursor after it is at or beyond the end of the row, and exactly 8
characters are appended if and only if both groups have 4 digits. -/
theorem C16_decodeMiddle_output (dd : BitArray → Int → List Int → DigitOutcome)
    (fg : BitArray → Int → GuardOutcome) (row : BitArray) (rowOffset : Int)
    (resultString : List Int)
    (hok : (decodeMiddleRecorded dd fg row rowOffset resultString).1 = .NoError) :
    ∃ (d1 d2 : List HelperCall) (off1 off2 : Int) (cs1 cs2 : List Int),
      (decodeMiddleRecorded dd fg row rowOffset resultString).2.2 =
        d1 ++ [.guard off1 (fg row off1)] ++ d2 ∧
      digitChain dd row rowOffset [0, 0, 0, 0] d1 off1 cs1 ∧
      (fg row off1).status = .NoError ∧
      digitChain dd row (fg row off1).rangeEnd cs1 d2 off2 cs2 ∧
      (∀ c ∈ d1 ++ d2, c.status = .NoError ∧ c.rowOffset < row.size ∧
        c.bestMatch = (dd row c.rowOffset c.counters).bestMatch) ∧
      d1.length ≤ 4 ∧ d2.length ≤ 4 ∧
      (decodeMiddleRecorded dd fg row rowOffset resultString).2.1.resultString =
        resultString ++ (d1 ++ d2).map (fun c => digitChar c.bestMatch) ∧
      (decodeMiddleRecorded dd fg row rowOffset resultString).2.1.rowOffset = off2 ∧
      (d1.length < 4 → row.size ≤ off1) ∧
      (d2.length < 4 → row.size ≤ off2) ∧
      ((decodeMiddleRecorded dd fg row rowOffset resultString).2.1.resultString.length =
          resultString.length + 8 ↔ d1.length = 4 ∧ d2.length = 4) := by
  obtain ⟨d1, off1, cs1, hch1, hl1, hok1, _, _, h⟩ :=
    decodeMiddle_spec dd fg row rowOffset resultString
  rcases h with ⟨_, herr, _, hst, _⟩ | ⟨_, herr, _, hst, _⟩ |
    ⟨hend1, hgok, d2, off2, cs2, hch2, hl2, hok2, ⟨_, herr, _, hst, _⟩ | ⟨_, hlog, hfin, hend2⟩⟩
  · rw [hok] at hst
    rw [← hst] at herr
    exact absurd herr (by decide)
  · rw [hok] at hst
    rw [← hst] at herr
    exact absurd herr (by decide)
  · rw [hok] at hst
    rw [← hst] at herr
    exact absurd herr (by decide)
  · have hg1 := digitChain_genuine dd fg row d1 _ _ _ _ hch1
    have hg2 := digitChain_genuine dd fg row d2 _ _ _ _ hch2
    have hbm : ∀ c : HelperCall, c.genuine dd fg row → c.bestMatch =
        (dd row c.rowOffset c.counters).bestMatch ∨ ∃ off g, c = .guard off g := by
      intro c hc
      cases c with
      | digit off cs r =>
        left
        have : r = dd row off cs := hc
        rw [this]
        rfl
      | guard off g => exact Or.inr ⟨off, g, rfl⟩
    have hdig : ∀ (l : List HelperCall) (a b : Int) (x y : List Int),
        digitChain dd row a x l b y → ∀ c ∈ l, ¬ ∃ off g, c = HelperCall.guard off g := by
      intro l
      induction l with
      | nil =>
        intro a b x y _ c hc
        simp at hc
      | cons e rest ih =>
        intro a b x y hch c hc
        rcases List.mem_cons.mp hc with hc | hc
        · rw [hc, hch.1]
          rintro ⟨off, g, hcontra⟩
          exact HelperCall.noConfusion hcontra
        · exact ih _ _ _ _ hch.2 c hc
    refine ⟨d1, d2, off1, off2, cs1, cs2, hlog, hch1, hgok, hch2, ?_, hl1, hl2, ?_, ?_, hend1,
      hend2, ?_⟩
    · intro c hc
      rcases List.mem_append.mp hc with hc | hc
      · refine ⟨(hok1 c hc).1, (hok1 c hc).2, ?_⟩
        rcases hbm c (hg1 c hc) with hb | hb
        · exact hb
        · exact absurd hb (hdig d1 _ _ _ _ hch1 c hc)
      · refine ⟨(hok2 c hc).1, (hok2 c hc).2, ?_⟩
        rcases hbm c (hg2 c hc) with hb | hb
        · exact hb
        · exact absurd hb (hdig d2 _ _ _ _ hch2 c hc)
    · rw [hfin]
    · rw [hfin]
    · rw [hfin]
      simp only [List.length_append, List.length_map]
      omega

/-- Witness for C16 (amended): on a row of 61 modules the sample helpers decode two full
groups of 4 digits; 9 helper calls are made and the 8 characters `'0' + digit` are appended
to the initial content. -/
theorem C16_decodeMiddle_output_witness :
    (decodeMiddleRecorded sampleDecodeDigit sampleFindGuardPattern (BitArray.new 61) 0
      [65]).1 = .NoError ∧
    (decodeMiddleRecorded sampleDecodeDigit sampleFindGuardPattern (BitArray.new 61) 0
      [65]).2.1.resultString = [65, 48, 55, 52, 49, 51, 48, 55, 52] ∧
    ((decodeMiddleRecorded sampleDecodeDigit sampleFindGuardPattern (BitArray.new 61) 0
      [65]).2.2.map HelperCall.rowOffset) = [0, 7, 14, 21, 28, 33, 40, 47, 54] ∧
    ∃ (d1 d2 : List HelperCall),
      d1.length ≤ 4 ∧ d2.length ≤ 4 ∧
      (decodeMiddleRecorded sampleDecodeDigit sampleFindGuardPattern (BitArray.new 61) 0
        [65]).2.1.resultString = [65] ++ (d1 ++ d2).map (fun c => digitChar c.bestMatch) ∧
      ((decodeMiddleRecorded sampleDecodeDigit sampleFindGuardPattern (BitArray.new 61) 0
        [65]).2.1.resultString.length = [65].length + 8 ↔ d1.length = 4 ∧ d2.length = 4) :=
  ⟨by decide, by decide, by decide, by
    obtain ⟨d1, d2, _, _, _, _, _, _, _, _, _, h1, h2, h3, _, _, _, h4⟩ :=
      C16_decodeMiddle_output sampleDecodeDigit sampleFindGuardPattern (BitArray.new 61) 0 [65]
        (by decide)
    exact ⟨d1, d2, h1, h2, h3, h4⟩⟩

/-! ## Code 39 writer -/

theorem set_at_boundary (pre rest : List Bool) (r c : Bool) :
    (pre ++ r :: rest).set pre.length c = pre ++ c :: rest := by
  induction pre with
  | nil => rfl
  | cons a t ih => simp [List.set, ih]

/-- The inner loop of `AppendPattern`: `n` writes from position `pre.length` on, into a
buffer with at least `n` cells from there, all inside the buffer and in increasing order. -/
theorem writeRun_spec (color : Bool) :
    ∀ (n : Nat) (pre rest : List Bool), n ≤ rest.length →
      writeRun ⟨pre ++ rest, List.range pre.length⟩ (pre.length : Int) color n =
        .ok ⟨pre ++ List.replicate n color ++ rest.drop n, List.range (pre.length + n)⟩ := by
  intro n
  induction n with
  | zero =>
    intro pre rest _
    simp [writeRun]
  | succ n ih =>
    intro pre rest hn
    cases rest with
    | nil => simp at hn
    | cons r rest' =>
      unfold writeRun
      have hin : (0 : Int) ≤ (pre.length : Int) ∧
          (pre.length : Int) < ((pre ++ r :: rest').length : Nat) := by
        simp only [List.length_append, List.length_cons]
        omega
      rw [if_pos hin]
      have hcast : ((pre.length : Nat) : Int).toNat = pre.length := by omega
      simp only [hcast]
      rw [set_at_boundary]
      have h1 := ih (pre ++ [color]) rest' (by simpa using hn)
      have e1 : pre ++ color :: rest' = (pre ++ [color]) ++ rest' := by simp
      have e2 : List.range pre.length ++ [pre.length] = List.range (pre ++ [color]).length := by
        simp [List.range_succ]
      have e3 : ((pre.length : Nat) : Int) + 1 = (((pre ++ [color]).length : Nat) : Int) := by
        simp
      have hA : (pre ++ [color]) ++ List.replicate n color ++ List.drop n rest' =
          pre ++ List.replicate (n + 1) color ++ List.drop (n + 1) (r :: rest') := by
        simp [List.replicate_succ]
      have hB : (pre ++ [color]).length + n = pre.length + (n + 1) := by
        simp only [List.length_append, List.length_singleton]
        omega
      rw [e1, e2, e3, h1, hA, hB]

theorem expandRuns_length (pattern : List Int) (color : Bool) :
    (expandRuns pattern color).length = (pattern.map Int.toNat).sum := by
  induction pattern generalizing color with
  | nil => rfl
  | cons w rest ih => simp [expandRuns, ih]

/-- `AppendPattern` on a buffer whose first `pre.length` cells have been written, with room
for the whole pattern: it completes, writes the runs of the pattern right after `pre`, each
position once and in increasing order, and returns the sum of the widths. -/
theorem AppendPattern_spec :
    ∀ (pattern : List Int) (color : Bool) (pre rest : List Bool),
      (∀ w ∈ pattern, 0 ≤ w) → (pattern.map Int.toNat).sum ≤ rest.length →
      AppendPattern ⟨pre ++ rest, List.range pre.length⟩ (pre.length : Int) pattern color =
        .ok (⟨pre ++ expandRuns pattern color ++ rest.drop (pattern.map Int.toNat).sum,
          List.range (pre.length + (pattern.map Int.toNat).sum)⟩, pattern.sum) := by
  intro pattern
  induction pattern with
  | nil =>
    intro color pre rest _ _
    simp [AppendPattern, expandRuns]
  | cons w ws ih =>
    intro color pre rest hpos hfit
    have hw0 : 0 ≤ w := hpos w (List.mem_cons_self _ _)
    simp only [List.map_cons, List.sum_cons] at hfit
    unfold AppendPattern
    rw [writeRun_spec color w.toNat pre rest (by omega)]
    simp only []
    have h1 := ih (!color) (pre ++ List.replicate w.toNat color) (rest.drop w.toNat)
      (fun v hv => hpos v (List.mem_cons_of_mem _ hv))
      (by rw [List.length_drop]; omega)
    have e1 : ((pre.length : Nat) : Int) + w =
        (((pre ++ List.replicate w.toNat color).length : Nat) : Int) := by
      simp only [List.length_append, List.length_replicate]
      omega
    have e2 : pre.length + w.toNat = (pre ++ List.replicate w.toNat color).length := by
      simp
    rw [e1, e2, h1]
    simp only [expandRuns, List.map_cons, List.sum_cons, List.append_assoc, List.drop_drop,
      List.length_append, List.length_replicate]
    rw [Nat.add_assoc]

theorem Accumulate_eq (container : List Int) (init : Int) :
    Accumulate container init = init + container.sum := by
  unfold Accumulate
  induction container generalizing init with
  | nil => simp
  | cons a t ih =>
    simp only [List.foldl_cons, List.sum_cons]
    rw [ih]
    omega

/-- The encoding table: every entry has exactly 3 wide and 6 narrow elements, so its pattern
is 12 modules wide, and the runs that `ToIntArray` produces expand to the spec's pattern. -/
theorem table_facts : ∀ e ∈ CHARACTER_ENCODINGS,
    (ToIntArray e).sum = 12 ∧ ((ToIntArray e).map Int.toNat).sum = 12 ∧
    (∀ w ∈ ToIntArray e, 0 ≤ w) ∧
    ((ToIntArray e).filter (fun w => w == 2)).length = 3 ∧
    ((ToIntArray e).filter (fun w => w == 1)).length = 6 ∧
    expandRuns (ToIntArray e) true = specPattern e := by
  decide

theorem asterisk_mem : ASTERISK_ENCODING ∈ CHARACTER_ENCODINGS := by
  decide

theorem codeEntry_mem (c : Nat)
    (h : 0 ≤ IndexOf ALPHABET_STRING c ∧ IndexOf ALPHABET_STRING c < 44) :
    codeEntry c ∈ CHARACTER_ENCODINGS ∧
      rawAt CHARACTER_ENCODINGS (IndexOf ALPHABET_STRING c) = .ok (codeEntry c) := by
  have hlen : CHARACTER_ENCODINGS.length = 44 := rfl
  have hi : (IndexOf ALPHABET_STRING c).toNat < CHARACTER_ENCODINGS.length := by
    rw [hlen]; omega
  constructor
  · unfold codeEntry
    rw [List.getD_eq_getElem?_getD, List.getElem?_eq_getElem hi]
    exact List.getElem_mem hi
  · rw [rawAt_eq _ _ ⟨h.1, by rw [hlen]; omega⟩]
    rfl

/-- The first loop of `encode` on characters that are all found in the table: 12 modules are
added per character. -/
theorem width_loop (cs : List Nat)
    (h : ∀ c ∈ cs, 0 ≤ IndexOf ALPHABET_STRING c ∧ IndexOf ALPHABET_STRING c < 44) :
    ∀ init : Int, cs.foldlM widthStep init = .ok (init + 12 * (cs.length : Int)) := by
  induction cs with
  | nil =>
    intro init
    simp [List.foldlM]
    rfl
  | cons c t ih =>
    intro init
    have hc := h c (List.mem_cons_self _ _)
    obtain ⟨hmem, hraw⟩ := codeEntry_mem c hc
    have hstep : widthStep init c = .ok (init + 12) := by
      unfold widthStep
      rw [if_neg (by omega), hraw]
      simp only []
      rw [Accumulate_eq, (table_facts _ hmem).1]
    rw [List.foldlM_cons]
    show (widthStep init c >>= fun v => List.foldlM widthStep v t) = _
    rw [hstep]
    show List.foldlM widthStep (init + 12) t = _
    rw [ih (fun d hd => h d (List.mem_cons_of_mem _ hd))]
    simp only [List.length_cons, Nat.cast_add, Nat.cast_one]
    congr 1
    omega

/-- `AppendPattern` in the form used to chain calls: the cells written so far are `pre`, and
afterwards they are `pre` followed by the expansion of the pattern. -/
theorem AppendPattern_step (pattern : List Int) (color : Bool) (pre rest : List Bool)
    (hpos : ∀ w ∈ pattern, 0 ≤ w) (hfit : (pattern.map Int.toNat).sum ≤ rest.length)
    (pos : Int) (hp : pos = (pre.length : Int)) :
    AppendPattern ⟨pre ++ rest, List.range pre.length⟩ pos pattern color =
      .ok (⟨(pre ++ expandRuns pattern color) ++ rest.drop (pattern.map Int.toNat).sum,
        List.range (pre ++ expandRuns pattern color).length⟩, pattern.sum) := by
  rw [hp, AppendPattern_spec pattern color pre rest hpos hfit, List.length_append,
    expandRuns_length]

theorem expandRuns_gap : expandRuns [1] false = [false] := rfl

theorem entry_runs (e : Nat) (he : e ∈ CHARACTER_ENCODINGS) :
    (expandRuns (ToIntArray e) true).length = 12 := by
  rw [expandRuns_length, (table_facts e he).2.1]

/-- One iteration of the second loop of `encode`: the pattern of the character and one white
module are written right after the cells written so far. -/
theorem renderStep_spec (c : Nat)
    (h : 0 ≤ IndexOf ALPHABET_STRING c ∧ IndexOf ALPHABET_STRING c < 44)
    (pre rest : List Bool) (hfit : 13 ≤ rest.length) :
    renderStep (⟨pre ++ rest, List.range pre.length⟩, (pre.length : Int)) c =
      .ok (⟨(pre ++ (expandRuns (ToIntArray (codeEntry c)) true ++ [false])) ++ rest.drop 13,
        List.range (pre ++ (expandRuns (ToIntArray (codeEntry c)) true ++ [false])).length⟩,
        ((pre ++ (expandRuns (ToIntArray (codeEntry c)) true ++ [false])).length : Int)) := by
  obtain ⟨hmem, hraw⟩ := codeEntry_mem c h
  obtain ⟨hsum, hnat, hpos, _, _, _⟩ := table_facts _ hmem
  have hlen := entry_runs _ hmem
  unfold renderStep
  rw [hraw]
  simp only []
  rw [AppendPattern_step (ToIntArray (codeEntry c)) true pre rest hpos (by omega) _ rfl]
  simp only []
  rw [hnat, hsum, AppendPattern_step [1] false (pre ++ expandRuns (ToIntArray (codeEntry c)) true)
    (rest.drop 12) (by decide) (by simp; omega) _ (by
      simp only [List.length_append, hlen]
      push_cast
      ring)]
  simp only [expandRuns_gap, List.map_cons, List.map_nil, List.sum_cons, List.sum_nil,
    List.drop_drop, List.length_append, hlen, List.append_assoc, List.length_cons,
    List.length_nil]
  congr 2

/-- The second loop of `encode` on characters that are all found in the table. -/
theorem render_loop (cs : List Nat)
    (h : ∀ c ∈ cs, 0 ≤ IndexOf ALPHABET_STRING c ∧ IndexOf ALPHABET_STRING c < 44) :
    ∀ (pre rest : List Bool), 13 * cs.length ≤ rest.length →
      cs.foldlM renderStep (⟨pre ++ rest, List.range pre.length⟩, (pre.length : Int)) =
        .ok (⟨(pre ++
            (cs.map (fun c => expandRuns (ToIntArray (codeEntry c)) true ++ [false])).flatten) ++
            rest.drop (13 * cs.length),
          List.range (pre ++
            (cs.map (fun c => expandRuns (ToIntArray (codeEntry c)) true ++
              [false])).flatten).length⟩,
          ((pre ++ (cs.map (fun c => expandRuns (ToIntArray (codeEntry c)) true ++
              [false])).flatten).length : Int)) := by
  induction cs with
  | nil =>
    intro pre rest _
    simp [List.foldlM]
    rfl
  | cons c t ih =>
    intro pre rest hfit
    simp only [List.length_cons] at hfit
    rw [List.foldlM_cons]
    show (renderStep _ c >>= fun v => List.foldlM renderStep v t) = _
    rw [renderStep_spec c (h c (List.mem_cons_self _ _)) pre rest (by omega)]
    show List.foldlM renderStep _ t = _
    rw [ih (fun d hd => h d (List.mem_cons_of_mem _ hd)) _ _ (by
      rw [List.length_drop]; omega)]
    simp only [List.map_cons, List.flatten_cons, List.append_assoc, List.drop_drop,
      List.length_cons]
    have e : 13 + 13 * t.length = 13 * (t.length + 1) := by ring
    rw [e]

theorem rendered_length (cs : List Nat)
    (h : ∀ c ∈ cs, 0 ≤ IndexOf ALPHABET_STRING c ∧ IndexOf ALPHABET_STRING c < 44) :
    ((cs.map (fun c => expandRuns (ToIntArray (codeEntry c)) true ++ [false])).flatten).length =
      13 * cs.length := by
  induction cs with
  | nil => rfl
  | cons c t ih =>
    have hmem := (codeEntry_mem c (h c (List.mem_cons_self _ _))).1
    simp only [List.map_cons, List.flatten_cons, List.length_append, List.length_cons,
      List.length_nil, entry_runs _ hmem, ih (fun d hd => h d (List.mem_cons_of_mem _ hd))]
    omega

/-- `encode` on a text that it accepts: it completes, the buffer has `25 + 13 n` cells, holds
the start pattern, a gap, the pattern and a gap for each character, and the stop pattern, and
the positions `0 .. 25 + 13 n - 1` were written once each, in increasing order. -/
theorem encode_spec (contents : List Nat) (h : Code39Writer.accepts contents) :
    Code39Writer.encode contents =
      .ok ⟨renderedModules contents, List.range (25 + 13 * contents.length)⟩ ∧
    (renderedModules contents).length = 25 + 13 * contents.length := by
  obtain ⟨h1, h80, hall⟩ := h
  have hast := table_facts _ asterisk_mem
  have hastlen := entry_runs _ asterisk_mem
  have hbody := rendered_length contents hall
  have hlen : (renderedModules contents).length = 25 + 13 * contents.length := by
    unfold renderedModules
    simp only [List.length_append, hastlen, hbody, List.length_cons, List.length_nil]
    omega
  refine ⟨?_, hlen⟩
  unfold Code39Writer.encode
  rw [if_neg (by omega), if_neg (by omega), width_loop contents hall]
  simp only []
  have hN : (24 + 1 + (contents.length : Int) + 12 * (contents.length : Int)).toNat =
      25 + 13 * contents.length := by omega
  rw [hN]
  have hbuf : (⟨List.replicate (25 + 13 * contents.length) false, []⟩ : ModuleBuffer) =
      ⟨([] : List Bool) ++ List.replicate (25 + 13 * contents.length) false,
        List.range ([] : List Bool).length⟩ := rfl
  rw [hbuf, AppendPattern_step (ToIntArray ASTERISK_ENCODING) true []
    (List.replicate (25 + 13 * contents.length) false) hast.2.2.1 (by
      rw [hast.2.1, List.length_replicate]; omega) 0 rfl]
  simp only []
  rw [hast.1, hast.2.1, AppendPattern_step [1] false
    ([] ++ expandRuns (ToIntArray ASTERISK_ENCODING) true)
    (List.drop 12 (List.replicate (25 + 13 * contents.length) false)) (by decide) (by
      simp only [List.length_drop, List.length_replicate, List.map_cons, List.map_nil,
        List.sum_cons, List.sum_nil]
      omega) 12 (by simp only [List.nil_append, hastlen]; rfl)]
  simp only []
  have hpos : (12 : Int) + [(1 : Int)].sum =
      ((([] ++ expandRuns (ToIntArray ASTERISK_ENCODING) true) ++
        expandRuns [1] false).length : Nat) := by
    simp only [List.nil_append, List.length_append, hastlen, expandRuns_gap]
    rfl
  rw [hpos, render_loop contents hall _ _ (by
    simp only [List.length_drop, List.length_replicate, List.map_cons, List.map_nil,
      List.sum_cons, List.sum_nil]
    omega)]
  simp only []
  rw [AppendPattern_step (ToIntArray ASTERISK_ENCODING) true _ _ hast.2.2.1 (by
    simp only [List.length_drop, List.length_replicate, List.map_cons, List.map_nil,
      List.sum_cons, List.sum_nil, hast.2.1]
    omega) _ rfl]
  have hdrop : List.drop (List.map Int.toNat (ToIntArray ASTERISK_ENCODING)).sum
      (List.drop (13 * contents.length)
        (List.drop (List.map Int.toNat [(1 : Int)]).sum
          (List.drop 12 (List.replicate (25 + 13 * contents.length) false)))) = [] := by
    apply List.drop_eq_nil_of_le
    simp only [List.length_drop, List.length_replicate, List.map_cons, List.map_nil,
      List.sum_cons, List.sum_nil, hast.2.1]
    omega
  have hcells : ((([] ++ expandRuns (ToIntArray ASTERISK_ENCODING) true) ++
      expandRuns [1] false) ++
      (contents.map (fun c => expandRuns (ToIntArray (codeEntry c)) true ++ [false])).flatten) ++
      expandRuns (ToIntArray ASTERISK_ENCODING) true = renderedModules contents := by
    unfold renderedModules
    simp only [expandRuns_gap, List.nil_append, List.append_assoc]
  rw [hdrop, List.append_nil, hcells, hlen]

/-- The characters of the alphabet are found by `IndexOf` at their own position, inside the
encoding table. -/
theorem alphabet_facts : ∀ c ∈ ALPHABET_STRING,
    0 ≤ IndexOf ALPHABET_STRING (c : Int) ∧ IndexOf ALPHABET_STRING (c : Int) < 44 ∧
    codeEntry c = tableEntry c := by
  decide

theorem accepts_of_alphabet (contents : List Nat) (h1 : 1 ≤ contents.length)
    (h80 : contents.length ≤ 80) (hall : ∀ c ∈ contents, c ∈ ALPHABET_STRING) :
    Code39Writer.accepts contents :=
  ⟨h1, h80, fun c hc => ⟨(alphabet_facts c (hall c hc)).1, (alphabet_facts c (hall c hc)).2.1⟩⟩

/-- On a text over the alphabet, the module sequence that `encode` writes is the spec's. -/
theorem renderedModules_eq_spec (contents : List Nat)
    (hall : ∀ c ∈ contents, c ∈ ALPHABET_STRING) :
    renderedModules contents = specModules contents := by
  have hast : expandRuns (ToIntArray ASTERISK_ENCODING) true =
      specPattern (tableEntry (Char.toNat '*')) :=
    (table_facts _ asterisk_mem).2.2.2.2.2
  have hbody : contents.map (fun c => expandRuns (ToIntArray (codeEntry c)) true ++ [false]) =
      contents.map (fun c => specPattern (tableEntry c) ++ [false]) := by
    apply List.map_congr_left
    intro c hc
    obtain ⟨h0, h1, h2⟩ := alphabet_facts c (hall c hc)
    have hmem := (codeEntry_mem c ⟨h0, h1⟩).1
    rw [(table_facts _ hmem).2.2.2.2.2, h2]
  unfold renderedModules specModules
  rw [hast, hbody]

set_option maxRecDepth 100000 in
/-- C12 (defect of the code). `encode` does not reject every character outside the alphabet:
the NUL character is found by `strchr` at the terminator, offset 44, which is past the end of
the 44-entry encoding table, so no InvalidArgument is raised and the table is read out of
bounds; and the character U+0141, outside the alphabet, is converted to `char` and encoded
like "A". A lowercase letter is rejected. -/
theorem C12_encode_accepts_characters_outside_alphabet :
    (0 : Nat) ∉ ALPHABET_STRING ∧ (321 : Nat) ∉ ALPHABET_STRING ∧
    IndexOf ALPHABET_STRING 0 = 44 ∧ CHARACTER_ENCODINGS.length = 44 ∧
    Code39Writer.encode [0] = .error .undefinedBehaviour ∧
    IndexOf ALPHABET_STRING 321 = 10 ∧
    Code39Writer.encode [321] = Code39Writer.encode [65] ∧
    Code39Writer.encode [321] ≠ .error .invalidArgument ∧
    Code39Writer.encode [97] = .error .invalidArgument := by
  decide

/-- C13. Code 39 buffer sizing is exact: for every text that `encode` accepts, of `n`
characters, the pre-computed `codeWidth` is `25 + 13 n`, `encode` completes, the buffer has
that many modules, and the rendering pass writes exactly the positions `0 .. codeWidth - 1`,
each once; every entry of the encoding table has 3 wide and 6 narrow elements, width 12; for
"CODE39" the width is 103. -/
theorem C13_code39_buffer_sizing (contents : List Nat) (h : Code39Writer.accepts contents) :
    contents.foldlM widthStep (24 + 1 + (contents.length : Int)) =
      .ok ((25 + 13 * contents.length : Nat) : Int) ∧
    (∃ buf, Code39Writer.encode contents = .ok buf ∧
      buf.cells.length = 25 + 13 * contents.length ∧
      buf.written = List.range (25 + 13 * contents.length)) ∧
    (∀ e ∈ CHARACTER_ENCODINGS,
      ((ToIntArray e).filter (fun w => w == 2)).length = 3 ∧
      ((ToIntArray e).filter (fun w => w == 1)).length = 6 ∧ (ToIntArray e).sum = 12) ∧
    (∃ buf, Code39Writer.encode ("CODE39".toList.map Char.toNat) = .ok buf ∧
      buf.cells.length = 103) := by
  obtain ⟨hrun, hlen⟩ := encode_spec contents h
  refine ⟨?_, ⟨_, hrun, hlen, rfl⟩, ?_, ?_⟩
  · rw [width_loop contents h.2.2]
    congr 1
    push_cast
    ring
  · intro e he
    exact ⟨(table_facts e he).2.2.2.1, (table_facts e he).2.2.2.2.1, (table_facts e he).1⟩
  · obtain ⟨hrun', hlen'⟩ := encode_spec ("CODE39".toList.map Char.toNat) (by decide)
    exact ⟨_, hrun', hlen'⟩

/-- Witness for C13: the text "CODE39". -/
theorem C13_code39_buffer_sizing_witness :
    Code39Writer.accepts [67, 79, 68, 69, 51, 57] ∧
    ∃ buf, Code39Writer.encode [67, 79, 68, 69, 51, 57] = .ok buf ∧
      buf.cells.length = 25 + 13 * [67, 79, 68, 69, 51, 57].length ∧
      buf.written = List.range (25 + 13 * [67, 79, 68, 69, 51, 57].length) :=
  ⟨by decide, (C13_code39_buffer_sizing [67, 79, 68, 69, 51, 57] (by decide)).2.1⟩

/-- C14. Code 39 module sequence: for every text `c1 .. cn` of 1 to 80 characters of the
alphabet, `encode` completes and the module sequence handed to the renderer is
`P('*') ++ [space] ++ P(c1) ++ [space] ++ ... ++ P(cn) ++ [space] ++ P('*')`, where `P`
expands the table entry of a character as the spec describes; the start/stop pattern is the
entry of '*', `0x094`; the sequence begins and ends with a bar. -/
theorem C14_code39_module_sequence (contents : List Nat) (h1 : 1 ≤ contents.length)
    (h80 : contents.length ≤ 80) (hall : ∀ c ∈ contents, c ∈ ALPHABET_STRING) :
    (∃ buf, Code39Writer.encode contents = .ok buf ∧ buf.cells = specModules contents) ∧
    ASTERISK_ENCODING = 0x094 ∧ tableEntry (Char.toNat '*') = 0x094 ∧
    (specModules contents).head? = some true ∧
    (specModules contents).getLast? = some true := by
  have hacc := accepts_of_alphabet contents h1 h80 hall
  obtain ⟨hrun, _⟩ := encode_spec contents hacc
  have hp : specPattern (tableEntry (Char.toNat '*')) =
      [true, false, false, true, false, true, true, false, true, true, false, true] := by
    decide
  refine ⟨⟨_, hrun, renderedModules_eq_spec contents hall⟩, by decide, by decide, ?_, ?_⟩
  · unfold specModules
    rw [hp]
    rfl
  · unfold specModules
    rw [hp, List.getLast?_append_of_ne_nil _ (by simp)]
    rfl

/-- Witness for C14: the text "CODE39". -/
theorem C14_code39_module_sequence_witness :
    (∀ c ∈ [67, 79, 68, 69, 51, 57], c ∈ ALPHABET_STRING) ∧
    ∃ buf, Code39Writer.encode [67, 79, 68, 69, 51, 57] = .ok buf ∧
      buf.cells = specModules [67, 79, 68, 69, 51, 57] :=
  ⟨by decide,
    (C14_code39_module_sequence [67, 79, 68, 69, 51, 57] (by decide) (by decide) (by decide)).1⟩

/-! ## Storage shape -/

/-- A property kept by every iteration that completes holds after a `forLoop` that
completes. -/
theorem forLoop_keeps {σ : Type} (lo hi : Int) (body : σ → Int → Except Err σ) (Q : σ → Prop)
    (hstep : ∀ i t t', body t i = .ok t' → Q t → Q t') (s t : σ) (h0 : Q s)
    (hrun : forLoop lo hi body s = .ok t) : Q t := by
  unfold forLoop at hrun
  generalize List.range (hi - lo).toNat = l at hrun
  induction l generalizing s with
  | nil =>
    injection hrun with h
    rw [← h]
    exact h0
  | cons a l ih =>
    rw [List.foldlM_cons] at hrun
    cases hb : body s (lo + (a : Int)) with
    | error e =>
      rw [hb] at hrun
      exact Except.noConfusion hrun
    | ok s' =>
      rw [hb] at hrun
      exact ih s' (hstep _ _ _ hb h0) hrun

theorem sameShape_refl (m : BitMatrix) : m.sameShape m :=
  ⟨rfl, rfl, rfl, rfl⟩

theorem sameShape_trans (a b c : BitMatrix) (h1 : a.sameShape b) (h2 : b.sameShape c) :
    a.sameShape c :=
  ⟨h1.1.trans h2.1, h1.2.1.trans h2.2.1, h1.2.2.1.trans h2.2.2.1, h1.2.2.2.trans h2.2.2.2⟩

theorem result_ok {σ : Type} (o : Outcome σ) (t : σ) (h : o.result = .ok t) :
    o.err = none ∧ t = o.state := by
  unfold Outcome.result at h
  cases he : o.err with
  | none =>
    rw [he] at h
    injection h with h
    exact ⟨rfl, h.symm⟩
  | some e =>
    rw [he] at h
    exact Except.noConfusion h

theorem set_shape (m : BitMatrix) (x y : Int) : (m.set x y).state.sameShape m := by
  unfold BitMatrix.set
  cases vecAt m.bits (m.wordIndex x y) with
  | error e => exact sameShape_refl m
  | ok w => exact ⟨rfl, rfl, rfl, by simp⟩

theorem unset_shape (m : BitMatrix) (x y : Int) : (m.unset x y).state.sameShape m := by
  unfold BitMatrix.unset
  cases vecAt m.bits (m.wordIndex x y) with
  | error e => exact sameShape_refl m
  | ok w => exact ⟨rfl, rfl, rfl, by simp⟩

theorem flip_shape (m : BitMatrix) (x y : Int) : (m.flip x y).state.sameShape m := by
  unfold BitMatrix.flip
  cases vecAt m.bits (m.wordIndex x y) with
  | error e => exact sameShape_refl m
  | ok w => exact ⟨rfl, rfl, rfl, by simp⟩

theorem rawModify_length (bits bits' : List Nat) (i : Int) (f : Nat → Nat)
    (h : rawModify bits i f = .ok bits') : bits'.length = bits.length := by
  unfold rawModify at h
  split_ifs at h
  injection h with h
  rw [← h]
  simp

theorem setRegion_shape (m : BitMatrix) (left top width height : Int) :
    (m.setRegion left top width height).state.sameShape m := by
  unfold BitMatrix.setRegion
  simp only []
  split_ifs
  · exact sameShape_refl m
  · exact sameShape_refl m
  · exact sameShape_refl m
  · exact sameShape_refl m
  · split
    · exact sameShape_refl m
    · rename_i bits hrun
      refine ⟨rfl, rfl, rfl, ?_⟩
      show bits.length = m.bits.length
      refine forLoop_keeps _ _ _ (fun b => b.length = m.bits.length) ?_ m.bits bits rfl hrun
      intro y b b' hb hq
      refine forLoop_keeps _ _ _ (fun c => c.length = m.bits.length) ?_ b b' hq hb
      intro x c c' hc hq'
      rw [rawModify_length c c' _ _ hc]
      exact hq'

theorem copyWords_length (src dst out : List Nat) (start n dest : Int)
    (h : copyWords src start n dst dest = .ok out) : out.length = dst.length := by
  unfold copyWords at h
  split_ifs at h with h1 h2
  · injection h with h
    rw [← h]
  · injection h with h
    rw [← h]
    simp only [List.length_append, List.length_take, List.length_drop]
    omega

theorem setRow_shape (m : BitMatrix) (y : Int) (row : BitArray) :
    (m.setRow y row).state.sameShape m := by
  unfold BitMatrix.setRow
  split_ifs
  · exact sameShape_refl m
  · split
    · exact sameShape_refl m
    · rename_i bits hrun
      exact ⟨rfl, rfl, rfl, copyWords_length _ _ _ _ _ _ hrun⟩

theorem mirrorStep_shape (s s' : BitMatrix) (x y : Int) (h : mirrorStep s x y = .ok s') :
    s'.sameShape s := by
  unfold mirrorStep at h
  split at h
  · exact Except.noConfusion h
  · split at h
    · exact Except.noConfusion h
    · split_ifs at h
      · split at h
        · exact Except.noConfusion h
        · split at h
          · exact Except.noConfusion h
          · injection h with h
            rw [← h]
            exact sameShape_trans _ _ _ (flip_shape _ x y) (flip_shape s y x)
      · injection h with h
        rw [← h]
        exact sameShape_refl s

theorem mirror_shape (m m' : BitMatrix) (h : m.mirror = .ok m') : m'.sameShape m := by
  unfold BitMatrix.mirror at h
  refine forLoop_keeps _ _ _ (fun s => s.sameShape m) ?_ m m' (sameShape_refl m) h
  intro x s s' hs hq
  refine forLoop_keeps _ _ _ (fun t => t.sameShape m) ?_ s s' hq hs
  intro y t t' ht hq'
  exact sameShape_trans _ _ _ (mirrorStep_shape t t' x y ht) hq'

/-- Every mutating call that completes leaves the storage shape as it was. -/
theorem run_shape (op : Mutator) (m m' : BitMatrix) (h : op.run m = .ok m') :
    m'.sameShape m := by
  cases op with
  | set x y =>
    rw [(result_ok _ _ h).2]
    exact set_shape m x y
  | unset x y =>
    rw [(result_ok _ _ h).2]
    exact unset_shape m x y
  | flip x y =>
    rw [(result_ok _ _ h).2]
    exact flip_shape m x y
  | flipAll =>
    injection h with h
    rw [← h]
    exact ⟨rfl, rfl, rfl, by simp [BitMatrix.flipAll]⟩
  | clear =>
    injection h with h
    rw [← h]
    exact ⟨rfl, rfl, rfl, by simp [BitMatrix.clear]⟩
  | setRegion left top width height =>
    rw [(result_ok _ _ h).2]
    exact setRegion_shape m left top width height
  | setRow y row =>
    rw [(result_ok _ _ h).2]
    exact setRow_shape m y row
  | rotate180 =>
    injection h with h
    rw [← h]
    exact ⟨rfl, rfl, rfl, length_Reverse _ _⟩
  | mirror => exact mirror_shape m m' h

theorem paddingClear_iff (m : BitMatrix) :
    m.paddingClear ↔ ∀ a b : Int, 0 ≤ a → m.width ≤ a → a < m.rowSize * 32 → 0 ≤ b →
      b < m.height → bitAt m.bits m.rowSize a b = false := by
  constructor
  · intro h a b ha0 ha1 ha2 hb0 hb1
    have := h b.toNat (by omega) a.toNat (by omega) (by omega)
    rw [Int.toNat_of_nonneg ha0, Int.toNat_of_nonneg hb0] at this
    exact this
  · intro h y hy x hx hwx
    exact h x y (by omega) hwx (by omega) (by omega) (by omega)

theorem WF_of_shape (m m' : BitMatrix) (hwf : m.WF) (hs : m'.sameShape m)
    (hb : ∀ w ∈ m'.bits, w < 4294967296) : m'.WF := by
  obtain ⟨h1, h2, h3, h4⟩ := hs
  refine ⟨by rw [h1]; exact hwf.1, by rw [h2]; exact hwf.2.1, by rw [h3, h1]; exact hwf.2.2.1,
    ?_, hb⟩
  rw [h4, h3, h2]
  exact hwf.2.2.2.1

/-- The padding of a raster is clear when it has the shape of `m` and its storage bits at
the padding positions of `m` are zero. -/
theorem pad_of_bits (m m' : BitMatrix) (hs : m'.sameShape m)
    (h : ∀ a b : Int, 0 ≤ a → m.width ≤ a → a < m.rowSize * 32 → 0 ≤ b → b < m.height →
      bitAt m'.bits m.rowSize a b = false) : m'.paddingClear := by
  obtain ⟨h1, h2, h3, _⟩ := hs
  rw [paddingClear_iff, h1, h2, h3]
  exact h

theorem and_bound (w c : Nat) (hw : w < 4294967296) : w &&& c < 4294967296 :=
  lt_of_le_of_lt Nat.and_le_left hw

/-- The class invariant and a clear padding are kept by `set` at a coordinate of the
raster. -/
theorem set_keeps (m : BitMatrix) (hwf : m.WF) (x y : Int) (hx0 : 0 ≤ x) (hx1 : x < m.width)
    (hy0 : 0 ≤ y) (hy1 : y < m.height) :
    (m.set x y).err = none ∧ (m.set x y).state.WF ∧
      (m.paddingClear → (m.set x y).state.paddingClear) := by
  have hxr := rowSize_covers m hwf x hx1
  have hi := wordIndex_bounds m hwf x y hx0 hxr hy0 hy1
  have hs := set_shape m x y
  rw [set_eq m x y hx0 hi] at hs ⊢
  refine ⟨rfl, WF_of_shape m _ hwf hs (mem_set_bound _ _ _ hwf.2.2.2.2
    (or_bit_bound _ _ (getD_bound _ _ hwf.2.2.2.2) (by omega))), ?_⟩
  intro hpad
  apply pad_of_bits m _ hs
  intro a b ha0 ha1 ha2 hb0 hb1
  show bitAt (m.bits.set _ _) m.rowSize a b = false
  rw [bitAt_set_or m.bits m.rowSize m.height x y a b hwf.2.2.2.1 hx0 hxr hy0 hy1 ha0 ha2 hb0 hb1,
    (paddingClear_iff m).mp hpad a b ha0 ha1 ha2 hb0 hb1]
  simp only [Bool.false_or, decide_eq_false_iff_not]
  omega

/-- The class invariant and a clear padding are kept by `unset` at a coordinate of the
raster. -/
theorem unset_keeps (m : BitMatrix) (hwf : m.WF) (x y : Int) (hx0 : 0 ≤ x)
    (hx1 : x < m.width) (hy0 : 0 ≤ y) (hy1 : y < m.height) :
    (m.unset x y).err = none ∧ (m.unset x y).state.WF ∧
      (m.paddingClear → (m.unset x y).state.paddingClear) := by
  have hxr := rowSize_covers m hwf x hx1
  have hi := wordIndex_bounds m hwf x y hx0 hxr hy0 hy1
  have hs := unset_shape m x y
  rw [unset_eq m x y hx0 hi] at hs ⊢
  refine ⟨rfl, WF_of_shape m _ hwf hs (mem_set_bound _ _ _ hwf.2.2.2.2
    (and_bound _ _ (getD_bound _ _ hwf.2.2.2.2))), ?_⟩
  intro hpad
  apply pad_of_bits m _ hs
  intro a b ha0 ha1 ha2 hb0 hb1
  show bitAt (m.bits.set _ _) m.rowSize a b = false
  rw [bitAt_set_clear m.bits m.rowSize m.height x y a b hwf.2.2.2.1 hx0 hxr hy0 hy1 ha0 ha2 hb0
    hb1, (paddingClear_iff m).mp hpad a b ha0 ha1 ha2 hb0 hb1]
  rfl

/-- The class invariant and a clear padding are kept by `flip` at a coordinate of the
raster. -/
theorem flip_keeps (m : BitMatrix) (hwf : m.WF) (x y : Int) (hx0 : 0 ≤ x)
    (hx1 : x < m.width) (hy0 : 0 ≤ y) (hy1 : y < m.height) :
    (m.flip x y).err = none ∧ (m.flip x y).state.WF ∧
      (m.paddingClear → (m.flip x y).state.paddingClear) := by
  have hxr := rowSize_covers m hwf x hx1
  obtain ⟨h1, h2, _, _, h5⟩ := flip_grid m hwf x y hx0 hxr hy0 hy1
  refine ⟨h1, h2, ?_⟩
  intro hpad
  apply pad_of_bits m _ (flip_shape m x y)
  intro a b ha0 ha1 ha2 hb0 hb1
  rw [h5 a b ha0 ha2 hb0 hb1, (paddingClear_iff m).mp hpad a b ha0 ha1 ha2 hb0 hb1]
  simp only [Bool.false_xor, decide_eq_false_iff_not]
  omega

/-- The class invariant is kept by `flipAll`; a raster without padding has none after it. -/
theorem flipAll_keeps (m : BitMatrix) (hwf : m.WF) :
    m.flipAll.WF ∧ (m.width = m.rowSize * 32 → m.flipAll.paddingClear) := by
  have hs : m.flipAll.sameShape m := ⟨rfl, rfl, rfl, by simp [BitMatrix.flipAll]⟩
  refine ⟨WF_of_shape m _ hwf hs ?_, ?_⟩
  · intro w hw
    unfold BitMatrix.flipAll at hw
    obtain ⟨v, _, hv⟩ := List.mem_map.mp hw
    omega
  · intro hW
    apply pad_of_bits m _ hs
    intro a b _ ha1 ha2 _ _
    omega

/-- After `clear` the class invariant holds and every storage word is zero. -/
theorem clear_keeps (m : BitMatrix) (hwf : m.WF) :
    m.clear.WF ∧ m.clear.allZero ∧ m.clear.paddingClear := by
  have hs : m.clear.sameShape m := ⟨rfl, rfl, rfl, by simp [BitMatrix.clear]⟩
  have hz : m.clear.allZero := by
    intro w hw
    unfold BitMatrix.clear at hw
    obtain ⟨v, _, hv⟩ := List.mem_map.mp hw
    exact hv.symm
  refine ⟨WF_of_shape m _ hwf hs ?_, hz, ?_⟩
  · intro w hw
    rw [hz w hw]
    decide
  · apply pad_of_bits m _ hs
    intro a b _ _ _ _ _
    exact bitAt_of_allZero _ hz _ _ _

/-- The class invariant and a clear padding are kept by `setRegion`, whether it completes
or not. -/
theorem setRegion_keeps (m : BitMatrix) (hwf : m.WF) (left top width height : Int) :
    (m.setRegion left top width height).state.WF ∧
      (m.paddingClear → (m.setRegion left top width height).state.paddingClear) := by
  by_cases h : left < 0 ∨ top < 0 ∨ width < 1 ∨ height < 1 ∨ left + width > m.width ∨
      top + height > m.height ∨ ¬ (fitsInt (left + width) ∧ fitsInt (top + height))
  · have hst : (m.setRegion left top width height).state = m := by
      by_cases hok : (m.setRegion left top width height).err = none
      · obtain ⟨hc, hfit⟩ := setRegion_of_ok m left top width height hok
        exfalso
        rcases h with h | h | h | h | h | h | h
        · exact hc (Or.inl h)
        · exact hc (Or.inr (Or.inl h))
        · exact hc (Or.inr (Or.inr (Or.inl h)))
        · exact hc (Or.inr (Or.inr (Or.inr (Or.inl h))))
        · exact hc (Or.inr (Or.inr (Or.inr (Or.inr (Or.inl h)))))
        · exact hc (Or.inr (Or.inr (Or.inr (Or.inr (Or.inr h)))))
        · exact h hfit
      · exact (setRegion_unchanged m left top width height).resolve_left hok
    rw [hst]
    exact ⟨hwf, fun hp => hp⟩
  · have hs := setRegion_shape m left top width height
    have hfit : fitsInt (left + width) ∧ fitsInt (top + height) := by
      by_contra hc
      exact h (Or.inr (Or.inr (Or.inr (Or.inr (Or.inr (Or.inr hc))))))
    have h' : ¬ (left < 0 ∨ top < 0 ∨ width < 1 ∨ height < 1 ∨ left + width > m.width ∨
        top + height > m.height) := by
      intro hc
      apply h
      rcases hc with hc | hc | hc | hc | hc | hc
      · exact Or.inl hc
      · exact Or.inr (Or.inl hc)
      · exact Or.inr (Or.inr (Or.inl hc))
      · exact Or.inr (Or.inr (Or.inr (Or.inl hc)))
      · exact Or.inr (Or.inr (Or.inr (Or.inr (Or.inl hc))))
      · exact Or.inr (Or.inr (Or.inr (Or.inr (Or.inr (Or.inl hc)))))
    obtain ⟨bits', hrun, _, hb, hbit⟩ :=
      setRegion_accepted m hwf left top width height h' hfit
    rw [hrun] at hs ⊢
    refine ⟨WF_of_shape m _ hwf hs hb, ?_⟩
    intro hpad
    apply pad_of_bits m _ hs
    intro a b ha0 ha1 ha2 hb0 hb1
    show bitAt bits' m.rowSize a b = false
    rw [hbit a b ha0 ha2 hb0 hb1, (paddingClear_iff m).mp hpad a b ha0 ha1 ha2 hb0 hb1]
    simp only [Bool.false_or, decide_eq_false_iff_not]
    omega

/-- Element `i` of a vector in which the words `d .. d + r.length - 1` were replaced by the
words of `r`. -/
theorem getD_splice (l r : List Nat) (d : Nat) (hd : d + r.length ≤ l.length) (i : Nat) :
    (l.take d ++ r ++ l.drop (d + r.length)).getD i 0 =
      if d ≤ i ∧ i < d + r.length then r.getD (i - d) 0 else l.getD i 0 := by
  have ht : (l.take d).length = d := by
    rw [List.length_take]
    omega
  simp only [List.getD_eq_getElem?_getD, List.append_assoc]
  by_cases h1 : i < d
  · rw [List.getElem?_append_left (by omega), if_neg (by omega), List.getElem?_take_of_lt h1]
  · rw [List.getElem?_append_right (by omega), ht]
    by_cases h2 : i - d < r.length
    · rw [List.getElem?_append_left h2, if_pos (by omega)]
    · rw [List.getElem?_append_right (by omega), if_neg (by omega), List.getElem?_drop]
      congr 2
      omega

theorem bitAt_eq_streamBit (bits : List Nat) (rs a b : Int) (ha : 0 ≤ a) (hq : 0 ≤ b * rs) :
    bitAt bits rs a b = streamBit bits (b * rs * 32 + a).toNat := by
  unfold bitAt streamBit
  have h1 : (b * rs * 32 + a).toNat / 32 = (b * rs + a / 32).toNat := by omega
  have h2 : (b * rs * 32 + a).toNat % 32 = (a % 32).toNat := by omega
  rw [h1, h2]

/-- The class invariant is kept by `setRow` on a row of the raster with a line of 32-bit
words, and so is a clear padding when the line has no set bit at or beyond the width. -/
theorem setRow_keeps (m : BitMatrix) (hwf : m.WF) (y : Int) (hy0 : 0 ≤ y) (hy1 : y < m.height)
    (row : BitArray) (hrow : ∀ w ∈ row.bits, w < 4294967296) :
    (m.setRow y row).state.WF ∧
      (m.paddingClear →
        (∀ k : Nat, k < 32 * row.bits.length → m.width ≤ (k : Int) →
          streamBit row.bits k = false) →
        (m.setRow y row).state.paddingClear) := by
  have hs := setRow_shape m y row
  have hb := row_bounds m hwf y hy0 hy1
  have hrs := rowSize_nonneg m hwf
  unfold BitMatrix.setRow at hs ⊢
  by_cases h : (row.bits.length : Int) ≠ m.rowSize
  · rw [if_pos h]
    exact ⟨hwf, fun hp _ => hp⟩
  · have heq : (row.bits.length : Int) = m.rowSize := by
      by_contra hc
      exact h hc
    rw [if_neg h] at hs ⊢
    unfold copyWords at hs ⊢
    by_cases h0 : (row.bits.length : Int) ≤ 0
    · rw [if_pos h0] at hs ⊢
      exact ⟨hwf, fun hp _ => hp⟩
    · rw [if_neg h0, if_pos ⟨le_refl _, by omega, hb.1, by omega⟩] at hs ⊢
      have e1 : ((0 : Int)).toNat = 0 := rfl
      have e2 : ((row.bits.length : Int)).toNat = row.bits.length := by omega
      have e3 : (y * m.rowSize + (row.bits.length : Int)).toNat =
          (y * m.rowSize).toNat + row.bits.length := by omega
      have e4 : (row.bits.drop 0).take row.bits.length = row.bits := by
        rw [List.drop_zero, List.take_length]
      simp only [e1, e2, e3, e4] at hs ⊢
      have hd : (y * m.rowSize).toNat + row.bits.length ≤ m.bits.length := by omega
      refine ⟨WF_of_shape m _ hwf hs ?_, ?_⟩
      · intro w hw
        simp only [List.mem_append] at hw
        rcases hw with (hw | hw) | hw
        · exact hwf.2.2.2.2 w (List.mem_of_mem_take hw)
        · exact hrow w hw
        · exact hwf.2.2.2.2 w (List.mem_of_mem_drop hw)
      · intro hpad hline
        apply pad_of_bits m _ hs
        intro a b ha0 ha1 ha2 hb0 hb1
        show bitAt (m.bits.take _ ++ row.bits ++ m.bits.drop _) m.rowSize a b = false
        have hq0 : 0 ≤ a / 32 := by omega
        have hq1 : a / 32 < m.rowSize := by omega
        have hbr : 0 ≤ b * m.rowSize := mul_nonneg hb0 hrs
        unfold bitAt
        rw [getD_splice m.bits row.bits (y * m.rowSize).toNat hd]
        by_cases hby : b = y
        · subst hby
          rw [if_pos ⟨by omega, by omega⟩]
          have hk := hline a.toNat (by omega) (by omega)
          unfold streamBit at hk
          have i1 : (b * m.rowSize + a / 32).toNat - (b * m.rowSize).toNat = a.toNat / 32 := by
            omega
          have i2 : (a % 32).toNat = a.toNat % 32 := by omega
          rw [i1, i2]
          exact hk
        · have hne : ¬ ((y * m.rowSize).toNat ≤ (b * m.rowSize + a / 32).toNat ∧
              (b * m.rowSize + a / 32).toNat < (y * m.rowSize).toNat + row.bits.length) := by
            intro hc
            rcases lt_or_gt_of_ne hby with hlt | hgt
            · have : (b + 1) * m.rowSize ≤ y * m.rowSize :=
                mul_le_mul_of_nonneg_right (by omega) hrs
              have e : (b + 1) * m.rowSize = b * m.rowSize + m.rowSize := by ring
              omega
            · have : (y + 1) * m.rowSize ≤ b * m.rowSize :=
                mul_le_mul_of_nonneg_right (by omega) hrs
              have e : (y + 1) * m.rowSize = y * m.rowSize + m.rowSize := by ring
              omega
          rw [if_neg hne]
          exact (paddingClear_iff m).mp hpad a b ha0 ha1 ha2 hb0 hb1

/-- A call of `setRow` that passes the check: the words of the line replace the words of row
`y`. -/
theorem setRow_eq (m : BitMatrix) (hwf : m.WF) (y : Int) (hy0 : 0 ≤ y) (hy1 : y < m.height)
    (row : BitArray) (heq : (row.bits.length : Int) = m.rowSize) :
    m.setRow y row = ⟨none, { m with bits := (m.bits.take (y * m.rowSize).toNat ++ row.bits ++
      m.bits.drop ((y * m.rowSize).toNat + row.bits.length)) }⟩ ∧
    (y * m.rowSize).toNat + row.bits.length ≤ m.bits.length := by
  have hb := row_bounds m hwf y hy0 hy1
  have hd : (y * m.rowSize).toNat + row.bits.length ≤ m.bits.length := by omega
  refine ⟨?_, hd⟩
  unfold BitMatrix.setRow copyWords
  rw [if_neg (by rw [heq]; exact fun h => h rfl)]
  by_cases h0 : (row.bits.length : Int) ≤ 0
  · have hnil : row.bits = [] := List.eq_nil_of_length_eq_zero (by omega)
    rw [if_pos h0, hnil]
    simp
  · rw [if_neg h0, if_pos ⟨le_refl _, by omega, hb.1, by omega⟩]
    have e1 : ((0 : Int)).toNat = 0 := rfl
    have e2 : ((row.bits.length : Int)).toNat = row.bits.length := by omega
    have e3 : (y * m.rowSize + (row.bits.length : Int)).toNat =
        (y * m.rowSize).toNat + row.bits.length := by omega
    have e4 : (row.bits.drop 0).take row.bits.length = row.bits := by
      rw [List.drop_zero, List.take_length]
    simp only [e1, e2, e3, e4]

/-- C8 (amended). `setRow` checks the packed length of the line: on a raster satisfying the
class invariant, for a valid row `y` and a line satisfying its class invariant, `setRow`
fails with InvalidArgument if and only if the number of storage words of the line,
`(size + 31) / 32`, differs from the row stride `(width + 31) / 32`; when it fails the raster
is unchanged. Otherwise, whatever the length of the line in bits, the call completes and the
words of the line are copied into row `y`: the storage words of row `y` become the words of
the line, every other storage word is unchanged, and `get(x, y')` returns bit `x` of the
line for `y' = y` and what it returned before for every other row. -/
theorem C8_setRow_checks_packed_length (m : BitMatrix) (hwf : m.WF) (y : Int) (hy0 : 0 ≤ y)
    (hy1 : y < m.height) (row : BitArray) (hrow : row.WF) :
    ((m.setRow y row).err = some .invalidArgument ↔
      (row.size + 31) / 32 ≠ (m.width + 31) / 32) ∧
    ((m.setRow y row).err = none ∨ (m.setRow y row).state = m) ∧
    ((row.size + 31) / 32 = (m.width + 31) / 32 →
      (m.setRow y row).err = none ∧
      (m.setRow y row).state.width = m.width ∧ (m.setRow y row).state.height = m.height ∧
      (m.setRow y row).state.rowSize = m.rowSize ∧
      (m.setRow y row).state.bits.length = m.bits.length ∧
      (∀ i : Nat, i < row.bits.length →
        (m.setRow y row).state.bits.getD ((y * m.rowSize).toNat + i) 0 = row.bits.getD i 0) ∧
      (∀ j : Nat, ¬ ((y * m.rowSize).toNat ≤ j ∧ j < (y * m.rowSize).toNat + row.bits.length) →
        (m.setRow y row).state.bits.getD j 0 = m.bits.getD j 0) ∧
      (∀ x y' : Int, 0 ≤ x → x < m.width → 0 ≤ y' → y' < m.height →
        (m.setRow y row).state.get x y' = if y' = y then row.get x else m.get x y')) := by
  have hb := row_bounds m hwf y hy0 hy1
  have hrs := rowSize_nonneg m hwf
  by_cases h : (row.bits.length : Int) ≠ m.rowSize
  · have hrun : m.setRow y row = ⟨some .invalidArgument, m⟩ := by
      unfold BitMatrix.setRow
      rw [if_pos h]
    have hne : (row.size + 31) / 32 ≠ (m.width + 31) / 32 := by
      rw [← hrow.2, ← hwf.2.2.1]
      exact h
    rw [hrun]
    exact ⟨⟨fun _ => hne, fun _ => rfl⟩, Or.inr rfl, fun he => absurd he hne⟩
  · have heq : (row.bits.length : Int) = m.rowSize := by
      by_contra hc
      exact h hc
    have heq' : (row.size + 31) / 32 = (m.width + 31) / 32 := by
      rw [← hrow.2, ← hwf.2.2.1]
      exact heq
    obtain ⟨hrun, hd⟩ := setRow_eq m hwf y hy0 hy1 row heq
    have hlen : (m.bits.take (y * m.rowSize).toNat ++ row.bits ++
        m.bits.drop ((y * m.rowSize).toNat + row.bits.length)).length = m.bits.length := by
      simp only [List.length_append, List.length_take, List.length_drop]
      omega
    rw [hrun]
    refine ⟨⟨fun he => by simp at he, fun hne => absurd heq' hne⟩, Or.inl rfl, fun _ =>
      ⟨rfl, rfl, rfl, rfl, hlen, ?_, ?_, ?_⟩⟩
    · intro i hi
      show (m.bits.take _ ++ row.bits ++ m.bits.drop _).getD _ 0 = _
      rw [getD_splice m.bits row.bits (y * m.rowSize).toNat hd, if_pos ⟨by omega, by omega⟩]
      congr 1
      omega
    · intro j hj
      show (m.bits.take _ ++ row.bits ++ m.bits.drop _).getD _ 0 = _
      rw [getD_splice m.bits row.bits (y * m.rowSize).toNat hd, if_neg hj]
    · intro x y' hx0 hx1 hy0' hy1'
      have hxr := rowSize_covers m hwf x hx1
      have hq0 : 0 ≤ x / 32 := by omega
      have hq1 : x / 32 < m.rowSize := by omega
      have hbr : 0 ≤ y' * m.rowSize := mul_nonneg hy0' hrs
      rw [get_with_bits m hwf _ hlen x y' hx0 hxr hy0' hy1']
      unfold bitAt
      rw [getD_splice m.bits row.bits (y * m.rowSize).toNat hd]
      by_cases hby : y' = y
      · subst hby
        rw [if_pos ⟨by omega, by omega⟩, if_pos rfl]
        have i1 : (y' * m.rowSize + x / 32).toNat - (y' * m.rowSize).toNat = (x / 32).toNat := by
          omega
        unfold BitArray.get vecAt
        rw [tdiv32_of_nonneg x hx0, if_pos ⟨hq0, by omega⟩, i1]
        simp only [shift_and_one, bitIndex_of_nonneg x hx0]
      · have hne : ¬ ((y * m.rowSize).toNat ≤ (y' * m.rowSize + x / 32).toNat ∧
            (y' * m.rowSize + x / 32).toNat < (y * m.rowSize).toNat + row.bits.length) := by
          intro hc
          rcases lt_or_gt_of_ne hby with hlt | hgt
          · have : (y' + 1) * m.rowSize ≤ y * m.rowSize :=
              mul_le_mul_of_nonneg_right (by omega) hrs
            have e : (y' + 1) * m.rowSize = y' * m.rowSize + m.rowSize := by ring
            omega
          · have : (y + 1) * m.rowSize ≤ y' * m.rowSize :=
              mul_le_mul_of_nonneg_right (by omega) hrs
            have e : (y + 1) * m.rowSize = y * m.rowSize + m.rowSize := by ring
            omega
        rw [if_neg hne, if_neg hby,
          get_eq_bitAt m x y' hx0 (wordIndex_bounds m hwf x y' hx0 hxr hy0' hy1')]
        rfl

/-- Witness for C8 (amended): a line of 5 bits is written into row 1 of a raster of width 7
and height 2, whose storage becomes `[64, 31]`. -/
theorem C8_setRow_checks_packed_length_witness :
    (BitMatrix.mk 7 2 1 [64, 96]).WF ∧ (BitArray.mk 5 [31]).WF ∧
    (BitArray.mk 5 [31]).size ≠ (BitMatrix.mk 7 2 1 [64, 96]).width ∧
    ((BitArray.mk 5 [31]).size + 31) / 32 = ((BitMatrix.mk 7 2 1 [64, 96]).width + 31) / 32 ∧
    (BitMatrix.mk 7 2 1 [64, 96]).setRow 1 (BitArray.mk 5 [31]) =
      ⟨none, BitMatrix.mk 7 2 1 [64, 31]⟩ ∧
    ((BitMatrix.mk 7 2 1 [64, 96]).setRow 1 (BitArray.mk 5 [31])).err = none ∧
    (∀ x y' : Int, 0 ≤ x → x < 7 → 0 ≤ y' → y' < 2 →
      ((BitMatrix.mk 7 2 1 [64, 96]).setRow 1 (BitArray.mk 5 [31])).state.get x y' =
        if y' = 1 then (BitArray.mk 5 [31]).get x else (BitMatrix.mk 7 2 1 [64, 96]).get x y') :=
  have h := (C8_setRow_checks_packed_length (BitMatrix.mk 7 2 1 [64, 96]) (by decide) 1
    (by decide) (by decide) (BitArray.mk 5 [31]) (by decide)).2.2 (by decide)
  ⟨by decide, by decide, by decide, by decide, by decide, h.1, h.2.2.2.2.2.2.2⟩

/-- The class invariant and a clear padding are kept by `rotate180`: the reversal moves the
padding of row `b` to the padding of row `height - 2 - b`, and zeros enter the padding of the
last row. -/
theorem rotate180_keeps (m : BitMatrix) (hwf : m.WF) :
    m.rotate180.WF ∧ (m.paddingClear → m.rotate180.paddingClear) := by
  have hs : m.rotate180.sameShape m := ⟨rfl, rfl, rfl, length_Reverse _ _⟩
  refine ⟨WF_of_shape m _ hwf hs (Reverse_bound _ _), ?_⟩
  intro hpad
  apply pad_of_bits m _ hs
  intro a b ha0 ha1 ha2 hb0 hb1
  show bitAt (Reverse m.bits (m.rowSize * 32 - m.width).toNat) m.rowSize a b = false
  have hrs := rowSize_nonneg m hwf
  have hbr : 0 ≤ b * m.rowSize := mul_nonneg hb0 hrs
  have hlen := hwf.2.2.2.1
  have hW := hwf.1
  rw [bitAt_eq_streamBit _ _ a b ha0 hbr, streamBit_Reverse]
  by_cases hk : (b * m.rowSize * 32 + a).toNat + (m.rowSize * 32 - m.width).toNat <
      32 * m.bits.length
  · rw [decide_eq_true hk, Bool.true_and]
    have hb2 : b + 2 ≤ m.height := by
      by_contra hc
      have hbe : b = m.height - 1 := by omega
      have e : b * m.rowSize = m.rowSize * m.height - m.rowSize := by
        rw [hbe]
        ring
      omega
    have e2 : (m.height - 2 - b) * m.rowSize =
        m.rowSize * m.height - 2 * m.rowSize - b * m.rowSize := by ring
    have hq : 0 ≤ (m.height - 2 - b) * m.rowSize := mul_nonneg (by omega) hrs
    have hj : 32 * m.bits.length - 1 -
        ((b * m.rowSize * 32 + a).toNat + (m.rowSize * 32 - m.width).toNat) =
        ((m.height - 2 - b) * m.rowSize * 32 + (m.rowSize * 32 + m.width - 1 - a)).toNat := by
      omega
    rw [hj, ← bitAt_eq_streamBit _ _ _ _ (by omega) hq]
    exact (paddingClear_iff m).mp hpad _ _ (by omega) (by omega) (by omega) (by omega)
      (by omega)
  · rw [decide_eq_false hk, Bool.false_and]

/-- On a raster that is not higher than wide `mirror` completes and keeps the class invariant
and a clear padding. -/
theorem mirror_keeps (m m' : BitMatrix) (hwf : m.WF) (h : m.mirror = .ok m') :
    m'.WF ∧ (m.paddingClear → m.height ≤ m.width → m'.paddingClear) := by
  obtain ⟨m1, hrun1, hwf1, _, _⟩ := mirror_ok m hwf
  rw [h] at hrun1
  have e1 : m' = m1 := by
    injection hrun1
  subst e1
  refine ⟨hwf1, ?_⟩
  intro hpad hH
  have hH' : m.height ≤ m.rowSize * 32 := by
    have := hwf.2.2.1
    omega
  obtain ⟨m2, hrun2, _, _, _, hbit⟩ := mirror_grid m hwf hH'
  rw [h] at hrun2
  have e2 : m' = m2 := by
    injection hrun2
  subst e2
  apply pad_of_bits m _ (mirror_shape m m' h)
  intro a b ha0 ha1 ha2 hb0 hb1
  rw [(hbit a b ha0 ha2 hb0 hb1).2 (by unfold mirrorDone; omega)]
  exact (paddingClear_iff m).mp hpad a b ha0 ha1 ha2 hb0 hb1

/-- Every call that completes with in-range arguments keeps the class invariant, and it
keeps a clear padding when it is one of the calls that cannot set a padding bit. -/
theorem run_keeps (op : Mutator) (m m' : BitMatrix) (hwf : m.WF) (hr : op.inRange m)
    (h : op.run m = .ok m') :
    m'.WF ∧ (m.paddingClear → op.keepsPadding m → m'.paddingClear) := by
  cases op with
  | set x y =>
    rw [(result_ok _ _ h).2]
    obtain ⟨_, h2, h3⟩ := set_keeps m hwf x y hr.1 hr.2.1 hr.2.2.1 hr.2.2.2
    exact ⟨h2, fun hp _ => h3 hp⟩
  | unset x y =>
    rw [(result_ok _ _ h).2]
    obtain ⟨_, h2, h3⟩ := unset_keeps m hwf x y hr.1 hr.2.1 hr.2.2.1 hr.2.2.2
    exact ⟨h2, fun hp _ => h3 hp⟩
  | flip x y =>
    rw [(result_ok _ _ h).2]
    obtain ⟨_, h2, h3⟩ := flip_keeps m hwf x y hr.1 hr.2.1 hr.2.2.1 hr.2.2.2
    exact ⟨h2, fun hp _ => h3 hp⟩
  | flipAll =>
    injection h with h
    rw [← h]
    exact ⟨(flipAll_keeps m hwf).1, fun _ hk => (flipAll_keeps m hwf).2 hk.2⟩
  | clear =>
    injection h with h
    rw [← h]
    exact ⟨(clear_keeps m hwf).1, fun _ _ => (clear_keeps m hwf).2.2⟩
  | setRegion left top width height =>
    rw [(result_ok _ _ h).2]
    obtain ⟨h2, h3⟩ := setRegion_keeps m hwf left top width height
    exact ⟨h2, fun hp _ => h3 hp⟩
  | setRow y row =>
    rw [(result_ok _ _ h).2]
    obtain ⟨h2, h3⟩ := setRow_keeps m hwf y hr.1 hr.2.1 row hr.2.2.2
    exact ⟨h2, fun hp hk => h3 hp hk.2⟩
  | rotate180 =>
    injection h with h
    rw [← h]
    exact ⟨(rotate180_keeps m hwf).1, fun hp _ => (rotate180_keeps m hwf).2 hp⟩
  | mirror =>
    obtain ⟨h2, h3⟩ := mirror_keeps m m' hwf h
    exact ⟨h2, fun hp hk => h3 hp hk.2⟩

theorem reaches_inv (allowed : Mutator → BitMatrix → Prop) (I : BitMatrix → Prop)
    (hstep : ∀ op m s, I m → allowed op m → op.run m = .ok s → I s)
    (ops : List Mutator) (m m' : BitMatrix) (h0 : I m)
    (h : Mutator.reaches allowed ops m m') : I m' := by
  induction ops generalizing m with
  | nil =>
    unfold Mutator.reaches at h
    rw [h]
    exact h0
  | cons op ops ih =>
    unfold Mutator.reaches at h
    obtain ⟨ha, hm⟩ := h
    cases hb : op.run m with
    | error e =>
      rw [hb] at hm
      exact hm.elim
    | ok s =>
      rw [hb] at hm
      exact ih s (hstep op m s h0 ha hb) hm

/-- On a raster satisfying the class invariant `getEnclosingRectangle` completes, and a
reported rectangle has a non-negative corner and positive sizes, ends inside the stored
columns and rows, and ends inside the width when the padding is clear. -/
theorem enclosing_inside (m : BitMatrix) (hwf : m.WF) :
    ∃ r, m.getEnclosingRectangle = .ok r ∧
      ∀ l t w h : Int, r = some (l, t, w, h) →
        0 ≤ l ∧ 0 ≤ t ∧ 1 ≤ w ∧ 1 ≤ h ∧ l + w ≤ m.rowSize * 32 ∧ t + h ≤ m.height ∧
          (m.paddingClear → l + w ≤ m.width) := by
  obtain ⟨s, htight, _, hres⟩ := getEnclosingRectangle_spec m hwf
  rw [hres]
  split_ifs with hc
  · exact ⟨none, rfl, fun l t w h hr => Option.noConfusion hr⟩
  · refine ⟨_, rfl, ?_⟩
    intro l t w h hr
    injection hr with hr
    injection hr with hl hr
    injection hr with ht hr
    injection hr with hw hh
    obtain ⟨h1, h2, h3, h4⟩ := htight
    have hW := hwf.1
    have hH := hwf.2.1
    have hl0 : 0 ≤ s.left := by
      rcases h1 with h1 | ⟨x, y, hon, hx⟩
      · omega
      · have := hon.1
        omega
    have ht0 : 0 ≤ s.top := by
      rcases h2 with h2 | ⟨x, y, hon, hy⟩
      · omega
      · have := hon.2.2.1
        omega
    have hb1 : s.bottom < m.height := by
      rcases h4 with h4 | ⟨x, y, hon, hy⟩
      · omega
      · have := hon.2.2.2.1
        omega
    rcases h3 with h3 | ⟨x, y, hon, hx⟩
    · omega
    · have hx1 := hon.2.1
      refine ⟨by omega, by omega, by omega, by omega, by omega, by omega, ?_⟩
      intro hpad
      have := lt_width_of_paddingClear m hpad x y hon
      omega

theorem reaches_nil (allowed : Mutator → BitMatrix → Prop) (m : BitMatrix) :
    Mutator.reaches allowed [] m m := by
  unfold Mutator.reaches
  rfl

theorem reaches_cons (allowed : Mutator → BitMatrix → Prop) (op : Mutator)
    (ops : List Mutator) (m s m' : BitMatrix) (ha : allowed op m) (hr : op.run m = .ok s)
    (h : Mutator.reaches allowed ops s m') : Mutator.reaches allowed (op :: ops) m m' := by
  unfold Mutator.reaches
  rw [hr]
  exact ⟨ha, h⟩

/-- C22 (as stated) fails. After `flipAll` on the fresh 1 x 1 raster the 31 padding bits of
its word are set and the reported rectangle is 32 wide; after `set(0, 1)` and `mirror` on the
fresh raster of width 1 and height 2 the only set bit is the padding bit `(1, 0)` and the
rectangle starts at column 1; after `setRow` with a line of 32 bits on the fresh raster of
width 7 the rectangle is 32 wide. -/
theorem C22_counterexample :
    Mutator.reaches Mutator.inRange [.flipAll] (BitMatrix.new 1 1)
      (BitMatrix.mk 1 1 1 [4294967295]) ∧
    (BitMatrix.mk 1 1 1 [4294967295]).getEnclosingRectangle = .ok (some (0, 0, 32, 1)) ∧
    ¬ ((0 : Int) + 32 ≤ (BitMatrix.mk 1 1 1 [4294967295]).width) ∧
    Mutator.reaches Mutator.inRange [.set 0 1, .mirror] (BitMatrix.new 1 2)
      (BitMatrix.mk 1 2 1 [2, 0]) ∧
    (BitMatrix.mk 1 2 1 [2, 0]).getEnclosingRectangle = .ok (some (1, 0, 1, 1)) ∧
    ¬ ((1 : Int) + 1 ≤ (BitMatrix.mk 1 2 1 [2, 0]).width) ∧
    Mutator.reaches Mutator.inRange [.setRow 0 (BitArray.mk 32 [2147483649])]
      (BitMatrix.new 7 1) (BitMatrix.mk 7 1 1 [2147483649]) ∧
    (BitMatrix.mk 7 1 1 [2147483649]).getEnclosingRectangle = .ok (some (0, 0, 32, 1)) ∧
    ¬ ((0 : Int) + 32 ≤ (BitMatrix.mk 7 1 1 [2147483649]).width) :=
  ⟨reaches_cons _ _ _ _ _ _ (by decide) (by decide) (reaches_nil _ _), by decide, by decide,
    reaches_cons _ _ _ _ (BitMatrix.mk 1 2 1 [0, 1]) _ (by decide) (by decide)
      (reaches_cons _ _ _ _ _ _ (by decide) (by decide) (reaches_nil _ _)),
    by decide, by decide,
    reaches_cons _ _ _ _ _ _ (by decide) (by decide) (reaches_nil _ _), by decide, by decide⟩

/-- C22 (amended). Let `m` be reached from a constructed raster (`width, height >= 0`) by a
sequence of mutator calls that complete. If the calls have in-range arguments,
`getEnclosingRectangle` completes on `m` and a reported rectangle has `0 <= left`,
`0 <= top`, `width >= 1`, `height >= 1`, `top + height <= raster height` and
`left + width <= 32 * rowStride`. If moreover no call can set a padding bit (`flipAll` only on
a raster whose width is a multiple of 32, `setRow` only with a line that has no set bit at or
beyond the raster width, `mirror` only on a raster not higher than wide), then
`left + width <= raster width`. -/
theorem C22_enclosing_rectangle_inside (W H : Int) (hW : 0 ≤ W) (hH : 0 ≤ H)
    (ops : List Mutator) (m : BitMatrix) :
    (Mutator.reaches Mutator.inRange ops (BitMatrix.new W H) m →
      m.width = W ∧ m.height = H ∧
      ∃ r, m.getEnclosingRectangle = .ok r ∧
        ∀ l t w h : Int, r = some (l, t, w, h) →
          0 ≤ l ∧ 0 ≤ t ∧ 1 ≤ w ∧ 1 ≤ h ∧ l + w ≤ 32 * m.rowSize ∧ t + h ≤ m.height) ∧
    (Mutator.reaches Mutator.keepsPadding ops (BitMatrix.new W H) m →
      m.width = W ∧ m.height = H ∧
      ∃ r, m.getEnclosingRectangle = .ok r ∧
        ∀ l t w h : Int, r = some (l, t, w, h) →
          0 ≤ l ∧ 0 ≤ t ∧ 1 ≤ w ∧ 1 ≤ h ∧ l + w ≤ m.width ∧ t + h ≤ m.height) := by
  have hwf0 := new_WF W H hW hH
  have hpad0 : (BitMatrix.new W H).paddingClear := by
    apply pad_of_bits _ _ (sameShape_refl _)
    intro a b _ _ _ _ _
    exact bitAt_of_allZero _ (new_allZero W H) _ _ _
  constructor
  · intro hreach
    have hinv := reaches_inv Mutator.inRange
      (fun s => s.WF ∧ s.sameShape (BitMatrix.new W H))
      (fun op s t hs ha hr => ⟨(run_keeps op s t hs.1 ha hr).1,
        sameShape_trans _ _ _ (run_shape op s t hr) hs.2⟩)
      ops _ m ⟨hwf0, sameShape_refl _⟩ hreach
    obtain ⟨r, hr, hrect⟩ := enclosing_inside m hinv.1
    refine ⟨hinv.2.1, hinv.2.2.1, r, hr, ?_⟩
    intro l t w h he
    obtain ⟨h1, h2, h3, h4, h5, h6, _⟩ := hrect l t w h he
    exact ⟨h1, h2, h3, h4, by omega, h6⟩
  · intro hreach
    have hinv := reaches_inv Mutator.keepsPadding
      (fun s => s.WF ∧ s.sameShape (BitMatrix.new W H) ∧ s.paddingClear)
      (fun op s t hs ha hr => ⟨(run_keeps op s t hs.1 ha.1 hr).1,
        sameShape_trans _ _ _ (run_shape op s t hr) hs.2.1,
        (run_keeps op s t hs.1 ha.1 hr).2 hs.2.2 ha⟩)
      ops _ m ⟨hwf0, sameShape_refl _, hpad0⟩ hreach
    obtain ⟨r, hr, hrect⟩ := enclosing_inside m hinv.1
    refine ⟨hinv.2.1.1, hinv.2.1.2.1, r, hr, ?_⟩
    intro l t w h he
    obtain ⟨h1, h2, h3, h4, _, h6, h7⟩ := hrect l t w h he
    exact ⟨h1, h2, h3, h4, h7 hinv.2.2, h6⟩

set_option maxRecDepth 100000 in
/-- Witness for C22 (amended): a raster of width 40 and height 3 after `setRegion`, `flip`,
`mirror`, `rotate180` and `setRow`; the reported rectangle is `(0, 0, 40, 2)`. -/
theorem C22_enclosing_rectangle_inside_witness :
    Mutator.reaches Mutator.keepsPadding
      [.setRegion 33 1 5 2, .flip 2 0, .mirror, .rotate180, .setRow 1 (BitArray.mk 40 [5, 128])]
      (BitMatrix.new 40 3) (BitMatrix.mk 40 3 2 [124, 128, 5, 128, 0, 0]) ∧
    (BitMatrix.mk 40 3 2 [124, 128, 5, 128, 0, 0]).getEnclosingRectangle =
      .ok (some (0, 0, 40, 2)) ∧
    ∃ r, (BitMatrix.mk 40 3 2 [124, 128, 5, 128, 0, 0]).getEnclosingRectangle = .ok r ∧
      ∀ l t w h : Int, r = some (l, t, w, h) →
        0 ≤ l ∧ 0 ≤ t ∧ 1 ≤ w ∧ 1 ≤ h ∧
          l + w ≤ (BitMatrix.mk 40 3 2 [124, 128, 5, 128, 0, 0]).width ∧
          t + h ≤ (BitMatrix.mk 40 3 2 [124, 128, 5, 128, 0, 0]).height :=
  have hreach : Mutator.reaches Mutator.keepsPadding
      [.setRegion 33 1 5 2, .flip 2 0, .mirror, .rotate180, .setRow 1 (BitArray.mk 40 [5, 128])]
      (BitMatrix.new 40 3) (BitMatrix.mk 40 3 2 [124, 128, 5, 128, 0, 0]) :=
    reaches_cons _ _ _ _ (BitMatrix.mk 40 3 2 [0, 0, 0, 62, 0, 62]) _ (by decide) (by decide)
      (reaches_cons _ _ _ _ (BitMatrix.mk 40 3 2 [4, 0, 0, 62, 0, 62]) _ (by decide) (by decide)
        (reaches_cons _ _ _ _ (BitMatrix.mk 40 3 2 [0, 0, 0, 62, 1, 62]) _ (by decide)
          (by decide)
          (reaches_cons _ _ _ _ (BitMatrix.mk 40 3 2 [124, 128, 124, 0, 0, 0]) _ (by decide)
            (by decide)
            (reaches_cons _ _ _ _ _ _ (by decide) (by decide) (reaches_nil _ _)))))
  ⟨hreach, by decide,
    ((C22_enclosing_rectangle_inside 40 3 (by decide) (by decide) _ _).2 hreach).2.2⟩

/-! ## Injectivity of the Code 39 writer -/

set_option maxRecDepth 100000 in
/-- The alphabet has 44 pairwise distinct characters, the encoding table 44 pairwise distinct
entries, each a 9-bit value. -/
theorem tables_distinct :
    ALPHABET_STRING.length = 44 ∧ ALPHABET_STRING.Nodup ∧
    CHARACTER_ENCODINGS.length = 44 ∧ CHARACTER_ENCODINGS.Nodup ∧
    (∀ e ∈ CHARACTER_ENCODINGS, e < 512) ∧
    ALPHABET_STRING.map tableEntry = CHARACTER_ENCODINGS := by
  decide

set_option maxRecDepth 100000 in
/-- Two entries of the encoding table with the same module pattern are equal. -/
theorem pattern_inj : ∀ e ∈ CHARACTER_ENCODINGS, ∀ f ∈ CHARACTER_ENCODINGS,
    expandRuns (ToIntArray e) true = expandRuns (ToIntArray f) true → e = f := by
  decide

set_option maxRecDepth 100000 in
/-- Two characters of the alphabet with the same table entry are equal. -/
theorem codeEntry_inj : ∀ c ∈ ALPHABET_STRING, ∀ d ∈ ALPHABET_STRING,
    codeEntry c = codeEntry d → c = d := by
  decide

/-- Two different lists of the same length share a prefix after which they have different
elements. -/
theorem first_difference (s t : List Nat) (hlen : s.length = t.length) (hne : s ≠ t) :
    ∃ (p : List Nat) (a b : Nat) (s' t' : List Nat),
      s = p ++ a :: s' ∧ t = p ++ b :: t' ∧ a ≠ b ∧ s'.length = t'.length := by
  induction s generalizing t with
  | nil =>
    cases t with
    | nil => exact absurd rfl hne
    | cons b t' => simp at hlen
  | cons a s' ih =>
    cases t with
    | nil => simp at hlen
    | cons b t' =>
      have hl : s'.length = t'.length := by simpa using hlen
      by_cases hab : a = b
      · subst hab
        have hne' : s' ≠ t' := fun h => hne (by rw [h])
        obtain ⟨p, c, d, u, v, h1, h2, h3, h4⟩ := ih t' hl hne'
        exact ⟨a :: p, c, d, u, v, by rw [h1]; rfl, by rw [h2]; rfl, h3, h4⟩
      · exact ⟨[], a, b, s', t', rfl, rfl, hab, hl⟩

/-- The modules written for a text, split at the slot of one of its characters: the modules
before the slot, the 13 modules of the slot, and the modules after it. -/
theorem rendered_split (p : List Nat) (a : Nat) (s' : List Nat) :
    renderedModules (p ++ a :: s') =
      (expandRuns (ToIntArray ASTERISK_ENCODING) true ++ [false] ++
        (p.map (fun c => expandRuns (ToIntArray (codeEntry c)) true ++ [false])).flatten) ++
      ((expandRuns (ToIntArray (codeEntry a)) true ++ [false]) ++
        ((s'.map (fun c => expandRuns (ToIntArray (codeEntry c)) true ++ [false])).flatten ++
          expandRuns (ToIntArray ASTERISK_ENCODING) true)) := by
  unfold renderedModules
  simp only [List.map_append, List.map_cons, List.flatten_append, List.flatten_cons,
    List.append_assoc]

theorem slot_start (p : List Nat)
    (h : ∀ c ∈ p, 0 ≤ IndexOf ALPHABET_STRING c ∧ IndexOf ALPHABET_STRING c < 44) :
    (expandRuns (ToIntArray ASTERISK_ENCODING) true ++ [false] ++
      (p.map (fun c => expandRuns (ToIntArray (codeEntry c)) true ++ [false])).flatten).length =
      13 + 13 * p.length := by
  simp only [List.length_append, List.length_cons, List.length_nil, entry_runs _ asterisk_mem,
    rendered_length p h]

/-- The slot of character number `p.length` of the text `p ++ a :: s'`: the modules before
the slot depend on `p` only, and the 13 modules of the slot are the pattern of `a` and a
white module. -/
theorem rendered_slot (p : List Nat) (a : Nat) (s' : List Nat)
    (h : ∀ c ∈ p ++ a :: s', 0 ≤ IndexOf ALPHABET_STRING c ∧ IndexOf ALPHABET_STRING c < 44) :
    (renderedModules (p ++ a :: s')).take (13 + 13 * p.length) =
      expandRuns (ToIntArray ASTERISK_ENCODING) true ++ [false] ++
        (p.map (fun c => expandRuns (ToIntArray (codeEntry c)) true ++ [false])).flatten ∧
    ((renderedModules (p ++ a :: s')).drop (13 + 13 * p.length)).take 13 =
      expandRuns (ToIntArray (codeEntry a)) true ++ [false] := by
  have hp := slot_start p (fun c hc => h c (List.mem_append_left _ hc))
  have ha := h a (List.mem_append_right _ (List.mem_cons_self _ _))
  have hslot : (expandRuns (ToIntArray (codeEntry a)) true ++ [false]).length = 13 := by
    simp only [List.length_append, List.length_cons, List.length_nil,
      entry_runs _ (codeEntry_mem a ha).1]
  rw [rendered_split]
  constructor
  · exact List.take_left' hp
  · rw [List.drop_left' hp]
    exact List.take_left' hslot

/-- Different characters of the alphabet have different 13-module slots. -/
theorem slot_ne (a b : Nat) (ha : a ∈ ALPHABET_STRING) (hb : b ∈ ALPHABET_STRING)
    (hab : a ≠ b) :
    expandRuns (ToIntArray (codeEntry a)) true ++ [false] ≠
      expandRuns (ToIntArray (codeEntry b)) true ++ [false] := by
  intro h
  have h1 := List.append_cancel_right h
  have ma := (codeEntry_mem a ⟨(alphabet_facts a ha).1, (alphabet_facts a ha).2.1⟩).1
  have mb := (codeEntry_mem b ⟨(alphabet_facts b hb).1, (alphabet_facts b hb).2.1⟩).1
  exact hab (codeEntry_inj a ha b hb (pattern_inj _ ma _ mb h1))

/-- On texts over the alphabet the Code 39 encoding is injective. The alphabet has 44
pairwise distinct characters and their table entries are 44 pairwise distinct 9-bit values.
For two different texts of 1 to 80 alphabet characters `encode` completes on both and the
module sequences differ: texts of different lengths give sequences of different lengths, and
texts of the same length agree up to a first differing character, number `k`; the sequences
then agree on the modules before its slot and differ inside the 13 modules of the slot, which
starts at module `13 + 13 k`. -/
theorem encode_injective_on_alphabet (s t : List Nat)
    (hs1 : 1 ≤ s.length) (hs80 : s.length ≤ 80) (hsall : ∀ c ∈ s, c ∈ ALPHABET_STRING)
    (ht1 : 1 ≤ t.length) (ht80 : t.length ≤ 80) (htall : ∀ c ∈ t, c ∈ ALPHABET_STRING)
    (hne : s ≠ t) :
    ALPHABET_STRING.length = 44 ∧ ALPHABET_STRING.Nodup ∧
    (ALPHABET_STRING.map tableEntry).Nodup ∧ (∀ c ∈ ALPHABET_STRING, tableEntry c < 512) ∧
    ∃ bs bt : ModuleBuffer,
      Code39Writer.encode s = .ok bs ∧ Code39Writer.encode t = .ok bt ∧
      bs.cells ≠ bt.cells ∧
      (s.length ≠ t.length → bs.cells.length ≠ bt.cells.length) ∧
      (s.length = t.length →
        ∃ k : Nat, k < s.length ∧ s.take k = t.take k ∧ s.getD k 0 ≠ t.getD k 0 ∧
          bs.cells.take (13 + 13 * k) = bt.cells.take (13 + 13 * k) ∧
          (bs.cells.drop (13 + 13 * k)).take 13 ≠ (bt.cells.drop (13 + 13 * k)).take 13) := by
  obtain ⟨f1, f2, _, f4, f5, f6⟩ := tables_distinct
  have hacc_s := accepts_of_alphabet s hs1 hs80 hsall
  have hacc_t := accepts_of_alphabet t ht1 ht80 htall
  obtain ⟨hrun_s, hlen_s⟩ := encode_spec s hacc_s
  obtain ⟨hrun_t, hlen_t⟩ := encode_spec t hacc_t
  have hslot : s.length = t.length →
      ∃ k : Nat, k < s.length ∧ s.take k = t.take k ∧ s.getD k 0 ≠ t.getD k 0 ∧
        (renderedModules s).take (13 + 13 * k) = (renderedModules t).take (13 + 13 * k) ∧
        ((renderedModules s).drop (13 + 13 * k)).take 13 ≠
          ((renderedModules t).drop (13 + 13 * k)).take 13 := by
    intro hlen
    obtain ⟨p, a, b, s', t', es, et, hab, _⟩ := first_difference s t hlen hne
    subst es
    subst et
    have ha := hsall a (List.mem_append_right _ (List.mem_cons_self _ _))
    have hb := htall b (List.mem_append_right _ (List.mem_cons_self _ _))
    obtain ⟨hs_pre, hs_slot⟩ := rendered_slot p a s' hacc_s.2.2
    obtain ⟨ht_pre, ht_slot⟩ := rendered_slot p b t' hacc_t.2.2
    refine ⟨p.length, by simp, by rw [List.take_left, List.take_left], ?_, ?_, ?_⟩
    · simp only [List.getD_eq_getElem?_getD, List.getElem?_append_right (le_refl _),
        Nat.sub_self, List.getElem?_cons_zero, Option.getD_some]
      exact hab
    · rw [hs_pre, ht_pre]
    · rw [hs_slot, ht_slot]
      exact slot_ne a b ha hb hab
  refine ⟨f1, f2, by rw [f6]; exact f4, ?_, _, _, hrun_s, hrun_t, ?_, ?_, hslot⟩
  · intro c hc
    apply f5
    rw [← f6]
    exact List.mem_map_of_mem _ hc
  · show renderedModules s ≠ renderedModules t
    intro heq
    by_cases hlen : s.length = t.length
    · obtain ⟨k, _, _, _, _, hd⟩ := hslot hlen
      rw [heq] at hd
      exact hd rfl
    · have := congrArg List.length heq
      rw [hlen_s, hlen_t] at this
      omega
  · intro hlen
    show (renderedModules s).length ≠ (renderedModules t).length
    rw [hlen_s, hlen_t]
    omega

set_option maxRecDepth 100000 in
/-- C23 (defect of the code). The encoding is not injective on the texts that `encode`
accepts: the one-character texts U+0141 and "A" are different, `encode` accepts both (U+0141
is not in the alphabet, but `IndexOf` converts it to `char` and finds 'A'), and it produces
the same module sequence for both. The same holds for the two-character texts U+0230 U+0141
and "0A". Texts over the alphabet, such as "A" and "B", get different sequences. -/
theorem C23_encode_not_injective_on_accepted_texts :
    ([321] : List Nat) ≠ [65] ∧ (321 : Nat) ∉ ALPHABET_STRING ∧
    Code39Writer.accepts [321] ∧ Code39Writer.accepts [65] ∧
    Code39Writer.encode [65] = .ok ⟨renderedModules [65], List.range 38⟩ ∧
    Code39Writer.encode [321] = .ok ⟨renderedModules [65], List.range 38⟩ ∧
    ([560, 321] : List Nat) ≠ [48, 65] ∧
    Code39Writer.accepts [560, 321] ∧ Code39Writer.accepts [48, 65] ∧
    Code39Writer.encode [560, 321] = Code39Writer.encode [48, 65] ∧
    Code39Writer.encode [48, 65] = .ok ⟨renderedModules [48, 65], List.range 51⟩ ∧
    Code39Writer.encode [65] ≠ Code39Writer.encode [66] := by
  decide

end ZXing
